import Mathlib

/-!
A shallow embedding of the preprocessor-aware token buffer of
clang/lib/Tooling/Syntax/Tokens.cpp: the Token / Mapping / MarkedFile /
TokenBuffer data model, the raw tokenizer, the macro-expansion capturer,
the TokenCollector Builder, and the query surface.

Source locations are modelled as natural numbers (their raw encodings;
operator< on clang SourceLocations compares raw encodings).  The
SourceManager is a record of the lookup functions the code calls.
Debug assertions and the fatal advance-failure exit are modelled by
returning none.  Loops whose progress depends on collaborator contracts
carry fuel; fuel exhaustion also yields none, so every `some` result is
a run the C++ code completes.
-/

namespace SyntaxTok

inductive TokKind where
  | eof
  | identifier
  | rawIdentifier
  | keyword (n : Nat)
  | other (n : Nat)
deriving DecidableEq, Repr

/-- syntax::Token: {Location, Length, Kind}. -/
structure Token where
  loc : Nat
  len : Nat
  kind : TokKind
deriving DecidableEq, Repr

instance : Inhabited Token := ⟨⟨0, 0, TokKind.eof⟩⟩

/-- Token::endLocation(): Location.getLocWithOffset(Length). -/
def Token.endLoc (t : Token) : Nat := t.loc + t.len

/-- TokenBuffer::Mapping: spelled range [BeginSpelled, EndSpelled) of a file
produced expanded range [BeginExpanded, EndExpanded). -/
structure Mapping where
  beginSpelled : Nat
  endSpelled : Nat
  beginExpanded : Nat
  endExpanded : Nat
deriving DecidableEq, Repr

instance : Inhabited Mapping := ⟨⟨0, 0, 0, 0⟩⟩

/-- TokenBuffer::MarkedFile. -/
structure MarkedFile where
  spelledTokens : List Token := []
  beginExpanded : Nat := 0
  endExpanded : Nat := 0
  mappings : List Mapping := []
deriving DecidableEq, Repr

instance : Inhabited MarkedFile := ⟨{}⟩

/-- The SourceManager operations the code calls, over raw-encoded (Nat)
locations.  FileIDs are also Nats. -/
structure SrcMgr where
  expansionLoc : Nat → Nat
  fileOf : Nat → Nat
  endOfFile : Nat → Nat
  isFileID : Nat → Bool
  isBeforeTU : Nat → Nat → Bool

/-- TokenBuffer.  Files is a FileID-keyed map (llvm::DenseMap), modelled as
an association list in first-insertion order. -/
structure TokenBuffer where
  expandedTokens : List Token
  files : List (Nat × MarkedFile)
deriving DecidableEq, Repr

/-- DenseMap::find. -/
def lookupFile (fs : List (Nat × MarkedFile)) (fid : Nat) : Option MarkedFile :=
  (fs.find? (fun p => p.1 == fid)).map Prod.snd

/-- DenseMap::operator[] as an assignment target: overwrite the entry if the
key is present, append it otherwise. -/
def setFile (fs : List (Nat × MarkedFile)) (fid : Nat) (m : MarkedFile) :
    List (Nat × MarkedFile) :=
  match fs with
  | [] => [(fid, m)]
  | (g, old) :: rest =>
      if g = fid then (g, m) :: rest else (g, old) :: setFile rest fid m

/-- llvm::partition_point: the boundary of the prefix satisfying p.  On a
predicate-partitioned range (the only way the code uses it) the binary
search lands exactly at the end of that prefix. -/
def partitionPoint (p : α → Bool) (l : List α) : Nat :=
  (l.takeWhile p).length

/-- The PPExpansions table: DenseMap from raw-encoded spelling-begin
location to the expansion-end location, as an association list. -/
def lookupExp (exps : List (Nat × Nat)) (u : Nat) : Option Nat :=
  (exps.find? (fun p => p.1 == u)).map Prod.snd

/-- DenseMap::operator[] assignment on the PPExpansions table. -/
def setExp (exps : List (Nat × Nat)) (u v : Nat) : List (Nat × Nat) :=
  match exps with
  | [] => [(u, v)]
  | (k, old) :: rest =>
      if k = u then (k, v) :: rest else (k, old) :: setExp rest u v

/-! ## Queries over a finished TokenBuffer -/

/-- The index/mapping computation of TokenBuffer::spelledForExpandedToken,
relative to one MarkedFile: find the rightmost mapping with
BeginExpanded ≤ i via partition_point, then the three-way case split.
Returns the index into the file's SpelledTokens and the mapping, if any. -/
def resolveSp (file : MarkedFile) (i : Nat) : Nat × Option Mapping :=
  let k := partitionPoint (fun M => M.beginExpanded ≤ i) file.mappings
  if k = 0 then (i - file.beginExpanded, none)
  else
    let M := file.mappings.getD (k - 1) default
    if i < M.endExpanded then (M.beginSpelled, some M)
    else (M.endSpelled + (i - M.endExpanded), none)

/-- TokenBuffer::spelledForExpandedToken.  The expanded token is given by
its index i into ExpandedTokens (the pointer's offset).  The result is
(FileID, index into that file's SpelledTokens, mapping).  The in-bounds
assertion on the pointer and the tracked-file assertion are modelled by
none. -/
def spelledForExpandedToken (sm : SrcMgr) (buf : TokenBuffer) (i : Nat) :
    Option (Nat × Nat × Option Mapping) :=
  if i < buf.expandedTokens.length then
    let fid := sm.fileOf (sm.expansionLoc ((buf.expandedTokens.getD i default).loc))
    match lookupFile buf.files fid with
    | none => none
    | some file =>
        let r := resolveSp file i
        some (fid, r.1, r.2)
  else none

/-- TokenBuffer::spelledForExpanded on the expanded-index range [b, e).
Returns (FileID, begin index, end index) of the spelled range. -/
def spelledForExpanded (sm : SrcMgr) (buf : TokenBuffer) (b e : Nat) :
    Option (Nat × Nat × Nat) :=
  if e ≤ b then none
  else
    match spelledForExpandedToken sm buf b, spelledForExpandedToken sm buf (e - 1) with
    | some (fidB, sB, mB), some (fidL, sL, mL) =>
        let fid := sm.fileOf
          ((((lookupFile buf.files fidB).getD default).spelledTokens.getD sB default).loc)
        let fidLast := sm.fileOf
          ((((lookupFile buf.files fidL).getD default).spelledTokens.getD sL default).loc)
        if fid ≠ fidLast then none
        else if (match mB with | some M => decide (M.beginExpanded < b) | none => false) then
          none
        else if (match mL with | some M => decide (e < M.endExpanded) | none => false) then
          none
        else
          some (fid,
            (match mB with | some M => M.beginSpelled | none => sB),
            (match mL with | some M => M.endSpelled | none => sL + 1))
    | _, _ => none

/-- TokenBuffer::expansionStartingAt.  The spelled token is (FileID, index).
Returns (BeginSpelled, EndSpelled, BeginExpanded, EndExpanded) as the
spelled and expanded slices of the found mapping. -/
def expansionStartingAt (buf : TokenBuffer) (fid si : Nat) :
    Option (Nat × Nat × Nat × Nat) :=
  match lookupFile buf.files fid with
  | none => none
  | some file =>
      if si < file.spelledTokens.length then
        let k := partitionPoint (fun M => M.beginSpelled < si) file.mappings
        if k < file.mappings.length then
          let M := file.mappings.getD k default
          if M.beginSpelled = si then
            some (M.beginSpelled, M.endSpelled, M.beginExpanded, M.endExpanded)
          else none
        else none
      else none

/-- syntax::spelledTokensTouching. -/
def spelledTokensTouching (sm : SrcMgr) (buf : TokenBuffer) (loc : Nat) :
    List Token :=
  let all := ((lookupFile buf.files (sm.fileOf loc)).getD default).spelledTokens
  let right := partitionPoint (fun t => t.loc < loc) all
  let l : Nat :=
    if right ≠ 0 ∧ loc ≤ (all.getD (right - 1) default).endLoc then 1 else 0
  let r : Nat :=
    if right < all.length ∧ (all.getD right default).loc ≤ loc then 1 else 0
  (all.drop (right - l)).take (l + r)

/-- syntax::spelledIdentifierTouching. -/
def spelledIdentifierTouching (sm : SrcMgr) (buf : TokenBuffer) (loc : Nat) :
    Option Token :=
  (spelledTokensTouching sm buf loc).find? (fun t => t.kind == TokKind.identifier)

/-! ## syntax::tokenize -/

/-- A clang::Token as delivered by the raw lexer. -/
structure CTok where
  loc : Nat
  len : Nat
  kind : TokKind
  rawText : String
  needsCleaning : Bool
  hasUCN : Bool
deriving DecidableEq, Repr

/-- The AddToken closure of syntax::tokenize: raw identifiers that need no
cleaning and contain no UCN are resolved through the identifier table
(idKind), rewriting their kind to the keyword kind for the dialect. -/
def addToken (idKind : String → TokKind) (t : CTok) : Token :=
  if t.kind = TokKind.rawIdentifier ∧ ¬t.needsCleaning ∧ ¬t.hasUCN then
    ⟨t.loc, t.len, idKind t.rawText⟩
  else ⟨t.loc, t.len, t.kind⟩

/-- syntax::tokenize.  The raw lexer's run is its stream of tokens (those
for which LexFromRawLexer returned false) plus the terminator token at
which it returned true; the terminator is appended only when it is not
eof. -/
def tokenize (idKind : String → TokKind) (lexed : List CTok) (term : CTok) :
    List Token :=
  (lexed.map (addToken idKind)) ++
    (if term.kind ≠ TokKind.eof then [addToken idKind term] else [])

/-! ## TokenCollector::CollectPPExpansions -/

/-- The capturer's state: the back-pointer to the collector (enabled),
the collector's Expansions table, and LastExpansionEnd (0 = invalid
location). -/
structure CollectorState where
  enabled : Bool
  expansions : List (Nat × Nat)
  lastExpansionEnd : Nat
deriving DecidableEq, Repr

/-- CollectPPExpansions::MacroExpands, for the event with
Range = [rangeBegin, rangeEnd]. -/
def macroExpands (sm : SrcMgr) (st : CollectorState) (rangeBegin rangeEnd : Nat) :
    CollectorState :=
  if ¬st.enabled then st
  else if ¬sm.isFileID rangeEnd then st
  else if st.lastExpansionEnd ≠ 0 ∧ ¬sm.isBeforeTU st.lastExpansionEnd rangeEnd then st
  else
    let b := if sm.isFileID rangeBegin then rangeBegin else sm.expansionLoc rangeBegin
    { st with expansions := setExp st.expansions b rangeEnd,
              lastExpansionEnd := rangeEnd }

/-! ## TokenCollector::Builder -/

/-- The Builder's mutable cursors and the files table under construction.
NextSpelled is the DenseMap of per-file spelled cursors (default 0). -/
structure BState where
  files : List (Nat × MarkedFile)
  nextExpanded : Nat
  nextSpelled : Nat → Nat

/-- Pointwise update of the NextSpelled cursor map. -/
def updFn (f : Nat → Nat) (a v : Nat) : Nat → Nat :=
  fun x => if x = a then v else f x

/-- Builder::buildSpelledTokens, walking ExpandedTokens from index i: on
first sight of a file create its MarkedFile with SpelledTokens from
tokenize and BeginExpanded = i; on every sight update EndExpanded
(eof is not counted into the file's expanded range). -/
def buildSpelledTokensGo (sm : SrcMgr) (spelledOf : Nat → List Token) :
    List Token → Nat → List (Nat × MarkedFile) → List (Nat × MarkedFile)
  | [], _, fs => fs
  | t :: rest, i, fs =>
      let fid := sm.fileOf (sm.expansionLoc t.loc)
      let fs' :=
        match lookupFile fs fid with
        | some file =>
            setFile fs fid
              { file with endExpanded := if t.kind = TokKind.eof then i else i + 1 }
        | none =>
            fs ++ [(fid,
              { spelledTokens := spelledOf fid
                beginExpanded := i
                endExpanded := if t.kind = TokKind.eof then i else i + 1
                mappings := [] })]
      buildSpelledTokensGo sm spelledOf rest (i + 1) fs'

/-- FlushMapping inside Builder::discard: emit [mb, ns) if non-empty, with
the empty expanded range [bexp, bexp); the new mapping then begins at ns. -/
def flushOne (mb ns bexp : Nat) (acc : List Mapping) : List Mapping :=
  if mb ≠ ns then acc ++ [⟨mb, ns, bexp, bexp⟩] else acc

/-- The spelled-cursor advance loop shared by discard and advance:
while ns is in bounds and the spelled token's location is ≤ bound,
increment ns.  Structured with fuel for kernel reducibility; the loop
runs at most sp.length − ns + 1 times, so the wrapper's fuel of
sp.length + 1 never runs out. -/
def advanceWhileLeGo (sp : List Token) (bound : Nat) : Nat → Nat → Nat
  | 0, ns => ns
  | fuel + 1, ns =>
      if h : ns < sp.length then
        if (sp.get ⟨ns, h⟩).loc ≤ bound then advanceWhileLeGo sp bound fuel (ns + 1) else ns
      else ns

def advanceWhileLe (sp : List Token) (bound : Nat) (ns : Nat) : Nat :=
  advanceWhileLeGo sp bound (sp.length + 1) ns

/-- The while loop of Builder::discard, with fuel.  ns is NextSpelled, mb
the pending mapping's BeginSpelled, acc the mappings pushed so far by
this call.  Returns the final cursor and the pushed mappings; none on
fuel exhaustion (the C++ loop would not terminate). -/
def discardLoop (exps : List (Nat × Nat)) (sp : List Token) (target bexp : Nat) :
    Nat → Nat → Nat → List Mapping → Option (Nat × List Mapping)
  | 0, _, _, _ => none
  | fuel + 1, ns, mb, acc =>
      if h : ns < sp.length then
        if (sp.get ⟨ns, h⟩).loc < target then
          match lookupExp exps (sp.get ⟨ns, h⟩).loc with
          | some knownEnd =>
              let acc1 := flushOne mb ns bexp acc
              let ns1 := advanceWhileLe sp knownEnd ns
              let acc2 := flushOne ns ns1 bexp acc1
              discardLoop exps sp target bexp fuel ns1 ns1 acc2
          | none => discardLoop exps sp target bexp fuel (ns + 1) mb acc
        else some (ns, flushOne mb ns bexp acc)
      else some (ns, flushOne mb ns bexp acc)

/-- The current expanded token ExpandedTokens[NextExpanded]. -/
def curTok (E : List Token) (st : BState) : Token := E.getD st.nextExpanded default

/-- The expansion location of the current expanded token. -/
def curRoot (sm : SrcMgr) (E : List Token) (st : BState) : Nat :=
  sm.expansionLoc (curTok E st).loc

/-- The Target location of Builder::discard: the end of the drained file,
or the expansion location of the current expanded token. -/
def discardTarget (sm : SrcMgr) (E : List Token) (st : BState) : Option Nat → Nat
  | some f => sm.endOfFile f
  | none => curRoot sm E st

/-- The file the cursors of discard/advance act on: the file of Target
(for advance, of the current expansion location, i.e. drain = none). -/
def dFid (sm : SrcMgr) (E : List Token) (st : BState) (drain : Option Nat) : Nat :=
  sm.fileOf (discardTarget sm E st drain)

/-- Result.Files[File] for that file (operator[] default-constructs a
missing entry; its Mappings pushes are then dropped by the flush guard,
so reading a default entry is observationally equivalent). -/
def dFile (sm : SrcMgr) (E : List Token) (st : BState) (drain : Option Nat) : MarkedFile :=
  (lookupFile st.files (dFid sm E st drain)).getD default

/-- The expanded position of the empty mappings Builder::discard emits:
the drained file's EndExpanded, or NextExpanded. -/
def discardBexp (st : BState) : Option Nat → Nat
  | some f => ((lookupFile st.files f).getD default).endExpanded
  | none => st.nextExpanded

/-- Builder::discard.  Target is the end of the drained file, or the
expansion location of the current expanded token; the cursor file is the
file of Target; the empty mappings sit at the drained file's EndExpanded
or at NextExpanded. -/
def discard (sm : SrcMgr) (exps : List (Nat × Nat)) (E : List Token)
    (drain : Option Nat) (st : BState) : Option BState :=
  match discardLoop exps (dFile sm E st drain).spelledTokens (discardTarget sm E st drain)
      (discardBexp st drain) ((dFile sm E st drain).spelledTokens.length + 1)
      (st.nextSpelled (dFid sm E st drain)) (st.nextSpelled (dFid sm E st drain)) [] with
  | none => none
  | some (ns', newMaps) =>
      some { files := setFile st.files (dFid sm E st drain)
               { dFile sm E st drain with
                   mappings := (dFile sm E st drain).mappings ++ newMaps }
             nextExpanded := st.nextExpanded
             nextSpelled := updFn st.nextSpelled (dFid sm E st drain) ns' }

/-- The file-token run of Builder::advance: advance both cursors while the
spelled and expanded tokens have the same location.  Fuel as in
advanceWhileLeGo. -/
def advanceFileRunGo (sp E : List Token) : Nat → Nat → Nat → Nat × Nat
  | 0, ns, ne => (ns, ne)
  | fuel + 1, ns, ne =>
      if h : ns < sp.length ∧ ne < E.length then
        if (sp.get ⟨ns, h.1⟩).loc = (E.get ⟨ne, h.2⟩).loc then
          advanceFileRunGo sp E fuel (ns + 1) (ne + 1)
        else (ns, ne)
      else (ns, ne)

def advanceFileRun (sp E : List Token) (ns ne : Nat) : Nat × Nat :=
  advanceFileRunGo sp E (sp.length + 1) ns ne

/-- The expanded-side loop of Builder::advance's macro branch: consume
expanded tokens while their expansion location equals x.  Fuel as in
advanceWhileLeGo. -/
def advanceWhileRootEqGo (sm : SrcMgr) (E : List Token) (x : Nat) : Nat → Nat → Nat
  | 0, ne => ne
  | fuel + 1, ne =>
      if h : ne < E.length then
        if sm.expansionLoc (E.get ⟨ne, h⟩).loc = x then advanceWhileRootEqGo sm E x fuel (ne + 1)
        else ne
      else ne

def advanceWhileRootEq (sm : SrcMgr) (E : List Token) (x : Nat) (ne : Nat) : Nat :=
  advanceWhileRootEqGo sm E x (E.length + 1) ne

/-- Builder::advance.  File tokens are consumed as a run with no mapping;
a macro expansion consumes spelled tokens up to the captured end and
expanded tokens rooted at the same expansion location, and pushes a
mapping.  The assert on the missing captured-expansion lookup is none.
The file is that of the current expansion location (dFid with no drain). -/
def advance (sm : SrcMgr) (exps : List (Nat × Nat)) (E : List Token)
    (st : BState) : Option BState :=
  if sm.isFileID (curTok E st).loc then
    let r := advanceFileRun (dFile sm E st none).spelledTokens E
      (st.nextSpelled (dFid sm E st none)) st.nextExpanded
    some { st with nextExpanded := r.2
                   nextSpelled := updFn st.nextSpelled (dFid sm E st none) r.1 }
  else
    match lookupExp exps (curRoot sm E st) with
    | none => none
    | some endL =>
        let ns' := advanceWhileLe (dFile sm E st none).spelledTokens endL
          (st.nextSpelled (dFid sm E st none))
        let ne' := advanceWhileRootEq sm E (curRoot sm E st) st.nextExpanded
        let m : Mapping := ⟨st.nextSpelled (dFid sm E st none), ns', st.nextExpanded, ne'⟩
        some { files := setFile st.files (dFid sm E st none)
                 { dFile sm E st none with
                     mappings := (dFile sm E st none).mappings ++ [m] }
               nextExpanded := ne'
               nextSpelled := updFn st.nextSpelled (dFid sm E st none) ns' }

/-- The main loop of Builder::build, with fuel: while NextExpanded is
before the final eof, discard then advance; advance must strictly
increase NextExpanded or the builder fails fatally (none). -/
def mainLoop (sm : SrcMgr) (exps : List (Nat × Nat)) (E : List Token) :
    Nat → BState → Option BState
  | 0, _ => none
  | fuel + 1, st =>
      if st.nextExpanded < E.length - 1 then
        match discard sm exps E none st with
        | none => none
        | some st1 =>
            match advance sm exps E st1 with
            | none => none
            | some st2 =>
                if st2.nextExpanded = st1.nextExpanded then none
                else mainLoop sm exps E fuel st2
      else some st

/-- The post-loop pass of Builder::build: drain trailing spelled tokens of
every tracked file. -/
def drainAll (sm : SrcMgr) (exps : List (Nat × Nat)) (E : List Token) :
    List Nat → BState → Option BState
  | [], st => some st
  | f :: rest, st =>
      match discard sm exps E (some f) st with
      | none => none
      | some st' => drainAll sm exps E rest st'

/-- TokenCollector::Builder::build.  spelledOf is the tokenize result per
file (the Builder calls tokenize(FID, SM, LangOpts)); exps is the
captured PPExpansions table; E the collected expanded stream. -/
def build (sm : SrcMgr) (spelledOf : Nat → List Token) (exps : List (Nat × Nat))
    (E : List Token) : Option TokenBuffer :=
  if E = [] then none
  else if ((E.getLast?).getD default).kind ≠ TokKind.eof then none
  else
    let st0 : BState :=
      { files := buildSpelledTokensGo sm spelledOf E 0 []
        nextExpanded := 0
        nextSpelled := fun _ => 0 }
    match mainLoop sm exps E (E.length + 1) st0 with
    | none => none
    | some st1 =>
        match drainAll sm exps E (st1.files.map Prod.fst) st1 with
        | none => none
        | some st2 => some { expandedTokens := E, files := st2.files }

/-! ## Claim-level predicates -/

/-- Mappings strictly ordered by BeginSpelled and non-overlapping on the
spelled side. -/
def StrictDisjointSpelled (ms : List Mapping) : Prop :=
  List.Pairwise
    (fun a b => a.beginSpelled < b.beginSpelled ∧ a.endSpelled ≤ b.beginSpelled) ms

/-- Mappings strictly ordered by BeginExpanded and non-overlapping on the
expanded side. -/
def StrictDisjointExpanded (ms : List Mapping) : Prop :=
  List.Pairwise
    (fun a b => a.beginExpanded < b.beginExpanded ∧ a.endExpanded ≤ b.beginExpanded) ms

/-- Mappings (weakly) ordered by BeginExpanded and non-overlapping on the
expanded side. -/
def OrderedDisjointExpanded (ms : List Mapping) : Prop :=
  List.Pairwise
    (fun a b => a.beginExpanded ≤ b.beginExpanded ∧ a.endExpanded ≤ b.beginExpanded) ms

/-! ## Concrete scenarios

Scenario A is the program
  #define E
  #define F
  E F 1;
lexed in file 0 at one location per token (locations 1..10; the uses of
E and F sit at locations 7 and 8, and both expand to nothing, so the
captured expansion table maps 7 ↦ 7 and 8 ↦ 8).  The expanded stream is
the two file tokens at 9 and 10, then eof at the end-of-file location 11.
-/

def spA : List Token :=
  [⟨1, 1, TokKind.other 0⟩, ⟨2, 1, TokKind.identifier⟩, ⟨3, 1, TokKind.identifier⟩,
   ⟨4, 1, TokKind.other 0⟩, ⟨5, 1, TokKind.identifier⟩, ⟨6, 1, TokKind.identifier⟩,
   ⟨7, 1, TokKind.identifier⟩, ⟨8, 1, TokKind.identifier⟩, ⟨9, 1, TokKind.other 1⟩,
   ⟨10, 1, TokKind.other 2⟩]

def smA : SrcMgr :=
  { expansionLoc := fun l => l
    fileOf := fun _ => 0
    endOfFile := fun _ => 11
    isFileID := fun _ => true
    isBeforeTU := fun a b => a < b }

def expsA : List (Nat × Nat) := [(7, 7), (8, 8)]

def EA : List Token := [⟨9, 1, TokKind.other 1⟩, ⟨10, 1, TokKind.other 2⟩, ⟨11, 0, TokKind.eof⟩]

def spelledOfA : Nat → List Token := fun f => if f = 0 then spA else []

/-- The buffer the Builder produces on scenario A. -/
def fileA : MarkedFile :=
  { spelledTokens := spA, beginExpanded := 0, endExpanded := 2,
    mappings := [⟨0, 6, 0, 0⟩, ⟨6, 7, 0, 0⟩, ⟨7, 8, 0, 0⟩] }

def bufA : TokenBuffer := { expandedTokens := EA, files := [(0, fileA)] }

/-! Scenario B is the program
  #define X 1
  int a = X;
lexed in file 0 at one location per token (locations 1..9; the use of X
sits at location 8 and the captured expansion table maps 8 ↦ 8).  The
expanded stream is int a = at 5..7, the macro-produced token 1 at the
non-file location 100 whose expansion location is 8, the semicolon at 9,
and eof at the end-of-file location 10. -/

def spB : List Token :=
  [⟨1, 1, TokKind.other 0⟩, ⟨2, 1, TokKind.identifier⟩, ⟨3, 1, TokKind.identifier⟩,
   ⟨4, 1, TokKind.other 1⟩, ⟨5, 1, TokKind.keyword 0⟩, ⟨6, 1, TokKind.identifier⟩,
   ⟨7, 1, TokKind.other 3⟩, ⟨8, 1, TokKind.identifier⟩, ⟨9, 1, TokKind.other 4⟩]

def smB : SrcMgr :=
  { expansionLoc := fun l => if l = 100 then 8 else l
    fileOf := fun _ => 0
    endOfFile := fun _ => 10
    isFileID := fun l => decide (l ≠ 100)
    isBeforeTU := fun a b => a < b }

def expsB : List (Nat × Nat) := [(8, 8)]

def EB : List Token :=
  [⟨5, 1, TokKind.keyword 0⟩, ⟨6, 1, TokKind.identifier⟩, ⟨7, 1, TokKind.other 3⟩,
   ⟨100, 1, TokKind.other 1⟩, ⟨9, 1, TokKind.other 4⟩, ⟨10, 0, TokKind.eof⟩]

def spelledOfB : Nat → List Token := fun f => if f = 0 then spB else []

/-- The buffer the Builder produces on scenario B. -/
def fileB : MarkedFile :=
  { spelledTokens := spB, beginExpanded := 0, endExpanded := 5,
    mappings := [⟨0, 4, 0, 0⟩, ⟨7, 8, 3, 4⟩] }

def bufB : TokenBuffer := { expandedTokens := EB, files := [(0, fileB)] }

/-! Scenario C exercises the expansion capturer: an inner macro whose
range begins at the non-file location 20 (with expansion location 10,
the key of the already-recorded outer expansion) and ends at the file
location 30. -/

def smC : SrcMgr :=
  { expansionLoc := fun l => if l = 20 then 10 else l
    fileOf := fun _ => 0
    endOfFile := fun _ => 99
    isFileID := fun l => decide (l ≠ 20)
    isBeforeTU := fun a b => a < b }

def stC : CollectorState :=
  { enabled := true, expansions := [(10, 15)], lastExpansionEnd := 15 }

/-! Scenario T: two adjacent identifiers foo (locations 1..3) and bar
(locations 4..6) with no whitespace between them; their shared boundary
is location 4. -/

def spT : List Token := [⟨1, 3, TokKind.identifier⟩, ⟨4, 3, TokKind.identifier⟩]

def smT : SrcMgr :=
  { expansionLoc := fun l => l
    fileOf := fun _ => 0
    endOfFile := fun _ => 7
    isFileID := fun _ => true
    isBeforeTU := fun a b => a < b }

def bufT : TokenBuffer :=
  { expandedTokens := []
    files := [(0, { spelledTokens := spT, beginExpanded := 0, endExpanded := 0, mappings := [] })] }

/-! Scenario L: a lexer run for C5's witness. -/

def lexedL : List CTok :=
  [⟨1, 3, TokKind.rawIdentifier, "int", false, false⟩,
   ⟨5, 1, TokKind.other 0, "", false, false⟩]

def termL : CTok := ⟨6, 0, TokKind.eof, "", false, false⟩

def idKindL : String → TokKind := fun s => if s = "int" then TokKind.keyword 0 else TokKind.identifier

/-! Scenario D: a buffer over two files (0: location 1, 1: location 50),
used to exercise the cross-file bail-out of spelledForExpanded. -/

def smD : SrcMgr :=
  { expansionLoc := fun l => l
    fileOf := fun l => if l < 50 then 0 else 1
    endOfFile := fun f => if f = 0 then 49 else 99
    isFileID := fun _ => true
    isBeforeTU := fun a b => a < b }

def bufD : TokenBuffer :=
  { expandedTokens := [⟨1, 1, TokKind.identifier⟩, ⟨50, 1, TokKind.identifier⟩]
    files :=
      [(0, { spelledTokens := [⟨1, 1, TokKind.identifier⟩]
             beginExpanded := 0, endExpanded := 1, mappings := [] }),
       (1, { spelledTokens := [⟨50, 1, TokKind.identifier⟩]
             beginExpanded := 1, endExpanded := 2, mappings := [] })] }

/-! ## The collaborator contract and the Builder's invariants -/

/-- The expansion location ("root") of the expanded token at index i. -/
def rootOf (sm : SrcMgr) (E : List Token) (i : Nat) : Nat :=
  sm.expansionLoc ((E.getD i default).loc)

/-- The file of the expanded token at index i (the file of its root). -/
def fidOf (sm : SrcMgr) (E : List Token) (i : Nat) : Nat :=
  sm.fileOf (rootOf sm E i)

/-- The files contributing to the expanded stream. -/
def fidsOf (sm : SrcMgr) (E : List Token) : List Nat :=
  E.map (fun t => sm.fileOf (sm.expansionLoc t.loc))

/-- The last source position an advance rooted at index i consumes on the
spelled side: the root itself for a file token, the captured expansion
end for a macro token. -/
def spelledBound (sm : SrcMgr) (exps : List (Nat × Nat)) (E : List Token) (i : Nat) : Nat :=
  if sm.isFileID ((E.getD i default).loc) then rootOf sm E i
  else (lookupExp exps (rootOf sm E i)).getD 0

/-- The collaborator contract (spec §6): what the Builder may assume about
the SourceManager, the per-file tokenize results, the captured expansion
table and the expanded stream delivered by the preprocessor. -/
structure Contract (sm : SrcMgr) (spelledOf : Nat → List Token)
    (exps : List (Nat × Nat)) (E : List Token) : Prop where
  /-- Per-file spelled streams are strictly ordered by location. -/
  sortedSpelled : ∀ f ∈ fidsOf sm E, List.Pairwise (fun a b => a.loc < b.loc) (spelledOf f)
  /-- Spelled tokens lie before their file's end-of-file location. -/
  spelledBelowEof : ∀ f ∈ fidsOf sm E, ∀ t ∈ spelledOf f, t.loc < sm.endOfFile f
  /-- Spelled tokens decompose to their own file. -/
  fileOfSpelled : ∀ f ∈ fidsOf sm E, ∀ t ∈ spelledOf f, sm.fileOf t.loc = f
  /-- The end-of-file location belongs to the file. -/
  fileOfEof : ∀ f ∈ fidsOf sm E, sm.fileOf (sm.endOfFile f) = f
  /-- The stream is non-empty and ends with the eof token. -/
  neNil : E ≠ []
  lastEof : ((E.getLast?).getD default).kind = TokKind.eof
  /-- No token before the final one is eof. -/
  noEofBefore : ∀ i, i < E.length - 1 → (E.getD i default).kind ≠ TokKind.eof
  /-- The expansion location of a file location is itself. -/
  rootFileId : ∀ i, i < E.length → sm.isFileID ((E.getD i default).loc) = true →
    rootOf sm E i = (E.getD i default).loc
  /-- Every expansion root is spelled in its file. -/
  rootSpelled : ∀ i, i < E.length - 1 → ∃ t ∈ spelledOf (fidOf sm E i), t.loc = rootOf sm E i
  /-- Expansion roots of produced tokens are captured, ending no earlier
  than they begin. -/
  rootCaptured : ∀ i, i < E.length - 1 → sm.isFileID ((E.getD i default).loc) = false →
    ∃ ke, lookupExp exps (rootOf sm E i) = some ke ∧ rootOf sm E i ≤ ke
  /-- Captured ranges are non-degenerate. -/
  expStartLe : ∀ p ∈ exps, p.1 ≤ p.2
  /-- Captured ranges never straddle an expansion root. -/
  expAvoidRoots : ∀ p ∈ exps, ∀ i, i < E.length - 1 → p.1 < rootOf sm E i →
    p.2 < rootOf sm E i
  /-- Expansion roots of one file appear in increasing order. -/
  rootsMono : ∀ i j, i < j → j < E.length - 1 → fidOf sm E i = fidOf sm E j →
    rootOf sm E i ≠ rootOf sm E j → rootOf sm E i < rootOf sm E j
  /-- Equal-root runs are contiguous. -/
  rootRuns : ∀ i j k, i ≤ j → j ≤ k → k < E.length - 1 → rootOf sm E i = rootOf sm E k →
    rootOf sm E j = rootOf sm E i
  /-- The eof's root is no other token's root. -/
  eofRootFresh : ∀ i, i < E.length - 1 → rootOf sm E i ≠ rootOf sm E (E.length - 1)
  /-- No spelled token sits at the eof location. -/
  eofLocFresh : ∀ f ∈ fidsOf sm E, ∀ t ∈ spelledOf f,
    t.loc ≠ (E.getD (E.length - 1) default).loc
  /-- When a file's contribution resumes after an interlude from other
  files, it has pending spelled tokens before its next root. -/
  resumePending : ∀ i j, i < j → j < E.length - 1 → fidOf sm E i = fidOf sm E j →
    rootOf sm E i ≠ rootOf sm E j →
    (∀ k, i < k → k < j → fidOf sm E k ≠ fidOf sm E j) →
    (∃ k, i < k ∧ k < j ∧ fidOf sm E k ≠ fidOf sm E j) →
    ∃ t ∈ spelledOf (fidOf sm E j),
      spelledBound sm exps E i < t.loc ∧ t.loc < rootOf sm E j
  /-- A root is either a file-token root or a macro root, never both. -/
  rootHomogeneous : ∀ i j, i < E.length → j < E.length → rootOf sm E i = rootOf sm E j →
    sm.isFileID ((E.getD i default).loc) = sm.isFileID ((E.getD j default).loc)
  /-- Distinct file tokens have distinct locations. -/
  fileTokensDistinct : ∀ i j, i < j → j < E.length - 1 →
    sm.isFileID ((E.getD i default).loc) = true →
    sm.isFileID ((E.getD j default).loc) = true →
    (E.getD i default).loc ≠ (E.getD j default).loc
  /-- Non-file token locations never collide with spelled locations. -/
  macLocFresh : ∀ i, i < E.length → sm.isFileID ((E.getD i default).loc) = false →
    ∀ f ∈ fidsOf sm E, ∀ t ∈ spelledOf f, t.loc ≠ (E.getD i default).loc

/-- The mappings a single discard call emits partition the consumed
spelled range [lo, hi) into consecutive non-empty chunks, all with the
empty expanded range [bexp, bexp). -/
def MapsCover (bexp : Nat) : Nat → Nat → List Mapping → Prop
  | lo, hi, [] => lo = hi
  | lo, hi, M :: rest =>
      M.beginSpelled = lo ∧ lo < M.endSpelled ∧ M.beginExpanded = bexp ∧
        M.endExpanded = bexp ∧ MapsCover bexp M.endSpelled hi rest

/-- The cursor of file f agrees with the file-token-run resolution formula
at the current expanded position. -/
def Aligned (st : BState) (f : Nat) (file : MarkedFile) : Prop :=
  (resolveSp file st.nextExpanded).1 = st.nextSpelled f

/-- File f has a pending spelled token (strictly before f's next expansion
root) that the next discard targeting f will flush, realigning it. -/
def Pending (sm : SrcMgr) (spelledOf : Nat → List Token) (E : List Token)
    (st : BState) (f : Nat) : Prop :=
  ∀ i, st.nextExpanded ≤ i → i < E.length - 1 → fidOf sm E i = f →
    (∀ k, st.nextExpanded ≤ k → k < i → fidOf sm E k ≠ f) →
    st.nextSpelled f < (spelledOf f).length ∧
    ((spelledOf f).getD (st.nextSpelled f) default).loc < rootOf sm E i

/-- The static facts buildSpelledTokens establishes about the files table
(discard and advance never touch them). -/
structure StaticInv (sm : SrcMgr) (spelledOf : Nat → List Token) (E : List Token)
    (files : List (Nat × MarkedFile)) : Prop where
  spelled : ∀ f file, lookupFile files f = some file → file.spelledTokens = spelledOf f
  keysMem : ∀ f, (lookupFile files f).isSome ↔ f ∈ fidsOf sm E
  beginFid : ∀ f file, lookupFile files f = some file →
    fidOf sm E file.beginExpanded = f ∧ file.beginExpanded < E.length
  beginLe : ∀ f file, lookupFile files f = some file →
    ∀ i, i < E.length → fidOf sm E i = f → file.beginExpanded ≤ i
  endGe : ∀ f file, lookupFile files f = some file →
    ∀ i, i < E.length → fidOf sm E i = f → (E.getD i default).kind ≠ TokKind.eof →
      i + 1 ≤ file.endExpanded
  endLe : ∀ f file, lookupFile files f = some file → file.endExpanded ≤ E.length - 1
  nodupKeys : (files.map Prod.fst).Nodup

/-- The partial invariant of buildSpelledTokens' fold after processing the
first i expanded tokens. -/
def BsgP (sm : SrcMgr) (spelledOf : Nat → List Token) (E : List Token) (i : Nat)
    (fs : List (Nat × MarkedFile)) : Prop :=
  (∀ f file, lookupFile fs f = some file →
    file.spelledTokens = spelledOf f ∧ file.mappings = [] ∧
    fidOf sm E file.beginExpanded = f ∧ file.beginExpanded < i ∧
    (∀ j, j < i → fidOf sm E j = f → file.beginExpanded ≤ j ∧
      ((E.getD j default).kind ≠ TokKind.eof → j + 1 ≤ file.endExpanded)) ∧
    file.endExpanded ≤ E.length - 1) ∧
  (∀ f, (lookupFile fs f).isSome ↔ ∃ j, j < i ∧ fidOf sm E j = f) ∧
  (fs.map Prod.fst).Nodup

/-- The per-file dynamic invariant that survives to the finished buffer. -/
structure FileInvCore (spelledOf : Nat → List Token) (st : BState)
    (f : Nat) (file : MarkedFile) : Prop where
  chain : List.Pairwise
    (fun a b => a.endSpelled ≤ b.beginSpelled ∧ a.endExpanded ≤ b.beginExpanded)
    file.mappings
  wfStrict : ∀ M ∈ file.mappings,
    M.beginSpelled < M.endSpelled ∧ M.beginExpanded ≤ M.endExpanded
  esLe : ∀ M ∈ file.mappings, M.endSpelled ≤ st.nextSpelled f
  eeLeNe : ∀ M ∈ file.mappings, M.endExpanded ≤ st.nextExpanded
  eeLeEnd : ∀ M ∈ file.mappings, M.endExpanded ≤ file.endExpanded
  nsLe : st.nextSpelled f ≤ (spelledOf f).length

/-- The file-token-run resolution of every already-consumed expanded token
of f lands on a consumed spelled token with the same location. -/
def Resolved (sm : SrcMgr) (spelledOf : Nat → List Token) (E : List Token)
    (st : BState) (f : Nat) (file : MarkedFile) : Prop :=
  ∀ i, i < st.nextExpanded → i < E.length - 1 → fidOf sm E i = f →
    (resolveSp file i).2 = none →
    (resolveSp file i).1 < st.nextSpelled f ∧
    ((spelledOf f).getD (resolveSp file i).1 default).loc = (E.getD i default).loc

/-- The full per-file invariant of the Builder's main loop. -/
structure FileInvLoop (sm : SrcMgr) (spelledOf : Nat → List Token)
    (exps : List (Nat × Nat)) (E : List Token) (st : BState)
    (f : Nat) (file : MarkedFile) : Prop where
  core : FileInvCore spelledOf st f file
  resolved : Resolved sm spelledOf E st f file
  consumed : ∀ j, j < st.nextSpelled f → ∀ i, st.nextExpanded ≤ i → i < E.length - 1 →
    fidOf sm E i = f → ((spelledOf f).getD j default).loc < rootOf sm E i
  consumedBound : ∀ i, i < st.nextExpanded → fidOf sm E i = f →
    (∀ k, i < k → k < st.nextExpanded → fidOf sm E k ≠ f) →
    ∀ j, j < st.nextSpelled f →
      ((spelledOf f).getD j default).loc ≤ spelledBound sm exps E i
  nsZero : (∀ i, i < st.nextExpanded → fidOf sm E i ≠ f) → st.nextSpelled f = 0
  frontier : Aligned st f file ∨ Pending sm spelledOf E st f

/-- The whole-state invariant of the main loop. -/
def LoopInv (sm : SrcMgr) (spelledOf : Nat → List Token) (exps : List (Nat × Nat))
    (E : List Token) (st : BState) : Prop :=
  ∀ f file, lookupFile st.files f = some file →
    FileInvLoop sm spelledOf exps E st f file

/-- The whole-state invariant preserved by the drain phase. -/
def CoreInv (sm : SrcMgr) (spelledOf : Nat → List Token) (E : List Token)
    (st : BState) : Prop :=
  ∀ f file, lookupFile st.files f = some file →
    FileInvCore spelledOf st f file ∧ Resolved sm spelledOf E st f file

/-! # Theorems -/

/-! ## Generic lemmas about the file table -/

theorem lookupFile_some_mem {fs : List (Nat × MarkedFile)} {f : Nat} {m : MarkedFile}
    (h : lookupFile fs f = some m) : (f, m) ∈ fs := by
  unfold lookupFile at h
  cases hf : fs.find? (fun p => p.1 == f) with
  | none => rw [hf] at h; simp at h
  | some p =>
      rw [hf] at h
      simp at h
      have hp := List.find?_some hf
      have hm := List.mem_of_find?_eq_some hf
      simp at hp
      rcases p with ⟨g, m'⟩
      simp at hp h
      subst hp
      subst h
      exact hm

theorem mem_setFile {fs : List (Nat × MarkedFile)} {fid : Nat} {m : MarkedFile}
    {p : Nat × MarkedFile} (h : p ∈ setFile fs fid m) : p = (fid, m) ∨ p ∈ fs := by
  induction fs with
  | nil => simp [setFile] at h; simp [h]
  | cons q rest ih =>
      rcases q with ⟨g, old⟩
      unfold setFile at h
      by_cases hg : g = fid
      · simp [hg] at h
        rcases h with h | h
        · left; simp [h, hg]
        · right; simp [h]
      · simp [hg] at h
        rcases h with h | h
        · right; simp [h]
        · rcases ih h with h' | h'
          · left; exact h'
          · right; simp [h']

/-! ## Shape lemmas: what a successful step looks like -/

theorem discard_some_shape {sm : SrcMgr} {exps : List (Nat × Nat)} {E : List Token}
    {drain : Option Nat} {st st' : BState}
    (h : discard sm exps E drain st = some st') :
    ∃ ns2 maps,
      discardLoop exps (dFile sm E st drain).spelledTokens (discardTarget sm E st drain)
          (discardBexp st drain) ((dFile sm E st drain).spelledTokens.length + 1)
          (st.nextSpelled (dFid sm E st drain)) (st.nextSpelled (dFid sm E st drain)) []
        = some (ns2, maps) ∧
      st' = { files := setFile st.files (dFid sm E st drain)
                { dFile sm E st drain with
                    mappings := (dFile sm E st drain).mappings ++ maps }
              nextExpanded := st.nextExpanded
              nextSpelled := updFn st.nextSpelled (dFid sm E st drain) ns2 } := by
  simp only [discard] at h
  split at h
  · exact absurd h (by simp)
  · rename_i r ns2 maps heq
    refine ⟨ns2, maps, heq, ?_⟩
    simp at h
    exact h.symm

theorem advance_some_shape {sm : SrcMgr} {exps : List (Nat × Nat)} {E : List Token}
    {st st' : BState} (h : advance sm exps E st = some st') :
    (sm.isFileID (curTok E st).loc = true ∧
      st' = { st with
        nextExpanded := (advanceFileRun (dFile sm E st none).spelledTokens E
          (st.nextSpelled (dFid sm E st none)) st.nextExpanded).2
        nextSpelled := updFn st.nextSpelled (dFid sm E st none)
          (advanceFileRun (dFile sm E st none).spelledTokens E
            (st.nextSpelled (dFid sm E st none)) st.nextExpanded).1 }) ∨
    (sm.isFileID (curTok E st).loc = false ∧
      ∃ endL, lookupExp exps (curRoot sm E st) = some endL ∧
        st' = { files := setFile st.files (dFid sm E st none)
                  { dFile sm E st none with
                      mappings := (dFile sm E st none).mappings ++
                        [⟨st.nextSpelled (dFid sm E st none),
                          advanceWhileLe (dFile sm E st none).spelledTokens endL
                            (st.nextSpelled (dFid sm E st none)),
                          st.nextExpanded,
                          advanceWhileRootEq sm E (curRoot sm E st) st.nextExpanded⟩] }
                nextExpanded := advanceWhileRootEq sm E (curRoot sm E st) st.nextExpanded
                nextSpelled := updFn st.nextSpelled (dFid sm E st none)
                  (advanceWhileLe (dFile sm E st none).spelledTokens endL
                    (st.nextSpelled (dFid sm E st none))) }) := by
  simp only [advance] at h
  split at h
  · rename_i hfid
    left
    refine ⟨by simpa using hfid, ?_⟩
    simp at h
    exact h.symm
  · rename_i hfid
    right
    refine ⟨by simpa using hfid, ?_⟩
    split at h
    · exact absurd h (by simp)
    · rename_i endL heq
      refine ⟨endL, heq, ?_⟩
      simp at h
      exact h.symm

theorem mainLoop_succ_shape {sm : SrcMgr} {exps : List (Nat × Nat)} {E : List Token}
    {fuel : Nat} {st st' : BState} (h : mainLoop sm exps E (fuel + 1) st = some st') :
    (¬st.nextExpanded < E.length - 1 ∧ st' = st) ∨
    (st.nextExpanded < E.length - 1 ∧
      ∃ st1 st2, discard sm exps E none st = some st1 ∧
        advance sm exps E st1 = some st2 ∧
        st2.nextExpanded ≠ st1.nextExpanded ∧
        mainLoop sm exps E fuel st2 = some st') := by
  simp only [mainLoop] at h
  split at h
  · rename_i hlt
    right
    refine ⟨hlt, ?_⟩
    split at h
    · exact absurd h (by simp)
    · rename_i st1 h1
      split at h
      · exact absurd h (by simp)
      · rename_i st2 h2
        split at h
        · exact absurd h (by simp)
        · rename_i hne
          exact ⟨st1, st2, h1, h2, hne, h⟩
  · rename_i hlt
    left
    simp at h
    exact ⟨hlt, h.symm⟩

theorem drainAll_cons_shape {sm : SrcMgr} {exps : List (Nat × Nat)} {E : List Token}
    {f : Nat} {rest : List Nat} {st st' : BState}
    (h : drainAll sm exps E (f :: rest) st = some st') :
    ∃ st1, discard sm exps E (some f) st = some st1 ∧ drainAll sm exps E rest st1 = some st' := by
  simp only [drainAll] at h
  split at h
  · exact absurd h (by simp)
  · rename_i st1 h1
    exact ⟨st1, h1, h⟩

theorem build_some_shape {sm : SrcMgr} {spelledOf : Nat → List Token}
    {exps : List (Nat × Nat)} {E : List Token} {buf : TokenBuffer}
    (h : build sm spelledOf exps E = some buf) :
    E ≠ [] ∧ ((E.getLast?).getD default).kind = TokKind.eof ∧
    ∃ st1 st2,
      mainLoop sm exps E (E.length + 1)
        { files := buildSpelledTokensGo sm spelledOf E 0 []
          nextExpanded := 0
          nextSpelled := fun _ => 0 } = some st1 ∧
      drainAll sm exps E (st1.files.map Prod.fst) st1 = some st2 ∧
      buf = { expandedTokens := E, files := st2.files } := by
  simp only [build] at h
  split at h
  · exact absurd h (by simp)
  · rename_i hne
    split at h
    · exact absurd h (by simp)
    · rename_i heof
      refine ⟨hne, by simpa using heof, ?_⟩
      split at h
      · exact absurd h (by simp)
      · rename_i st1 h1
        split at h
        · exact absurd h (by simp)
        · rename_i st2 h2
          simp at h
          exact ⟨st1, st2, h1, h2, h.symm⟩

/-- Every file entry of a built buffer carries either the tokenize result
for its file id or the empty list (a default-constructed MarkedFile). -/
theorem build_files_spelled {sm : SrcMgr} {spelledOf : Nat → List Token}
    {exps : List (Nat × Nat)} {E : List Token} {buf : TokenBuffer}
    (hb : build sm spelledOf exps E = some buf) :
    ∀ p ∈ buf.files, p.2.spelledTokens = spelledOf p.1 ∨ p.2.spelledTokens = [] := by
  have hgo : ∀ (l : List Token) (i : Nat) (fs : List (Nat × MarkedFile)),
      (∀ p ∈ fs, p.2.spelledTokens = spelledOf p.1 ∨ p.2.spelledTokens = []) →
      ∀ p ∈ buildSpelledTokensGo sm spelledOf l i fs,
        p.2.spelledTokens = spelledOf p.1 ∨ p.2.spelledTokens = [] := by
    intro l
    induction l with
    | nil => intro i fs hfs p hp; exact hfs p hp
    | cons t rest ih =>
        intro i fs hfs p hp
        simp only [buildSpelledTokensGo] at hp
        cases hlk : lookupFile fs (sm.fileOf (sm.expansionLoc t.loc)) with
        | some file =>
            rw [hlk] at hp
            refine ih (i + 1) _ ?_ p hp
            intro q hq
            rcases mem_setFile hq with h | h
            · have := hfs _ (lookupFile_some_mem hlk)
              simp [h]
              simpa using this
            · exact hfs q h
        | none =>
            rw [hlk] at hp
            refine ih (i + 1) _ ?_ p hp
            intro q hq
            rcases List.mem_append.1 hq with h | h
            · exact hfs q h
            · simp at h
              simp [h]
  have hdfile : ∀ (st : BState) (drain : Option Nat),
      (∀ p ∈ st.files, p.2.spelledTokens = spelledOf p.1 ∨ p.2.spelledTokens = []) →
      (dFile sm E st drain).spelledTokens = spelledOf (dFid sm E st drain) ∨
        (dFile sm E st drain).spelledTokens = [] := by
    intro st drain hfs
    unfold dFile
    cases hlk : lookupFile st.files (dFid sm E st drain) with
    | some file =>
        have := hfs _ (lookupFile_some_mem hlk)
        simpa using this
    | none => simp [default]
  have hdiscard : ∀ (drain : Option Nat) (st st' : BState),
      discard sm exps E drain st = some st' →
      (∀ p ∈ st.files, p.2.spelledTokens = spelledOf p.1 ∨ p.2.spelledTokens = []) →
      ∀ p ∈ st'.files, p.2.spelledTokens = spelledOf p.1 ∨ p.2.spelledTokens = [] := by
    intro drain st st' hd hfs
    obtain ⟨ns2, maps, _, rfl⟩ := discard_some_shape hd
    intro p hp
    simp at hp
    rcases mem_setFile hp with h | h
    · subst h
      simpa using hdfile st drain hfs
    · exact hfs p h
  have hadvance : ∀ (st st' : BState),
      advance sm exps E st = some st' →
      (∀ p ∈ st.files, p.2.spelledTokens = spelledOf p.1 ∨ p.2.spelledTokens = []) →
      ∀ p ∈ st'.files, p.2.spelledTokens = spelledOf p.1 ∨ p.2.spelledTokens = [] := by
    intro st st' hd hfs
    rcases advance_some_shape hd with ⟨_, rfl⟩ | ⟨_, endL, _, rfl⟩
    · exact hfs
    · intro p hp
      simp at hp
      rcases mem_setFile hp with h | h
      · subst h
        simpa using hdfile st none hfs
      · exact hfs p h
  have hloop : ∀ (fuel : Nat) (st st' : BState),
      mainLoop sm exps E fuel st = some st' →
      (∀ p ∈ st.files, p.2.spelledTokens = spelledOf p.1 ∨ p.2.spelledTokens = []) →
      ∀ p ∈ st'.files, p.2.spelledTokens = spelledOf p.1 ∨ p.2.spelledTokens = [] := by
    intro fuel
    induction fuel with
    | zero => intro st st' h; simp [mainLoop] at h
    | succ n ih =>
        intro st st' h hfs
        rcases mainLoop_succ_shape h with ⟨_, rfl⟩ | ⟨_, st1, st2, h1, h2, _, h3⟩
        · exact hfs
        · exact ih st2 st' h3 (hadvance st1 st2 h2 (hdiscard none st st1 h1 hfs))
  have hdrain : ∀ (l : List Nat) (st st' : BState),
      drainAll sm exps E l st = some st' →
      (∀ p ∈ st.files, p.2.spelledTokens = spelledOf p.1 ∨ p.2.spelledTokens = []) →
      ∀ p ∈ st'.files, p.2.spelledTokens = spelledOf p.1 ∨ p.2.spelledTokens = [] := by
    intro l
    induction l with
    | nil => intro st st' h hfs; simp [drainAll] at h; subst h; exact hfs
    | cons f rest ih =>
        intro st st' h hfs
        obtain ⟨st1, h1, h2⟩ := drainAll_cons_shape h
        exact ih st1 st' h2 (hdiscard (some f) st st1 h1 hfs)
  obtain ⟨_, _, st1, st2, h1, h2, rfl⟩ := build_some_shape hb
  exact hdrain _ st1 st2 h2 (hloop _ _ st1 h1 (hgo E 0 [] (by simp)))

/-! ## C1: strict ordering of Mappings on both sides (counterexample) -/

/-- C1 counterexample: on scenario A (two empty object-like macros expanded
back to back) the Builder completes, yet the file's Mappings are not
strictly ordered by BeginExpanded: discard emits three empty-expanded
mappings that all carry BeginExpanded = EndExpanded = 0. -/
theorem claim_c1_counterexample :
    build smA spelledOfA expsA EA = some bufA ∧
    lookupFile bufA.files 0 = some fileA ∧
    ¬StrictDisjointExpanded fileA.mappings := by
  refine ⟨by decide, by decide, ?_⟩
  intro h
  unfold StrictDisjointExpanded at h
  simp [fileA] at h

/-! ## C3: spelledForExpanded of a Mapping's expanded slice (counterexample) -/

/-- C3 counterexample: scenario A's built buffer contains the Mapping
[0,6) → [0,0) with an empty expanded side; applying spelledForExpanded
to its (empty) expanded slice returns none, not the spelled range
[0, 6). -/
theorem claim_c3_counterexample :
    build smA spelledOfA expsA EA = some bufA ∧
    lookupFile bufA.files 0 = some fileA ∧
    (⟨0, 6, 0, 0⟩ : Mapping) ∈ fileA.mappings ∧
    spelledForExpanded smA bufA 0 0 = none ∧
    spelledForExpanded smA bufA 0 0 ≠ some (0, 0, 6) := by
  refine ⟨by decide, by decide, by decide, by decide, by decide⟩

/-! ## C10: bounds of the spelledForExpandedToken index (counterexample) -/

/-- C10 counterexample: on scenario B the final expanded token (eof, index
5) resolves through the rightmost mapping to spelled index
EndSpelled + (5 − EndExpanded) = 9, which is the length of the file's
SpelledTokens — one past the end, not a pointer to an existing spelled
token. -/
theorem claim_c10_counterexample :
    build smB spelledOfB expsB EB = some bufB ∧
    EB.length = 6 ∧
    (EB.getD 5 default).kind = TokKind.eof ∧
    spelledForExpandedToken smB bufB 5 = some (0, 9, none) ∧
    lookupFile bufB.files 0 = some fileB ∧
    fileB.spelledTokens.length = 9 ∧
    ¬(9 : Nat) < fileB.spelledTokens.length := by
  refine ⟨by decide, by decide, by decide, by decide, by decide, by decide, by decide⟩

/-! ## C4: the expansion capturer's filter and normalization -/

/-- C4: for an enabled capturer, MacroExpands records the event exactly
when range.end is a file location and LastExpansionEnd is invalid (0) or
strictly before range.end in translation-unit order; the recorded entry
is keyed at range.begin when that is a file location and otherwise at
its expansion location (the merged record of the outer macro), and
LastExpansionEnd becomes range.end.  Otherwise the state is unchanged. -/
theorem claim_c4_macroExpands (sm : SrcMgr) (st : CollectorState) (b e : Nat)
    (hen : st.enabled = true) :
    (sm.isFileID e = true ∧
        (st.lastExpansionEnd = 0 ∨ sm.isBeforeTU st.lastExpansionEnd e = true) →
      macroExpands sm st b e =
        { st with
            expansions := setExp st.expansions
              (if sm.isFileID b then b else sm.expansionLoc b) e
            lastExpansionEnd := e }) ∧
    (¬(sm.isFileID e = true ∧
        (st.lastExpansionEnd = 0 ∨ sm.isBeforeTU st.lastExpansionEnd e = true)) →
      macroExpands sm st b e = st) := by
  constructor
  · rintro ⟨h1, h2⟩
    rcases h2 with h0 | hbef
    · simp [macroExpands, hen, h1, h0]
    · simp [macroExpands, hen, h1, hbef]
  · intro h
    by_cases h1 : sm.isFileID e = true
    · have h2 : ¬(st.lastExpansionEnd = 0 ∨ sm.isBeforeTU st.lastExpansionEnd e = true) := by
        intro h2; exact h ⟨h1, h2⟩
      push_neg at h2
      simp [macroExpands, hen, h1, h2.1, h2.2]
    · simp [macroExpands, hen, h1]

/-- Witness for C4 on scenario C: the merged-record case, rewriting the
inner macro's begin (non-file location 20) to its expansion location 10
and overwriting the outer entry 10 ↦ 15 with 10 ↦ 30. -/
theorem claim_c4_witness :
    macroExpands smC stC 20 30 =
      { stC with expansions := [(10, 30)], lastExpansionEnd := 30 } := by
  have h := (claim_c4_macroExpands smC stC 20 30 rfl).1 ⟨by decide, Or.inr (by decide)⟩
  exact h.trans (by decide)

/-! ## C5: tokenize never stores an end-of-file token -/

/-- C5: tokenize emits every lexed token; the terminator token is appended
exactly when it is not eof (the source was not NUL-terminated), so —
given the lexer contract that the streamed tokens are not eof and that
the identifier table never resolves to an eof kind — the sequence
returned by tokenize contains no end-of-file token; consequently no
SpelledTokens sequence of a buffer built over tokenize results contains
an end-of-file token. -/
theorem claim_c5_tokenize_no_eof (idKind : String → TokKind) (lexed : List CTok)
    (term : CTok)
    (hlex : ∀ t ∈ lexed, t.kind ≠ TokKind.eof)
    (hid : ∀ t ∈ lexed, idKind t.rawText ≠ TokKind.eof)
    (hidt : idKind term.rawText ≠ TokKind.eof) :
    (∀ tok ∈ tokenize idKind lexed term, tok.kind ≠ TokKind.eof) ∧
    (term.kind = TokKind.eof → tokenize idKind lexed term = lexed.map (addToken idKind)) ∧
    (term.kind ≠ TokKind.eof →
      tokenize idKind lexed term = lexed.map (addToken idKind) ++ [addToken idKind term]) ∧
    (∀ (sm : SrcMgr) (lexedOf : Nat → List CTok) (termOf : Nat → CTok)
        (exps : List (Nat × Nat)) (E : List Token) (buf : TokenBuffer),
      (∀ f, ∀ t ∈ lexedOf f, t.kind ≠ TokKind.eof) →
      (∀ f, ∀ t ∈ lexedOf f, idKind t.rawText ≠ TokKind.eof) →
      (∀ f, idKind (termOf f).rawText ≠ TokKind.eof) →
      build sm (fun f => tokenize idKind (lexedOf f) (termOf f)) exps E = some buf →
      ∀ p ∈ buf.files, ∀ tok ∈ p.2.spelledTokens, tok.kind ≠ TokKind.eof) := by
  have key : ∀ (lexed' : List CTok) (term' : CTok),
      (∀ t ∈ lexed', t.kind ≠ TokKind.eof) →
      (∀ t ∈ lexed', idKind t.rawText ≠ TokKind.eof) →
      idKind term'.rawText ≠ TokKind.eof →
      ∀ tok ∈ tokenize idKind lexed' term', tok.kind ≠ TokKind.eof := by
    intro lexed' term' hlex' hid' hidt' tok htok
    unfold tokenize at htok
    rcases List.mem_append.1 htok with h | h
    · obtain ⟨t, ht, rfl⟩ := List.mem_map.1 h
      unfold addToken
      split_ifs with h'
      · exact hid' t ht
      · exact hlex' t ht
    · by_cases he : term'.kind = TokKind.eof
      · simp [he] at h
      · simp [he] at h
        subst h
        unfold addToken
        split_ifs with h'
        · exact hidt'
        · exact he
  refine ⟨key lexed term hlex hid hidt, ?_, ?_, ?_⟩
  · intro he; simp [tokenize, he]
  · intro he; simp [tokenize, he]
  · intro sm lexedOf termOf exps E buf h1 h2 h3 hb p hp tok htok
    rcases build_files_spelled hb p hp with hsp | hsp
    · rw [hsp] at htok
      exact key (lexedOf p.1) (termOf p.1) (h1 p.1) (h2 p.1) (h3 p.1) tok htok
    · rw [hsp] at htok
      simp at htok

/-- Witness for C5: a concrete two-token lexer run whose terminator is eof
(NUL-terminated source); the eof is dropped and the raw identifier is
resolved to the keyword kind. -/
theorem claim_c5_witness :
    (∀ tok ∈ tokenize idKindL lexedL termL, tok.kind ≠ TokKind.eof) ∧
    tokenize idKindL lexedL termL =
      [⟨1, 3, TokKind.keyword 0⟩, ⟨5, 1, TokKind.other 0⟩] := by
  refine ⟨(claim_c5_tokenize_no_eof idKindL lexedL termL (by decide) (by decide)
    (by decide)).1, by decide⟩

/-! ## partition_point helper lemmas -/

theorem partitionPoint_le {α : Type} (p : α → Bool) (l : List α) :
    partitionPoint p l ≤ l.length := by
  unfold partitionPoint
  induction l with
  | nil => simp
  | cons a t ih =>
      by_cases h : p a
      · simp only [List.takeWhile_cons_of_pos h, List.length_cons]
        omega
      · simp [List.takeWhile_cons_of_neg h]

theorem partitionPoint_eq_of {α : Type} [Inhabited α] (p : α → Bool) (l : List α)
    (k : Nat) (hk : k ≤ l.length)
    (h1 : ∀ j, j < k → p (l.getD j default) = true)
    (h2 : k < l.length → p (l.getD k default) = false) :
    partitionPoint p l = k := by
  induction l generalizing k with
  | nil =>
      simp at hk
      simp [partitionPoint, hk]
  | cons a t ih =>
      cases k with
      | zero =>
          have h2' := h2 (by simp)
          simp only [List.getD_cons_zero] at h2'
          unfold partitionPoint
          rw [List.takeWhile_cons_of_neg (by simp [h2'])]
          simp
      | succ k' =>
          have ha := h1 0 (Nat.succ_pos k')
          simp only [List.getD_cons_zero] at ha
          have ht : partitionPoint p t = k' := by
            refine ih k' (by simpa using hk) ?_ ?_
            · intro j hj
              have := h1 (j + 1) (Nat.succ_lt_succ hj)
              simpa using this
            · intro hlt
              have := h2 (by simpa using Nat.succ_lt_succ hlt)
              simpa using this
          unfold partitionPoint at ht ⊢
          simp [List.takeWhile_cons_of_pos ha, ht]

theorem partitionPoint_sat {α : Type} [Inhabited α] (p : α → Bool) (l : List α) :
    ∀ j, j < partitionPoint p l → p (l.getD j default) = true := by
  induction l with
  | nil => simp [partitionPoint]
  | cons a t ih =>
      intro j hj
      by_cases h : p a
      · unfold partitionPoint at hj
        rw [List.takeWhile_cons_of_pos h] at hj
        simp only [List.length_cons] at hj
        cases j with
        | zero => simpa using h
        | succ j' =>
            have := ih j' (by unfold partitionPoint; omega)
            simpa using this
      · unfold partitionPoint at hj
        rw [List.takeWhile_cons_of_neg h] at hj
        simp at hj
  
theorem partitionPoint_stop {α : Type} [Inhabited α] (p : α → Bool) (l : List α)
    (h : partitionPoint p l < l.length) :
    p (l.getD (partitionPoint p l) default) = false := by
  induction l with
  | nil => simp [partitionPoint] at h
  | cons a t ih =>
      by_cases hp : p a
      · have hrw : partitionPoint p (a :: t) = partitionPoint p t + 1 := by
          unfold partitionPoint
          rw [List.takeWhile_cons_of_pos hp]
          simp
        rw [hrw] at h ⊢
        simp only [List.length_cons] at h
        simpa using ih (by omega)
      · have hrw : partitionPoint p (a :: t) = 0 := by
          unfold partitionPoint
          rw [List.takeWhile_cons_of_neg hp]
          simp
        rw [hrw]
        simpa using hp

theorem getD_mem {α : Type} [Inhabited α] {l : List α} {n : Nat} (h : n < l.length) :
    l.getD n default ∈ l := by
  rw [List.getD_eq_getElem l default h]
  exact List.getElem_mem h

/-! ## C7: spelledForExpanded error handling -/

/-- C7: spelledForExpanded returns none on an empty expanded range, and
returns none when the two endpoints of the range resolve to spelled
tokens whose locations lie in different files.  (The embedding is a pure
function, so the TokenBuffer is unchanged, and both paths return none
rather than failing: the assertions inside the endpoint resolutions are
modelled by the hypotheses that both resolutions returned some.) -/
theorem claim_c7_spelledForExpanded_none (sm : SrcMgr) (buf : TokenBuffer) (b e : Nat) :
    (e ≤ b → spelledForExpanded sm buf b e = none) ∧
    (∀ fidB sB mB fidL sL mL,
      b < e →
      spelledForExpandedToken sm buf b = some (fidB, sB, mB) →
      spelledForExpandedToken sm buf (e - 1) = some (fidL, sL, mL) →
      sm.fileOf ((((lookupFile buf.files fidB).getD default).spelledTokens.getD sB default).loc) ≠
        sm.fileOf ((((lookupFile buf.files fidL).getD default).spelledTokens.getD sL default).loc) →
      spelledForExpanded sm buf b e = none) := by
  constructor
  · intro h; simp [spelledForExpanded, h]
  · intro fidB sB mB fidL sL mL hlt hB hL hne
    simp only [spelledForExpanded]
    rw [if_neg (by omega)]
    rw [hB, hL]
    exact if_pos hne

/-- Witness for C7: the empty range on scenario B's buffer, and the
cross-file case on scenario D's two-file buffer. -/
theorem claim_c7_witness :
    spelledForExpanded smB bufB 1 1 = none ∧
    spelledForExpanded smD bufD 0 2 = none := by
  constructor
  · exact (claim_c7_spelledForExpanded_none smB bufB 1 1).1 (Nat.le_refl 1)
  · exact (claim_c7_spelledForExpanded_none smD bufD 0 2).2 0 0 none 1 0 none
      (by decide) (by decide) (by decide) (by decide)

/-! ## C9: spelledTokensTouching at a shared boundary -/

/-- C9: when two adjacent identifier tokens share a boundary location
(the left one ends exactly where the right one begins, with every
earlier token of the file beginning strictly before that location),
spelledTokensTouching at the boundary returns exactly the two tokens
with the left one first, and spelledIdentifierTouching returns the left
token. -/
theorem claim_c9_touching (sm : SrcMgr) (buf : TokenBuffer) (loc : Nat)
    (file : MarkedFile) (i : Nat)
    (hf : lookupFile buf.files (sm.fileOf loc) = some file)
    (hi : i + 1 < file.spelledTokens.length)
    (hprev : ∀ j, j ≤ i → (file.spelledTokens.getD j default).loc < loc)
    (hbar : (file.spelledTokens.getD (i + 1) default).loc = loc)
    (hfoo : (file.spelledTokens.getD i default).endLoc = loc)
    (hkfoo : (file.spelledTokens.getD i default).kind = TokKind.identifier)
    (hkbar : (file.spelledTokens.getD (i + 1) default).kind = TokKind.identifier) :
    spelledTokensTouching sm buf loc =
      [file.spelledTokens.getD i default, file.spelledTokens.getD (i + 1) default] ∧
    spelledIdentifierTouching sm buf loc = some (file.spelledTokens.getD i default) := by
  have hpp : partitionPoint (fun t => decide (t.loc < loc)) file.spelledTokens = i + 1 := by
    refine partitionPoint_eq_of _ _ (i + 1) (Nat.le_of_lt hi) ?_ ?_
    · intro j hj
      simpa using hprev j (Nat.lt_succ_iff.1 hj)
    · intro _
      simp only [decide_eq_false_iff_not]
      omega
  have hmain : spelledTokensTouching sm buf loc =
      [file.spelledTokens.getD i default, file.spelledTokens.getD (i + 1) default] := by
    simp only [spelledTokensTouching]
    rw [hf]
    simp only [Option.getD_some, hpp]
    have hl : (i + 1 ≠ 0 ∧ loc ≤ (file.spelledTokens.getD (i + 1 - 1) default).endLoc) := by
      refine ⟨by omega, ?_⟩
      rw [Nat.add_sub_cancel]
      omega
    have hr : (i + 1 < file.spelledTokens.length ∧
        (file.spelledTokens.getD (i + 1) default).loc ≤ loc) := ⟨hi, by omega⟩
    rw [if_pos hl, if_pos hr, Nat.add_sub_cancel]
    have hdrop1 : file.spelledTokens.drop i =
        file.spelledTokens.getD i default :: file.spelledTokens.drop (i + 1) := by
      rw [List.getD_eq_getElem _ default (show i < file.spelledTokens.length by omega)]
      exact List.drop_eq_getElem_cons (by omega)
    have hdrop2 : file.spelledTokens.drop (i + 1) =
        file.spelledTokens.getD (i + 1) default :: file.spelledTokens.drop (i + 2) := by
      rw [List.getD_eq_getElem _ default hi]
      exact List.drop_eq_getElem_cons hi
    rw [hdrop1, hdrop2]
    rfl
  refine ⟨hmain, ?_⟩
  unfold spelledIdentifierTouching
  rw [hmain]
  refine List.find?_cons_of_pos _ ?_
  show ((file.spelledTokens.getD i default).kind == TokKind.identifier) = true
  rw [hkfoo]
  rfl

/-- Witness for C9 on scenario T (foo at [1,4), bar at [4,7), boundary 4). -/
theorem claim_c9_witness :
    spelledTokensTouching smT bufT 4 =
      [⟨1, 3, TokKind.identifier⟩, ⟨4, 3, TokKind.identifier⟩] ∧
    spelledIdentifierTouching smT bufT 4 = some ⟨1, 3, TokKind.identifier⟩ := by
  have h := claim_c9_touching smT bufT 4
    { spelledTokens := spT, beginExpanded := 0, endExpanded := 0, mappings := [] } 0
    (by decide) (by decide)
    (by intro j hj
        have hj0 : j = 0 := Nat.le_zero.1 hj
        subst hj0
        decide)
    (by decide) (by decide) (by decide) (by decide)
  exact ⟨h.1.trans (by decide), h.2.trans (by decide)⟩

/-- getD version of pairwise access. -/
theorem pairwise_getD {α : Type} [Inhabited α] {R : α → α → Prop} {l : List α}
    (h : List.Pairwise R l) {i j : Nat} (hij : i < j) (hj : j < l.length) :
    R (l.getD i default) (l.getD j default) := by
  rw [List.getD_eq_getElem _ default (by omega), List.getD_eq_getElem _ default hj]
  exact List.pairwise_iff_getElem.1 h i j (by omega) hj hij

/-! ## C2: the case analysis of spelledForExpandedToken -/

/-- The shared case analysis of spelledForExpandedToken: the rightmost
mapping with BeginExpanded ≤ i and the three-way split. -/
theorem spelledForExpandedToken_cases (sm : SrcMgr) (buf : TokenBuffer)
    (i fid : Nat) (file : MarkedFile)
    (hi : i < buf.expandedTokens.length)
    (hfid : sm.fileOf (sm.expansionLoc ((buf.expandedTokens.getD i default).loc)) = fid)
    (hf : lookupFile buf.files fid = some file) :
    ((∀ M ∈ file.mappings, i < M.beginExpanded) →
      spelledForExpandedToken sm buf i = some (fid, i - file.beginExpanded, none)) ∧
    (∀ j, j < file.mappings.length →
      (∀ j', j' ≤ j → (file.mappings.getD j' default).beginExpanded ≤ i) →
      (j + 1 < file.mappings.length → i < (file.mappings.getD (j + 1) default).beginExpanded) →
      ((i < (file.mappings.getD j default).endExpanded →
        spelledForExpandedToken sm buf i =
          some (fid, (file.mappings.getD j default).beginSpelled,
            some (file.mappings.getD j default))) ∧
       ((file.mappings.getD j default).endExpanded ≤ i →
        spelledForExpandedToken sm buf i =
          some (fid, (file.mappings.getD j default).endSpelled +
            (i - (file.mappings.getD j default).endExpanded), none)))) := by
  have hun : spelledForExpandedToken sm buf i =
      some (fid, (resolveSp file i).1, (resolveSp file i).2) := by
    simp only [spelledForExpandedToken]
    rw [if_pos hi, hfid, hf]
  constructor
  · intro hall
    have hk0 : partitionPoint (fun M => decide (M.beginExpanded ≤ i)) file.mappings = 0 := by
      refine partitionPoint_eq_of _ _ 0 (Nat.zero_le _) (by omega) ?_
      intro hlt
      have := hall _ (getD_mem hlt)
      simp only [decide_eq_false_iff_not]
      omega
    rw [hun]
    simp only [resolveSp, hk0]
    simp
  · intro j hj hsat hnext
    have hkj : partitionPoint (fun M => decide (M.beginExpanded ≤ i)) file.mappings = j + 1 := by
      refine partitionPoint_eq_of _ _ (j + 1) (by omega) ?_ ?_
      · intro j' hj'
        have := hsat j' (by omega)
        simpa using this
      · intro hlt
        have := hnext hlt
        simp only [decide_eq_false_iff_not]
        omega
    have hres : resolveSp file i =
        (if i < (file.mappings.getD j default).endExpanded then
          ((file.mappings.getD j default).beginSpelled, some (file.mappings.getD j default))
        else ((file.mappings.getD j default).endSpelled +
          (i - (file.mappings.getD j default).endExpanded), none)) := by
      simp only [resolveSp, hkj]
      simp only [Nat.add_sub_cancel]
      simp
    constructor
    · intro hlt
      rw [hun, hres, if_pos hlt]
    · intro hge
      rw [hun, hres, if_neg (by omega)]

/-- C2: spelledForExpandedToken finds the rightmost Mapping of the token's
file with BeginExpanded ≤ i (here: the mapping at index j such that all
mappings up to j have BeginExpanded ≤ i and mapping j+1, if any, begins
after i); with no such mapping it returns the spelled index
i − file.BeginExpanded and no mapping; if i < that mapping's EndExpanded
it returns the spelled index BeginSpelled with the mapping; otherwise it
returns EndSpelled + (i − EndExpanded) with no mapping. -/
theorem claim_c2_spelledForExpandedToken (sm : SrcMgr) (buf : TokenBuffer)
    (i fid : Nat) (file : MarkedFile)
    (hi : i < buf.expandedTokens.length)
    (hfid : sm.fileOf (sm.expansionLoc ((buf.expandedTokens.getD i default).loc)) = fid)
    (hf : lookupFile buf.files fid = some file) :
    ((∀ M ∈ file.mappings, i < M.beginExpanded) →
      spelledForExpandedToken sm buf i = some (fid, i - file.beginExpanded, none)) ∧
    (∀ j, j < file.mappings.length →
      (∀ j', j' ≤ j → (file.mappings.getD j' default).beginExpanded ≤ i) →
      (j + 1 < file.mappings.length → i < (file.mappings.getD (j + 1) default).beginExpanded) →
      ((i < (file.mappings.getD j default).endExpanded →
        spelledForExpandedToken sm buf i =
          some (fid, (file.mappings.getD j default).beginSpelled,
            some (file.mappings.getD j default))) ∧
       ((file.mappings.getD j default).endExpanded ≤ i →
        spelledForExpandedToken sm buf i =
          some (fid, (file.mappings.getD j default).endSpelled +
            (i - (file.mappings.getD j default).endExpanded), none)))) :=
  spelledForExpandedToken_cases sm buf i fid file hi hfid hf

/-- Witness for C2 on scenario B: the expanded token at index 3 (the macro-
produced token) is covered by the mapping [7,8) → [3,4). -/
theorem claim_c2_witness :
    spelledForExpandedToken smB bufB 3 = some (0, 7, some ⟨7, 8, 3, 4⟩) := by
  have h := ((claim_c2_spelledForExpandedToken smB bufB 3 0 fileB
    (by decide) (by decide) (by decide)).2 1 (by decide)
    (by intro j' hj'
        interval_cases j' <;> decide)
    (by intro h; exact absurd h (by decide))).1 (by decide)
  exact h.trans (by decide)

/-! ## C8: expansionStartingAt -/

/-- C8: expansionStartingAt returns some iff the spelled index equals the
BeginSpelled of some Mapping of the file (given the Mappings ordered by
BeginSpelled, as the Builder guarantees); and whenever it returns some,
the result is exactly the spelled slice [BeginSpelled, EndSpelled) and
the expanded slice [BeginExpanded, EndExpanded) of that Mapping. -/
theorem claim_c8_expansionStartingAt (buf : TokenBuffer) (fid si : Nat)
    (file : MarkedFile)
    (hf : lookupFile buf.files fid = some file)
    (hsi : si < file.spelledTokens.length)
    (hmono : List.Pairwise (fun a b => a.beginSpelled ≤ b.beginSpelled) file.mappings) :
    ((expansionStartingAt buf fid si).isSome ↔ ∃ M ∈ file.mappings, M.beginSpelled = si) ∧
    (∀ a b c d, expansionStartingAt buf fid si = some (a, b, c, d) →
      ∃ M ∈ file.mappings, M = ⟨a, b, c, d⟩ ∧ M.beginSpelled = si) := by
  have hun : expansionStartingAt buf fid si =
      (if hk : partitionPoint (fun M => decide (M.beginSpelled < si)) file.mappings <
          file.mappings.length then
        (if (file.mappings.getD (partitionPoint (fun M => decide (M.beginSpelled < si))
              file.mappings) default).beginSpelled = si then
          some ((file.mappings.getD (partitionPoint (fun M => decide (M.beginSpelled < si))
              file.mappings) default).beginSpelled,
            (file.mappings.getD (partitionPoint (fun M => decide (M.beginSpelled < si))
              file.mappings) default).endSpelled,
            (file.mappings.getD (partitionPoint (fun M => decide (M.beginSpelled < si))
              file.mappings) default).beginExpanded,
            (file.mappings.getD (partitionPoint (fun M => decide (M.beginSpelled < si))
              file.mappings) default).endExpanded)
        else none)
      else none) := by
    simp only [expansionStartingAt]
    rw [hf]
    simp only [if_pos hsi]
    split <;> rfl
  constructor
  · constructor
    · intro hs
      rw [hun] at hs
      split at hs
      · rename_i hk
        split at hs
        · rename_i hbs
          exact ⟨_, getD_mem hk, hbs⟩
        · simp at hs
      · simp at hs
    · rintro ⟨M, hM, hbs⟩
      obtain ⟨n, hn, hgn⟩ := List.getElem_of_mem hM
      have hgnD : file.mappings.getD n default = M := by
        rw [List.getD_eq_getElem _ default hn, hgn]
      have hk := partitionPoint_le (fun M => decide (M.beginSpelled < si)) file.mappings
      have hsat := partitionPoint_sat (fun M => decide (M.beginSpelled < si)) file.mappings
      set k := partitionPoint (fun M => decide (M.beginSpelled < si)) file.mappings with hkdef
      have hnk : k ≤ n := by
        by_contra hgt
        have := hsat n (by omega)
        rw [hgnD] at this
        simp [hbs] at this
      have hklt : k < file.mappings.length := by omega
      have hstop := partitionPoint_stop (fun M => decide (M.beginSpelled < si))
        file.mappings hklt
      rw [← hkdef] at hstop
      have hge : si ≤ (file.mappings.getD k default).beginSpelled := by
        simpa using hstop
      have hbsk : (file.mappings.getD k default).beginSpelled = si := by
        rcases Nat.lt_or_ge k n with hlt | hge2
        · have := pairwise_getD hmono hlt hn
          rw [hgnD] at this
          omega
        · have hkn : k = n := by omega
          rw [hkn, hgnD, hbs]
      rw [hun]
      rw [dif_pos hklt, if_pos hbsk]
      simp
  · intro a b c d hs
    rw [hun] at hs
    split at hs
    · rename_i hk
      split at hs
      · rename_i hbs
        simp at hs
        obtain ⟨h1, h2, h3, h4⟩ := hs
        refine ⟨_, getD_mem hk, ?_, hbs⟩
        cases hM : file.mappings.getD (partitionPoint
          (fun M => decide (M.beginSpelled < si)) file.mappings) default with
        | mk w x y z =>
            rw [List.getD_eq_getElem?_getD] at hM
            rw [hM] at h1 h2 h3 h4
            simp only [] at h1 h2 h3 h4
            rw [h1, h2, h3, h4]
      · simp at hs
    · simp at hs

/-- Witness for C8 on scenario B: spelled index 7 (the use of X) starts the
mapping [7,8) → [3,4). -/
theorem claim_c8_witness :
    (expansionStartingAt bufB 0 7).isSome ∧
    expansionStartingAt bufB 0 7 = some (7, 8, 3, 4) := by
  refine ⟨(claim_c8_expansionStartingAt bufB 0 7 fileB (by decide) (by decide)
    (by decide)).1.2 ⟨⟨7, 8, 3, 4⟩, by decide, by decide⟩, by decide⟩

/-! ## C3 (amended): spelledForExpanded of a Mapping's expanded slice -/

/-- C3 (amended): in a finished TokenBuffer (Mappings chained and
well-formed as the Builder leaves them), for every Mapping M whose
expanded side is non-empty, spelledForExpanded applied to the expanded
slice [BeginExpanded, EndExpanded) returns exactly the spelled slice
[BeginSpelled, EndSpelled).  (For a Mapping with an empty expanded side
the slice is the empty range and spelledForExpanded returns none: see
the counterexample.) -/
theorem claim_c3_amended (sm : SrcMgr) (buf : TokenBuffer)
    (f : Nat) (file : MarkedFile) (k : Nat) (M : Mapping)
    (hf : lookupFile buf.files f = some file)
    (hk : k < file.mappings.length)
    (hM : file.mappings.getD k default = M)
    (hchain : List.Pairwise
      (fun a b => a.endSpelled ≤ b.beginSpelled ∧ a.endExpanded ≤ b.beginExpanded)
      file.mappings)
    (hwf : ∀ N ∈ file.mappings, N.beginSpelled ≤ N.endSpelled ∧ N.beginExpanded ≤ N.endExpanded)
    (hne : M.beginExpanded < M.endExpanded)
    (hlen : M.endExpanded ≤ buf.expandedTokens.length)
    (hfidB : sm.fileOf (sm.expansionLoc
      ((buf.expandedTokens.getD M.beginExpanded default).loc)) = f)
    (hfidL : sm.fileOf (sm.expansionLoc
      ((buf.expandedTokens.getD (M.endExpanded - 1) default).loc)) = f)
    (hbs : M.beginSpelled < file.spelledTokens.length)
    (hfloc : ∀ t ∈ file.spelledTokens, sm.fileOf t.loc = f) :
    spelledForExpanded sm buf M.beginExpanded M.endExpanded =
      some (f, M.beginSpelled, M.endSpelled) := by
  have hbewf : ∀ j', j' ≤ k → (file.mappings.getD j' default).beginExpanded ≤ M.beginExpanded := by
    intro j' hj'
    rcases Nat.lt_or_ge j' k with hlt | hge
    · have hp := pairwise_getD hchain hlt hk
      have hw := hwf _ (getD_mem (show j' < file.mappings.length by omega))
      rw [hM] at hp
      obtain ⟨hp1, hp2⟩ := hp
      obtain ⟨hw1, hw2⟩ := hw
      omega
    · have : j' = k := by omega
      rw [this, hM]
  have hnext : k + 1 < file.mappings.length →
      M.beginExpanded < (file.mappings.getD (k + 1) default).beginExpanded := by
    intro hlt
    have hp := pairwise_getD hchain (show k < k + 1 by omega) hlt
    rw [hM] at hp
    obtain ⟨hp1, hp2⟩ := hp
    omega
  have hfront : spelledForExpandedToken sm buf M.beginExpanded =
      some (f, M.beginSpelled, some M) := by
    have h := ((spelledForExpandedToken_cases sm buf M.beginExpanded f file
      (by omega) hfidB hf).2 k hk hbewf hnext).1 (by rw [hM]; omega)
    rw [hM] at h
    exact h
  have hback : spelledForExpandedToken sm buf (M.endExpanded - 1) =
      some (f, M.beginSpelled, some M) := by
    have hbewf2 : ∀ j', j' ≤ k →
        (file.mappings.getD j' default).beginExpanded ≤ M.endExpanded - 1 := by
      intro j' hj'
      have := hbewf j' hj'
      omega
    have hnext2 : k + 1 < file.mappings.length →
        M.endExpanded - 1 < (file.mappings.getD (k + 1) default).beginExpanded := by
      intro hlt
      have hp := pairwise_getD hchain (show k < k + 1 by omega) hlt
      rw [hM] at hp
      obtain ⟨hp1, hp2⟩ := hp
      omega
    have h := ((spelledForExpandedToken_cases sm buf (M.endExpanded - 1) f file
      (by omega) hfidL hf).2 k hk hbewf2 hnext2).1 (by rw [hM]; omega)
    rw [hM] at h
    exact h
  have hfid2 : sm.fileOf
      ((((lookupFile buf.files f).getD default).spelledTokens.getD M.beginSpelled default).loc)
      = f := by
    rw [hf]
    exact hfloc _ (getD_mem hbs)
  simp only [spelledForExpanded]
  rw [if_neg (by omega), hfront, hback]
  simp only [hfid2]
  rw [if_neg (by simp)]
  rw [if_neg (by simp [Nat.lt_irrefl])]
  rw [if_neg (by simp [Nat.lt_irrefl])]

/-- Witness for C3 (amended) on scenario B: the mapping [7,8) → [3,4). -/
theorem claim_c3_amended_witness :
    spelledForExpanded smB bufB 3 4 = some (0, 7, 8) := by
  have h := claim_c3_amended smB bufB 0 fileB 1 ⟨7, 8, 3, 4⟩
    (by decide) (by decide) (by decide) (by decide)
    (by intro N hN
        fin_cases hN <;> constructor <;> decide)
    (by decide) (by decide) (by decide) (by decide) (by decide)
    (by intro t ht
        fin_cases ht <;> decide)
  exact h

/-! ## Map and cursor helper lemmas -/

theorem lookupFile_setFile_self (fs : List (Nat × MarkedFile)) (fid : Nat) (m : MarkedFile) :
    lookupFile (setFile fs fid m) fid = some m := by
  induction fs with
  | nil =>
      unfold setFile lookupFile
      rw [List.find?_cons_of_pos _ (by simp)]
      rfl
  | cons q rest ih =>
      rcases q with ⟨g, old⟩
      by_cases hg : g = fid
      · subst hg
        simp only [setFile]
        simp only [if_true]
        unfold lookupFile
        rw [List.find?_cons_of_pos _ (by simp)]
        rfl
      · simp only [setFile]
        rw [if_neg hg]
        unfold lookupFile at ih ⊢
        rw [List.find?_cons_of_neg _ (by simp only [beq_iff_eq]; exact hg)]
        exact ih

theorem lookupFile_setFile_ne (fs : List (Nat × MarkedFile)) (fid g : Nat) (m : MarkedFile)
    (h : g ≠ fid) : lookupFile (setFile fs fid m) g = lookupFile fs g := by
  induction fs with
  | nil =>
      unfold setFile lookupFile
      rw [List.find?_cons_of_neg _ (by simp only [beq_iff_eq]; exact fun hh => h hh.symm)]
  | cons q rest ih =>
      rcases q with ⟨k, old⟩
      by_cases hk : k = fid
      · subst hk
        simp only [setFile]
        simp only [if_true]
        unfold lookupFile
        rw [List.find?_cons_of_neg _ (by simp only [beq_iff_eq]; exact fun hh => h hh.symm),
          List.find?_cons_of_neg _ (by simp only [beq_iff_eq]; exact fun hh => h hh.symm)]
      · simp only [setFile]
        rw [if_neg hk]
        unfold lookupFile at ih ⊢
        by_cases hkg : k = g
        · subst hkg
          rw [List.find?_cons_of_pos _ (by simp), List.find?_cons_of_pos _ (by simp)]
        · rw [List.find?_cons_of_neg _ (by simp only [beq_iff_eq]; exact hkg),
            List.find?_cons_of_neg _ (by simp only [beq_iff_eq]; exact hkg)]
          exact ih

theorem lookupExp_some_mem {exps : List (Nat × Nat)} {u v : Nat}
    (h : lookupExp exps u = some v) : (u, v) ∈ exps := by
  unfold lookupExp at h
  cases hf : exps.find? (fun p => p.1 == u) with
  | none => rw [hf] at h; simp at h
  | some p =>
      rw [hf] at h
      simp at h
      have hp := List.find?_some hf
      have hm := List.mem_of_find?_eq_some hf
      rcases p with ⟨a, b⟩
      simp at hp h
      subst hp
      subst h
      exact hm

theorem updFn_self (f : Nat → Nat) (a v : Nat) : updFn f a v a = v := by
  simp [updFn]

theorem updFn_ne (f : Nat → Nat) (a v x : Nat) (h : x ≠ a) : updFn f a v x = f x := by
  simp [updFn, h]

/-! ## Characterizations of the Builder's inner loops -/

theorem advanceWhileLeGo_spec (sp : List Token) (bound : Nat) :
    ∀ fuel ns, ns ≤ sp.length → sp.length ≤ fuel + ns →
    ns ≤ advanceWhileLeGo sp bound fuel ns ∧
    advanceWhileLeGo sp bound fuel ns ≤ sp.length ∧
    (∀ j, ns ≤ j → j < advanceWhileLeGo sp bound fuel ns →
      (sp.getD j default).loc ≤ bound) ∧
    (advanceWhileLeGo sp bound fuel ns < sp.length →
      bound < (sp.getD (advanceWhileLeGo sp bound fuel ns) default).loc) := by
  intro fuel
  induction fuel with
  | zero =>
      intro ns h1 h2
      have : ns = sp.length := by omega
      simp only [advanceWhileLeGo]
      refine ⟨Nat.le_refl ns, by omega, ?_, by omega⟩
      intro j hj1 hj2
      omega
  | succ n ih =>
      intro ns h1 h2
      simp only [advanceWhileLeGo]
      split
      · rename_i hlt
        split
        · rename_i hle
          have hrec := ih (ns + 1) (by omega) (by omega)
          refine ⟨by omega, hrec.2.1, ?_, hrec.2.2.2⟩
          intro j hj1 hj2
          rcases Nat.eq_or_lt_of_le hj1 with heq | hlt2
          · subst heq
            rw [List.getD_eq_getElem _ default hlt]
            simpa [List.get_eq_getElem] using hle
          · exact hrec.2.2.1 j (by omega) hj2
        · rename_i hgt
          refine ⟨Nat.le_refl ns, by omega, by omega, ?_⟩
          intro _
          rw [List.getD_eq_getElem _ default hlt]
          simp only [List.get_eq_getElem] at hgt
          omega
      · rename_i hge
        have : ns = sp.length := by omega
        refine ⟨Nat.le_refl ns, by omega, by omega, by omega⟩

theorem advanceWhileLe_spec (sp : List Token) (bound ns : Nat) (h : ns ≤ sp.length) :
    ns ≤ advanceWhileLe sp bound ns ∧
    advanceWhileLe sp bound ns ≤ sp.length ∧
    (∀ j, ns ≤ j → j < advanceWhileLe sp bound ns → (sp.getD j default).loc ≤ bound) ∧
    (advanceWhileLe sp bound ns < sp.length →
      bound < (sp.getD (advanceWhileLe sp bound ns) default).loc) :=
  advanceWhileLeGo_spec sp bound (sp.length + 1) ns h (by omega)

theorem advanceWhileLe_progress (sp : List Token) (bound ns : Nat)
    (h : ns < sp.length) (hle : (sp.getD ns default).loc ≤ bound) :
    ns < advanceWhileLe sp bound ns := by
  have hs := advanceWhileLe_spec sp bound ns (by omega)
  rcases Nat.eq_or_lt_of_le hs.1 with heq | hlt
  · exfalso
    have := hs.2.2.2 (by omega)
    rw [← heq] at this
    omega
  · exact hlt

theorem advanceFileRunGo_spec (sp E : List Token) :
    ∀ fuel ns ne, ns ≤ sp.length → ne ≤ E.length → sp.length ≤ fuel + ns →
    ns ≤ (advanceFileRunGo sp E fuel ns ne).1 ∧
    (advanceFileRunGo sp E fuel ns ne).1 ≤ sp.length ∧
    (advanceFileRunGo sp E fuel ns ne).2 = ne + ((advanceFileRunGo sp E fuel ns ne).1 - ns) ∧
    (advanceFileRunGo sp E fuel ns ne).2 ≤ E.length ∧
    (∀ d, ns + d < (advanceFileRunGo sp E fuel ns ne).1 →
      (sp.getD (ns + d) default).loc = (E.getD (ne + d) default).loc) ∧
    ((advanceFileRunGo sp E fuel ns ne).1 < sp.length →
      (advanceFileRunGo sp E fuel ns ne).2 < E.length →
      (sp.getD (advanceFileRunGo sp E fuel ns ne).1 default).loc ≠
        (E.getD (advanceFileRunGo sp E fuel ns ne).2 default).loc) := by
  intro fuel
  induction fuel with
  | zero =>
      intro ns ne h1 h2 h3
      simp only [advanceFileRunGo]
      exact ⟨by omega, by omega, by omega, by omega, by omega, by omega⟩
  | succ n ih =>
      intro ns ne h1 h2 h3
      simp only [advanceFileRunGo]
      split
      · rename_i hbounds
        split
        · rename_i heq
          obtain ⟨ha, hb, hc, hd, he, hstop⟩ := ih (ns + 1) (ne + 1) (by omega) (by omega)
            (by omega)
          refine ⟨by omega, hb, by omega, hd, ?_, hstop⟩
          intro d hd2
          cases d with
          | zero =>
              rw [Nat.add_zero, Nat.add_zero,
                List.getD_eq_getElem _ default hbounds.1,
                List.getD_eq_getElem _ default hbounds.2]
              simpa [List.get_eq_getElem] using heq
          | succ d' =>
              have := he d' (by omega)
              have e1 : ns + 1 + d' = ns + (d' + 1) := by omega
              have e2 : ne + 1 + d' = ne + (d' + 1) := by omega
              rw [e1, e2] at this
              exact this
        · rename_i hne2
          refine ⟨Nat.le_refl ns, by omega, by omega, by omega, by omega, ?_⟩
          intro hlt1 hlt2
          rw [List.getD_eq_getElem _ default hbounds.1,
            List.getD_eq_getElem _ default hbounds.2]
          simpa [List.get_eq_getElem] using hne2
      · rename_i hge
        refine ⟨Nat.le_refl ns, by omega, by omega, by omega, by omega, ?_⟩
        intro hlt1 hlt2
        exact absurd ⟨hlt1, hlt2⟩ hge

theorem advanceFileRun_spec (sp E : List Token) (ns ne : Nat)
    (h1 : ns ≤ sp.length) (h2 : ne ≤ E.length) :
    ns ≤ (advanceFileRun sp E ns ne).1 ∧
    (advanceFileRun sp E ns ne).1 ≤ sp.length ∧
    (advanceFileRun sp E ns ne).2 = ne + ((advanceFileRun sp E ns ne).1 - ns) ∧
    (advanceFileRun sp E ns ne).2 ≤ E.length ∧
    (∀ d, ns + d < (advanceFileRun sp E ns ne).1 →
      (sp.getD (ns + d) default).loc = (E.getD (ne + d) default).loc) ∧
    ((advanceFileRun sp E ns ne).1 < sp.length →
      (advanceFileRun sp E ns ne).2 < E.length →
      (sp.getD (advanceFileRun sp E ns ne).1 default).loc ≠
        (E.getD (advanceFileRun sp E ns ne).2 default).loc) :=
  advanceFileRunGo_spec sp E (sp.length + 1) ns ne h1 h2 (by omega)

theorem advanceWhileRootEqGo_spec (sm : SrcMgr) (E : List Token) (x : Nat) :
    ∀ fuel ne, ne ≤ E.length → E.length ≤ fuel + ne →
    ne ≤ advanceWhileRootEqGo sm E x fuel ne ∧
    advanceWhileRootEqGo sm E x fuel ne ≤ E.length ∧
    (∀ k, ne ≤ k → k < advanceWhileRootEqGo sm E x fuel ne → rootOf sm E k = x) ∧
    (advanceWhileRootEqGo sm E x fuel ne < E.length →
      rootOf sm E (advanceWhileRootEqGo sm E x fuel ne) ≠ x) := by
  intro fuel
  induction fuel with
  | zero =>
      intro ne h1 h2
      simp only [advanceWhileRootEqGo]
      exact ⟨Nat.le_refl ne, by omega, by omega, by omega⟩
  | succ n ih =>
      intro ne h1 h2
      simp only [advanceWhileRootEqGo]
      split
      · rename_i hlt
        split
        · rename_i heq
          have hrec := ih (ne + 1) (by omega) (by omega)
          refine ⟨by omega, hrec.2.1, ?_, hrec.2.2.2⟩
          intro k hk1 hk2
          rcases Nat.eq_or_lt_of_le hk1 with hke | hkl
          · subst hke
            unfold rootOf
            rwa [List.getD_eq_getElem _ default hlt]
          · exact hrec.2.2.1 k (by omega) hk2
        · rename_i hne2
          refine ⟨Nat.le_refl ne, by omega, by omega, ?_⟩
          intro _
          unfold rootOf
          rwa [List.getD_eq_getElem _ default hlt]
      · rename_i hge
        refine ⟨Nat.le_refl ne, by omega, by omega, by omega⟩

theorem advanceWhileRootEq_spec (sm : SrcMgr) (E : List Token) (x ne : Nat)
    (h : ne ≤ E.length) :
    ne ≤ advanceWhileRootEq sm E x ne ∧
    advanceWhileRootEq sm E x ne ≤ E.length ∧
    (∀ k, ne ≤ k → k < advanceWhileRootEq sm E x ne → rootOf sm E k = x) ∧
    (advanceWhileRootEq sm E x ne < E.length →
      rootOf sm E (advanceWhileRootEq sm E x ne) ≠ x) :=
  advanceWhileRootEqGo_spec sm E x (E.length + 1) ne h (by omega)

theorem advanceWhileRootEq_progress (sm : SrcMgr) (E : List Token) (x ne : Nat)
    (h : ne < E.length) (hx : rootOf sm E ne = x) :
    ne < advanceWhileRootEq sm E x ne := by
  have hs := advanceWhileRootEq_spec sm E x ne (by omega)
  rcases Nat.eq_or_lt_of_le hs.1 with heq | hlt
  · exfalso
    exact hs.2.2.2 (by omega) (by rw [← heq]; exact hx)
  · exact hlt

/-! ## The discard loop -/

theorem flushOne_acc (mb ns bexp : Nat) (acc : List Mapping) :
    flushOne mb ns bexp acc = acc ++ flushOne mb ns bexp [] := by
  unfold flushOne
  split <;> simp

theorem flushOne_cover (mb ns bexp : Nat) (h : mb ≤ ns) :
    MapsCover bexp mb ns (flushOne mb ns bexp []) := by
  unfold flushOne
  split
  · rename_i hne
    refine ⟨rfl, ?_, rfl, rfl, rfl⟩
    show mb < ns
    omega
  · rename_i heq
    show mb = ns
    omega

theorem mapsCover_append {bexp lo mid hi : Nat} {l1 l2 : List Mapping}
    (h1 : MapsCover bexp lo mid l1) (h2 : MapsCover bexp mid hi l2) :
    MapsCover bexp lo hi (l1 ++ l2) := by
  induction l1 generalizing lo with
  | nil =>
      simp only [MapsCover] at h1
      subst h1
      simpa using h2
  | cons M rest ih =>
      obtain ⟨ha, hb, hc, hd, he⟩ := h1
      exact ⟨ha, hb, hc, hd, ih he⟩

theorem mapsCover_facts {bexp lo hi : Nat} {maps : List Mapping}
    (h : MapsCover bexp lo hi maps) :
    lo ≤ hi ∧
    (∀ M ∈ maps, lo ≤ M.beginSpelled ∧ M.beginSpelled < M.endSpelled ∧
      M.endSpelled ≤ hi ∧ M.beginExpanded = bexp ∧ M.endExpanded = bexp) ∧
    List.Pairwise (fun a b => a.endSpelled ≤ b.beginSpelled) maps := by
  induction maps generalizing lo with
  | nil =>
      simp only [MapsCover] at h
      exact ⟨by omega, by simp, by simp⟩
  | cons M rest ih =>
      obtain ⟨ha, hb, hc, hd, he⟩ := h
      obtain ⟨h1, h2, h3⟩ := ih he
      refine ⟨by omega, ?_, ?_⟩
      · intro N hN
        rcases List.mem_cons.mp hN with hN | hN
        · subst hN
          exact ⟨by omega, by omega, by omega, hc, hd⟩
        · obtain ⟨ka, kb, kc, kd⟩ := h2 N hN
          exact ⟨by omega, kb, kc, kd⟩
      · refine List.Pairwise.cons ?_ h3
        intro N hN
        exact (h2 N hN).1

theorem mapsCover_last {bexp lo hi : Nat} {maps : List Mapping}
    (h : MapsCover bexp lo hi maps) (hne : maps ≠ []) :
    (maps.getD (maps.length - 1) default).endSpelled = hi := by
  induction maps generalizing lo with
  | nil => exact absurd rfl hne
  | cons M rest ih =>
      obtain ⟨ha, hb, hc, hd, he⟩ := h
      by_cases hr : rest = []
      · subst hr
        simp only [MapsCover] at he
        simpa using he
      · have hrec := ih he hr
        have hlen : (M :: rest).length - 1 = rest.length - 1 + 1 := by
          cases rest with
          | nil => exact absurd rfl hr
          | cons a b => simp
        rw [hlen]
        simpa using hrec

/-- partition_point over an all-true list is the length. -/
theorem partitionPoint_all {α : Type} [Inhabited α] (p : α → Bool) (l : List α)
    (h : ∀ x ∈ l, p x = true) : partitionPoint p l = l.length := by
  refine partitionPoint_eq_of p l l.length (Nat.le_refl _) ?_ (by omega)
  intro j hj
  exact h _ (getD_mem hj)

/-- Appending all-false elements does not move the partition point. -/
theorem partitionPoint_append_false {α : Type} (p : α → Bool) (l1 l2 : List α)
    (h : ∀ x ∈ l2, p x = false) :
    partitionPoint p (l1 ++ l2) = partitionPoint p l1 := by
  induction l1 with
  | nil =>
      cases l2 with
      | nil => simp [partitionPoint]
      | cons a t =>
          have hpa : p a = false := h a (by simp)
          simp only [partitionPoint, List.nil_append]
          rw [List.takeWhile_cons_of_neg (by simp [hpa])]
          rfl
  | cons a t ih =>
      by_cases hp : p a
      · unfold partitionPoint at ih ⊢
        simp only [List.cons_append, List.takeWhile_cons_of_pos hp, List.length_cons]
        omega
      · unfold partitionPoint
        simp [List.takeWhile_cons_of_neg hp]

theorem getD_append_left {α : Type} [Inhabited α] {l1 l2 : List α} {n : Nat}
    (h : n < l1.length) : (l1 ++ l2).getD n default = l1.getD n default := by
  rw [List.getD_eq_getElem?_getD, List.getD_eq_getElem?_getD,
    List.getElem?_append_left h]

theorem getD_append_right {α : Type} [Inhabited α] {l1 l2 : List α} {n : Nat}
    (h : l1.length ≤ n) : (l1 ++ l2).getD n default = l2.getD (n - l1.length) default := by
  rw [List.getD_eq_getElem?_getD, List.getD_eq_getElem?_getD,
    List.getElem?_append_right h]

theorem lookupFile_append_of_none {fs : List (Nat × MarkedFile)} {fid : Nat}
    (m : MarkedFile) (h : lookupFile fs fid = none) :
    lookupFile (fs ++ [(fid, m)]) fid = some m := by
  unfold lookupFile at h ⊢
  rw [List.find?_append]
  cases hf : fs.find? (fun p => p.1 == fid) with
  | none =>
      simp only [hf, Option.none_or]
      rw [List.find?_cons_of_pos _ (by simp)]
      rfl
  | some p => rw [hf] at h; simp at h

theorem lookupFile_append_ne {fs : List (Nat × MarkedFile)} {fid g : Nat}
    (m : MarkedFile) (h : g ≠ fid) :
    lookupFile (fs ++ [(fid, m)]) g = lookupFile fs g := by
  unfold lookupFile
  rw [List.find?_append]
  cases hf : fs.find? (fun p => p.1 == g) with
  | none =>
      simp only [hf, Option.none_or]
      rw [List.find?_cons_of_neg _ (by simp only [beq_iff_eq]; exact fun hh => h hh.symm)]
      rfl
  | some p => rfl

theorem lookupFile_isSome_iff (fs : List (Nat × MarkedFile)) (f : Nat) :
    (lookupFile fs f).isSome ↔ f ∈ fs.map Prod.fst := by
  unfold lookupFile
  induction fs with
  | nil => simp
  | cons q rest ih =>
      rcases q with ⟨g, m⟩
      by_cases hg : g = f
      · subst hg
        rw [List.find?_cons_of_pos _ (by simp)]
        simp
      · rw [List.find?_cons_of_neg _ (by simp only [beq_iff_eq]; exact hg)]
        simpa [hg, Ne.symm hg] using ih

theorem lookupFile_of_mem_nodup {fs : List (Nat × MarkedFile)}
    {p : Nat × MarkedFile} (hnd : (fs.map Prod.fst).Nodup) (hp : p ∈ fs) :
    lookupFile fs p.1 = some p.2 := by
  induction fs with
  | nil => simp at hp
  | cons q rest ih =>
      rcases q with ⟨g, m⟩
      simp only [List.map_cons, List.nodup_cons] at hnd
      rcases List.mem_cons.mp hp with hq | hq
      · subst hq
        unfold lookupFile
        rw [List.find?_cons_of_pos _ (by simp)]
        rfl
      · by_cases hg : g = p.1
        · exfalso
          exact hnd.1 (by rw [hg]; exact List.mem_map.2 ⟨p, hq, rfl⟩)
        · unfold lookupFile at ih ⊢
          rw [List.find?_cons_of_neg _ (by simp only [beq_iff_eq]; exact hg)]
          exact ih hnd.2 hq

theorem setFile_map_fst_of_mem {fs : List (Nat × MarkedFile)} {fid : Nat}
    (m : MarkedFile) (h : fid ∈ fs.map Prod.fst) :
    (setFile fs fid m).map Prod.fst = fs.map Prod.fst := by
  induction fs with
  | nil => simp at h
  | cons q rest ih =>
      rcases q with ⟨g, old⟩
      by_cases hg : g = fid
      · subst hg
        simp only [setFile, if_true, List.map_cons]
      · simp only [setFile]
        rw [if_neg hg]
        simp only [List.map_cons] at h ⊢
        rcases List.mem_cons.mp h with hq | hq
        · exact absurd hq.symm hg
        · rw [ih hq]

/-! ## resolveSp helper lemmas -/

theorem resolveSp_empty (file : MarkedFile) (i : Nat) (h : file.mappings = []) :
    resolveSp file i = (i - file.beginExpanded, none) := by
  simp [resolveSp, h, partitionPoint]

theorem resolveSp_last_formula (file : MarkedFile) (i : Nat)
    (hall : ∀ M ∈ file.mappings, M.beginExpanded ≤ i)
    (hne : file.mappings ≠ []) :
    resolveSp file i =
      (if i < (file.mappings.getD (file.mappings.length - 1) default).endExpanded then
        ((file.mappings.getD (file.mappings.length - 1) default).beginSpelled,
          some (file.mappings.getD (file.mappings.length - 1) default))
      else ((file.mappings.getD (file.mappings.length - 1) default).endSpelled +
        (i - (file.mappings.getD (file.mappings.length - 1) default).endExpanded), none)) := by
  have hk : partitionPoint (fun M => decide (M.beginExpanded ≤ i)) file.mappings =
      file.mappings.length := by
    refine partitionPoint_all _ _ ?_
    intro x hx
    simpa using hall x hx
  have hlen : file.mappings.length ≠ 0 := by
    intro h0
    exact hne (List.length_eq_zero.1 h0)
  simp only [resolveSp, hk]
  rw [if_neg hlen]

theorem resolveSp_shift (file : MarkedFile) (ne i : Nat) (hle : ne ≤ i)
    (hall : ∀ M ∈ file.mappings, M.beginExpanded ≤ M.endExpanded ∧ M.endExpanded ≤ ne)
    (hbe : file.mappings = [] → file.beginExpanded ≤ ne) :
    (resolveSp file i).1 = (resolveSp file ne).1 + (i - ne) ∧
    (resolveSp file i).2 = none := by
  by_cases hmp : file.mappings = []
  · rw [resolveSp_empty file i hmp, resolveSp_empty file ne hmp]
    have := hbe hmp
    constructor
    · simp only []
      omega
    · rfl
  · have hlast : file.mappings.getD (file.mappings.length - 1) default ∈ file.mappings := by
      refine getD_mem ?_
      have : file.mappings.length ≠ 0 := by
        intro h0
        exact hmp (List.length_eq_zero.1 h0)
      omega
    have hl := hall _ hlast
    rw [resolveSp_last_formula file i (fun M hM => by have := hall M hM; omega) hmp,
      resolveSp_last_formula file ne (fun M hM => by have := hall M hM; omega) hmp]
    rw [if_neg (by omega), if_neg (by omega)]
    constructor
    · simp only []
      omega
    · rfl

theorem resolveSp_append (file : MarkedFile) (extra : List Mapping) (i : Nat)
    (hex : ∀ Mx ∈ extra, i < Mx.beginExpanded) :
    resolveSp { file with mappings := file.mappings ++ extra } i = resolveSp file i := by
  have hpp : partitionPoint (fun M => decide (M.beginExpanded ≤ i))
      (file.mappings ++ extra) =
      partitionPoint (fun M => decide (M.beginExpanded ≤ i)) file.mappings := by
    refine partitionPoint_append_false _ _ _ ?_
    intro x hx
    have := hex x hx
    simp only [decide_eq_false_iff_not]
    omega
  have hle := partitionPoint_le (fun M => decide (M.beginExpanded ≤ i)) file.mappings
  simp only [resolveSp, hpp]
  split
  · rfl
  · rename_i hk0
    rw [getD_append_left (by omega)]

/-- Full characterization of the discard loop: it terminates with enough
fuel, consumes spelled tokens up to the first location at or past Target,
partitions the consumed range into the flushed mappings, and every
consumed token either lies before Target or is covered by a captured
expansion that starts before Target. -/
theorem discardLoop_spec (exps : List (Nat × Nat)) (sp : List Token) (target bexp : Nat)
    (hexps : ∀ p ∈ exps, p.1 ≤ p.2) :
    ∀ fuel ns mb acc, mb ≤ ns → ns ≤ sp.length → sp.length + 1 ≤ fuel + ns →
    ∃ ns2 maps,
      discardLoop exps sp target bexp fuel ns mb acc = some (ns2, acc ++ maps) ∧
      ns ≤ ns2 ∧ ns2 ≤ sp.length ∧ MapsCover bexp mb ns2 maps ∧
      (ns2 < sp.length → target ≤ (sp.getD ns2 default).loc) ∧
      (∀ j, ns ≤ j → j < ns2 →
        (sp.getD j default).loc < target ∨
        ∃ u ke, lookupExp exps u = some ke ∧ u < target ∧ (sp.getD j default).loc ≤ ke) := by
  intro fuel
  induction fuel with
  | zero =>
      intro ns mb acc hmb hns hfuel
      omega
  | succ fuel ih =>
      intro ns mb acc hmb hns hfuel
      by_cases h : ns < sp.length
      · by_cases hlt : (sp.get ⟨ns, h⟩).loc < target
        · cases hke : lookupExp exps (sp.get ⟨ns, h⟩).loc with
          | none =>
              have heq1 : discardLoop exps sp target bexp (fuel + 1) ns mb acc
                  = discardLoop exps sp target bexp fuel (ns + 1) mb acc := by
                simp only [discardLoop, dif_pos h, if_pos hlt, hke]
              obtain ⟨ns2, maps, heq, ha, hb, hc, hd, he⟩ :=
                ih (ns + 1) mb acc (by omega) (by omega) (by omega)
              refine ⟨ns2, maps, by rw [heq1]; exact heq, by omega, hb, hc, hd, ?_⟩
              intro j hj1 hj2
              rcases Nat.eq_or_lt_of_le hj1 with hje | hjl
              · left
                rw [← hje, List.getD_eq_getElem _ default h]
                simpa [List.get_eq_getElem] using hlt
              · exact he j (by omega) hj2
          | some ke =>
              have hmem := lookupExp_some_mem hke
              have hule : (sp.get ⟨ns, h⟩).loc ≤ ke := hexps _ hmem
              have hprog : ns < advanceWhileLe sp ke ns := by
                refine advanceWhileLe_progress sp ke ns h ?_
                rw [List.getD_eq_getElem _ default h]
                simpa [List.get_eq_getElem] using hule
              have hwl := advanceWhileLe_spec sp ke ns (by omega)
              have heq1 : discardLoop exps sp target bexp (fuel + 1) ns mb acc
                  = discardLoop exps sp target bexp fuel (advanceWhileLe sp ke ns)
                      (advanceWhileLe sp ke ns)
                      (flushOne ns (advanceWhileLe sp ke ns) bexp (flushOne mb ns bexp acc)) := by
                simp only [discardLoop, dif_pos h, if_pos hlt, hke]
              obtain ⟨ns2, maps, heq, ha, hb, hc, hd, he⟩ :=
                ih (advanceWhileLe sp ke ns) (advanceWhileLe sp ke ns)
                  (flushOne ns (advanceWhileLe sp ke ns) bexp (flushOne mb ns bexp acc))
                  (Nat.le_refl _) hwl.2.1 (by omega)
              have hacc : flushOne ns (advanceWhileLe sp ke ns) bexp (flushOne mb ns bexp acc)
                  = acc ++ (flushOne mb ns bexp [] ++
                      flushOne ns (advanceWhileLe sp ke ns) bexp []) := by
                rw [flushOne_acc ns (advanceWhileLe sp ke ns) bexp,
                  flushOne_acc mb ns bexp acc, List.append_assoc]
              refine ⟨ns2,
                flushOne mb ns bexp [] ++ (flushOne ns (advanceWhileLe sp ke ns) bexp [] ++ maps),
                by rw [heq1, heq, hacc]; simp [List.append_assoc], by omega, hb, ?_, hd, ?_⟩
              · exact mapsCover_append (flushOne_cover mb ns bexp hmb)
                  (mapsCover_append (flushOne_cover ns _ bexp (by omega)) hc)
              · intro j hj1 hj2
                by_cases hjlt : j < advanceWhileLe sp ke ns
                · right
                  exact ⟨(sp.get ⟨ns, h⟩).loc, ke, hke, hlt, hwl.2.2.1 j hj1 hjlt⟩
                · exact he j (by omega) hj2
        · have heq1 : discardLoop exps sp target bexp (fuel + 1) ns mb acc
              = some (ns, flushOne mb ns bexp acc) := by
            simp only [discardLoop, dif_pos h, if_neg hlt]
          refine ⟨ns, flushOne mb ns bexp [],
            by rw [heq1, flushOne_acc], Nat.le_refl ns, hns,
            flushOne_cover mb ns bexp hmb, ?_, by omega⟩
          intro _
          rw [List.getD_eq_getElem _ default h]
          simp only [List.get_eq_getElem] at hlt
          omega
      · have heq1 : discardLoop exps sp target bexp (fuel + 1) ns mb acc
            = some (ns, flushOne mb ns bexp acc) := by
          simp only [discardLoop, dif_neg h]
        exact ⟨ns, flushOne mb ns bexp [],
          by rw [heq1, flushOne_acc], Nat.le_refl ns, hns,
          flushOne_cover mb ns bexp hmb, by omega, by omega⟩

theorem contractA : Contract smA spelledOfA expsA EA := by
  refine ⟨?_, ?_, ?_, ?_, ?_, ?_, ?_, ?_, ?_, ?_, ?_, ?_, ?_, ?_, ?_, ?_, ?_, ?_, ?_, ?_⟩
  · decide
  · decide
  · decide
  · decide
  · decide
  · decide
  · intro i hi
    rw [show EA.length - 1 = 2 from rfl] at hi
    interval_cases i <;> decide
  · intro i _ _
    rfl
  · intro i hi
    rw [show EA.length - 1 = 2 from rfl] at hi
    interval_cases i <;> decide
  · intro i hi hf
    simp [smA] at hf
  · decide
  · intro p hp i hi
    rw [show EA.length - 1 = 2 from rfl] at hi
    fin_cases hp <;> interval_cases i <;> decide
  · intro i j hij hj _ _
    rw [show EA.length - 1 = 2 from rfl] at hj
    interval_cases j <;> interval_cases i <;> decide
  · intro i j k h1 h2 h3
    rw [show EA.length - 1 = 2 from rfl] at h3
    interval_cases k <;> interval_cases j <;> interval_cases i <;> decide
  · intro i hi
    rw [show EA.length - 1 = 2 from rfl] at hi
    interval_cases i <;> decide
  · decide
  · rintro i j h1 h2 h3 h4 h5 ⟨k, hk1, hk2, hkne⟩
    exact absurd rfl hkne
  · intro i j _ _ _
    rfl
  · intro i j hij hj _ _
    rw [show EA.length - 1 = 2 from rfl] at hj
    interval_cases j <;> interval_cases i <;> decide
  · intro i hi hf
    simp [smA] at hf

/-! ## The files table built by buildSpelledTokens -/

theorem getLast_getD_eq_getD (l : List Token) :
    (l.getLast?).getD default = l.getD (l.length - 1) default := by
  rw [List.getD_eq_getElem?_getD, List.getLast?_eq_getElem?]

theorem mem_fidsOf {sm : SrcMgr} {E : List Token} {f : Nat} :
    f ∈ fidsOf sm E ↔ ∃ j, j < E.length ∧ fidOf sm E j = f := by
  unfold fidsOf
  rw [List.mem_map]
  constructor
  · rintro ⟨t, ht, rfl⟩
    obtain ⟨j, hj, rfl⟩ := List.mem_iff_getElem.1 ht
    refine ⟨j, hj, ?_⟩
    unfold fidOf rootOf
    rw [List.getD_eq_getElem _ default hj]
  · rintro ⟨j, hj, rfl⟩
    refine ⟨E.getD j default, getD_mem hj, ?_⟩
    unfold fidOf rootOf
    rfl

theorem buildSpelledTokensGo_inv (sm : SrcMgr) (spelledOf : Nat → List Token)
    (E : List Token) (heof : (E.getD (E.length - 1) default).kind = TokKind.eof) :
    ∀ (rest : List Token) (i : Nat) (fs : List (Nat × MarkedFile)),
      E.drop i = rest → i ≤ E.length → BsgP sm spelledOf E i fs →
      BsgP sm spelledOf E E.length (buildSpelledTokensGo sm spelledOf rest i fs) := by
  intro rest
  induction rest with
  | nil =>
      intro i fs hrest hi hP
      have hlen : E.length ≤ i := by
        by_contra hc
        push_neg at hc
        have := List.drop_eq_nil_iff.1 hrest
        omega
      have : i = E.length := by omega
      subst this
      simpa [buildSpelledTokensGo] using hP
  | cons t rest2 ih =>
      intro i fs hrest hi hP
      have hilt : i < E.length := by
        by_contra hc
        push_neg at hc
        rw [List.drop_eq_nil_of_le hc] at hrest
        exact absurd hrest (by simp)
      have hd := List.drop_eq_getElem_cons hilt
      rw [hrest] at hd
      injection hd with ht hrest2
      have htD : E.getD i default = t := by
        rw [List.getD_eq_getElem _ default hilt, ht]
      obtain ⟨hP1, hP2, hP3⟩ := hP
      have hfid : sm.fileOf (sm.expansionLoc t.loc) = fidOf sm E i := by
        unfold fidOf rootOf
        rw [htD]
      cases hlk : lookupFile fs (sm.fileOf (sm.expansionLoc t.loc)) with
      | some file =>
          simp only [buildSpelledTokensGo, hlk]
          refine ih (i + 1) _ hrest2.symm (by omega) ⟨?_, ?_, ?_⟩
          · intro f file' hlk'
            by_cases hf : f = sm.fileOf (sm.expansionLoc t.loc)
            · subst hf
              rw [lookupFile_setFile_self] at hlk'
              obtain ⟨q1, q2, q3, q4, q5, _⟩ := hP1 _ _ hlk
              injection hlk' with hfe
              subst hfe
              dsimp only
              refine ⟨q1, q2, q3, by omega, ?_, ?_⟩
              · intro j hj hjf
                rcases Nat.lt_or_ge j i with hji | hji
                · refine ⟨(q5 j hji hjf).1, ?_⟩
                  intro _
                  split <;> omega
                · have hji2 : j = i := by omega
                  subst hji2
                  refine ⟨by omega, ?_⟩
                  intro hk
                  rw [htD] at hk
                  rw [if_neg hk]
              · split
                · omega
                · rename_i hk
                  have : i ≠ E.length - 1 := by
                    intro hc
                    rw [hc] at htD
                    exact hk (htD ▸ heof)
                  omega
            · rw [lookupFile_setFile_ne _ _ _ _ hf] at hlk'
              obtain ⟨q1, q2, q3, q4, q5, q6⟩ := hP1 _ _ hlk'
              refine ⟨q1, q2, q3, by omega, ?_, q6⟩
              intro j hj hjf
              rcases Nat.lt_or_ge j i with hji | hji
              · exact q5 j hji hjf
              · have hji2 : j = i := by omega
                subst hji2
                rw [hfid] at hf
                exact absurd hjf.symm hf
          · intro f
            by_cases hf : f = sm.fileOf (sm.expansionLoc t.loc)
            · subst hf
              rw [lookupFile_setFile_self]
              simp only [Option.isSome_some, true_iff]
              exact ⟨i, by omega, hfid.symm⟩
            · rw [lookupFile_setFile_ne _ _ _ _ hf]
              rw [hP2 f]
              constructor
              · rintro ⟨j, hj, hjf⟩
                exact ⟨j, by omega, hjf⟩
              · rintro ⟨j, hj, hjf⟩
                rcases Nat.lt_or_ge j i with hji | hji
                · exact ⟨j, hji, hjf⟩
                · have : j = i := by omega
                  subst this
                  rw [hfid] at hf
                  exact absurd hjf.symm hf
          · rw [setFile_map_fst_of_mem]
            · exact hP3
            · rw [← lookupFile_isSome_iff, hlk]
              rfl
      | none =>
          simp only [buildSpelledTokensGo, hlk]
          refine ih (i + 1) _ hrest2.symm (by omega) ⟨?_, ?_, ?_⟩
          · intro f file' hlk'
            by_cases hf : f = sm.fileOf (sm.expansionLoc t.loc)
            · subst hf
              rw [lookupFile_append_of_none _ hlk] at hlk'
              injection hlk' with hfe
              subst hfe
              dsimp only
              refine ⟨rfl, rfl, by simpa using hfid.symm, by omega, ?_, ?_⟩
              · intro j hj hjf
                rcases Nat.lt_or_ge j i with hji | hji
                · exfalso
                  have : (lookupFile fs (sm.fileOf (sm.expansionLoc t.loc))).isSome := by
                    rw [hP2]
                    exact ⟨j, hji, hjf⟩
                  rw [hlk] at this
                  exact absurd this (by simp)
                · have hji2 : j = i := by omega
                  subst hji2
                  refine ⟨by omega, ?_⟩
                  intro hk
                  rw [htD] at hk
                  rw [if_neg hk]
              · split
                · omega
                · rename_i hk
                  have : i ≠ E.length - 1 := by
                    intro hc
                    rw [hc] at htD
                    exact hk (htD ▸ heof)
                  omega
            · rw [lookupFile_append_ne _ hf] at hlk'
              obtain ⟨q1, q2, q3, q4, q5, q6⟩ := hP1 _ _ hlk'
              refine ⟨q1, q2, q3, by omega, ?_, q6⟩
              intro j hj hjf
              rcases Nat.lt_or_ge j i with hji | hji
              · exact q5 j hji hjf
              · have hji2 : j = i := by omega
                subst hji2
                rw [hfid] at hf
                exact absurd hjf.symm hf
          · intro f
            by_cases hf : f = sm.fileOf (sm.expansionLoc t.loc)
            · subst hf
              rw [lookupFile_append_of_none _ hlk]
              simp only [Option.isSome_some, true_iff]
              exact ⟨i, by omega, hfid.symm⟩
            · rw [lookupFile_append_ne _ hf]
              rw [hP2 f]
              constructor
              · rintro ⟨j, hj, hjf⟩
                exact ⟨j, by omega, hjf⟩
              · rintro ⟨j, hj, hjf⟩
                rcases Nat.lt_or_ge j i with hji | hji
                · exact ⟨j, hji, hjf⟩
                · have : j = i := by omega
                  subst this
                  rw [hfid] at hf
                  exact absurd hjf.symm hf
          · rw [List.map_append]
            rw [List.nodup_append]
            refine ⟨hP3, by simp, ?_⟩
            intro a ha hb
            simp only [List.map_cons, List.map_nil, List.mem_singleton] at hb
            rw [hb] at ha
            have : (lookupFile fs (sm.fileOf (sm.expansionLoc t.loc))).isSome := by
              rw [lookupFile_isSome_iff]
              exact ha
            rw [hlk] at this
            exact absurd this (by simp)

/-- After appending a non-empty MapsCover block, the file-token resolution
at the block's expanded position lands on the block's final cursor. -/
theorem resolveSp_after_cover (file : MarkedFile) (ne ns0 ns2 : Nat) (maps : List Mapping)
    (hold : ∀ M ∈ file.mappings, M.beginExpanded ≤ ne)
    (hcov : MapsCover ne ns0 ns2 maps) (hmne : maps ≠ []) :
    resolveSp { file with mappings := file.mappings ++ maps } ne = (ns2, none) := by
  have hfacts := mapsCover_facts hcov
  have hml : 0 < maps.length := List.length_pos.2 hmne
  have hall : ∀ M ∈ file.mappings ++ maps, M.beginExpanded ≤ ne := by
    intro M hM
    rcases List.mem_append.1 hM with h | h
    · exact hold M h
    · have := (hfacts.2.1 M h).2.2.2.1
      omega
  have hne2 : file.mappings ++ maps ≠ [] := by
    intro hc
    exact hmne (List.append_eq_nil.1 hc).2
  have hlast : (file.mappings ++ maps).getD ((file.mappings ++ maps).length - 1) default
      = maps.getD (maps.length - 1) default := by
    rw [List.length_append]
    rw [getD_append_right (by omega)]
    congr 1
    omega
  have hmem : maps.getD (maps.length - 1) default ∈ maps := getD_mem (by omega)
  have hee : (maps.getD (maps.length - 1) default).endExpanded = ne :=
    (hfacts.2.1 _ hmem).2.2.2.2
  have hes : (maps.getD (maps.length - 1) default).endSpelled = ns2 := mapsCover_last hcov hmne
  have h := resolveSp_last_formula { file with mappings := file.mappings ++ maps } ne
    (by simpa using hall) (by simpa using hne2)
  simp only at h hlast
  rw [hlast] at h
  rw [h, if_neg (by omega), hes, hee]
  simp

/-- The mapping returned by the resolution is a stored mapping covering i. -/
theorem resolveSp_snd_mem {file : MarkedFile} {i : Nat} {M : Mapping}
    (h : (resolveSp file i).2 = some M) :
    M ∈ file.mappings ∧ (resolveSp file i).1 = M.beginSpelled ∧
    M.beginExpanded ≤ i ∧ i < M.endExpanded := by
  have hle := partitionPoint_le (fun M => decide (M.beginExpanded ≤ i)) file.mappings
  simp only [resolveSp] at h ⊢
  split at h
  · simp at h
  · rename_i hk0
    split at h
    · rename_i hlt
      injection h with hM
      subst hM
      have hmem : file.mappings.getD
          (partitionPoint (fun M => decide (M.beginExpanded ≤ i)) file.mappings - 1) default
          ∈ file.mappings := getD_mem (by omega)
      have hsat := partitionPoint_sat (fun M => decide (M.beginExpanded ≤ i)) file.mappings
        (partitionPoint (fun M => decide (M.beginExpanded ≤ i)) file.mappings - 1) (by omega)
      simp only [decide_eq_true_eq] at hsat
      rw [if_neg hk0, if_pos hlt]
      exact ⟨hmem, rfl, hsat, hlt⟩
    · simp at h

/-- Rewriting one tracked file's mappings preserves the static facts. -/
theorem staticInv_set {sm : SrcMgr} {spelledOf : Nat → List Token} {E : List Token}
    {fs : List (Nat × MarkedFile)} (hS : StaticInv sm spelledOf E fs) {fid : Nat}
    {file : MarkedFile} (hlk : lookupFile fs fid = some file) (maps : List Mapping) :
    StaticInv sm spelledOf E (setFile fs fid { file with mappings := maps }) := by
  have hkey : fid ∈ fs.map Prod.fst := by
    rw [← lookupFile_isSome_iff, hlk]
    rfl
  refine ⟨?_, ?_, ?_, ?_, ?_, ?_, ?_⟩
  · intro f file' hlk'
    by_cases hf : f = fid
    · subst hf
      rw [lookupFile_setFile_self] at hlk'
      injection hlk' with hfe
      subst hfe
      dsimp only
      exact hS.spelled _ _ hlk
    · rw [lookupFile_setFile_ne _ _ _ _ hf] at hlk'
      exact hS.spelled _ _ hlk'
  · intro f
    by_cases hf : f = fid
    · subst hf
      rw [lookupFile_setFile_self]
      rw [← hS.keysMem, hlk]
      simp
    · rw [lookupFile_setFile_ne _ _ _ _ hf]
      exact hS.keysMem f
  · intro f file' hlk'
    by_cases hf : f = fid
    · subst hf
      rw [lookupFile_setFile_self] at hlk'
      injection hlk' with hfe
      subst hfe
      dsimp only
      exact hS.beginFid _ _ hlk
    · rw [lookupFile_setFile_ne _ _ _ _ hf] at hlk'
      exact hS.beginFid _ _ hlk'
  · intro f file' hlk'
    by_cases hf : f = fid
    · subst hf
      rw [lookupFile_setFile_self] at hlk'
      injection hlk' with hfe
      subst hfe
      dsimp only
      exact hS.beginLe _ _ hlk
    · rw [lookupFile_setFile_ne _ _ _ _ hf] at hlk'
      exact hS.beginLe _ _ hlk'
  · intro f file' hlk'
    by_cases hf : f = fid
    · subst hf
      rw [lookupFile_setFile_self] at hlk'
      injection hlk' with hfe
      subst hfe
      dsimp only
      exact hS.endGe _ _ hlk
    · rw [lookupFile_setFile_ne _ _ _ _ hf] at hlk'
      exact hS.endGe _ _ hlk'
  · intro f file' hlk'
    by_cases hf : f = fid
    · subst hf
      rw [lookupFile_setFile_self] at hlk'
      injection hlk' with hfe
      subst hfe
      dsimp only
      exact hS.endLe _ _ hlk
    · rw [lookupFile_setFile_ne _ _ _ _ hf] at hlk'
      exact hS.endLe _ _ hlk'
  · rw [setFile_map_fst_of_mem _ hkey]
    exact hS.nodupKeys

/-- A file not targeted by the current builder step keeps its loop
invariant: its cursor and mappings are untouched, and the consumed
expanded tokens all belong to the stepped file. -/
theorem fileInvLoop_bystander {sm : SrcMgr} {spelledOf : Nat → List Token}
    {exps : List (Nat × Nat)} {E : List Token}
    (hC : Contract sm spelledOf exps E)
    {st st2 : BState} {g f0 : Nat} {file : MarkedFile}
    (hI : FileInvLoop sm spelledOf exps E st g file)
    (hgf : g ≠ f0)
    (hne2 : st.nextExpanded ≤ st2.nextExpanded)
    (hrun : ∀ k, st.nextExpanded ≤ k → k < st2.nextExpanded → fidOf sm E k = f0)
    (hcur : st2.nextSpelled g = st.nextSpelled g)
    (hbF : fidOf sm E file.beginExpanded = g) (hbLt : file.beginExpanded < E.length) :
    FileInvLoop sm spelledOf exps E st2 g file := by
  refine ⟨⟨hI.core.chain, hI.core.wfStrict,
    by rw [hcur]; exact hI.core.esLe,
    fun M hM => le_trans (hI.core.eeLeNe M hM) hne2,
    hI.core.eeLeEnd,
    by rw [hcur]; exact hI.core.nsLe⟩, ?_, ?_, ?_, ?_, ?_⟩
  · intro i hi hilen hfid hnone
    by_cases hio : i < st.nextExpanded
    · have := hI.resolved i hio hilen hfid hnone
      rw [hcur]
      exact this
    · exfalso
      have h1 := hrun i (by omega) hi
      rw [hfid] at h1
      exact hgf h1
  · intro j hj i hi hilen hfid
    rw [hcur] at hj
    exact hI.consumed j hj i (by omega) hilen hfid
  · intro i hi hfid hbet j hj
    by_cases hio : i < st.nextExpanded
    · refine hI.consumedBound i hio hfid ?_ j (by rw [hcur] at hj; exact hj)
      intro k hk1 hk2
      exact hbet k hk1 (by omega)
    · exfalso
      have h1 := hrun i (by omega) hi
      rw [hfid] at h1
      exact hgf h1
  · intro h
    rw [hcur]
    exact hI.nsZero (fun i hi => h i (by omega))
  · rcases hI.frontier with hA | hP
    · rcases Nat.eq_or_lt_of_le hne2 with heq | hlt2
      · left
        unfold Aligned at hA ⊢
        rw [hcur, ← heq]
        exact hA
      · by_cases hpast : ∃ i0, i0 < st.nextExpanded ∧ fidOf sm E i0 = g
        · right
          intro i hi1 hi2 hfid hfirst
          obtain ⟨iw, hiw, hiwf⟩ := hpast
          have hP0 : fidOf sm E
              (Nat.findGreatest (fun k => fidOf sm E k = g) (st.nextExpanded - 1)) = g :=
            Nat.findGreatest_spec (P := fun k => fidOf sm E k = g) (by omega) hiwf
          have hle0 := Nat.findGreatest_le (P := fun k => fidOf sm E k = g)
            (st.nextExpanded - 1)
          have hmax : ∀ k, Nat.findGreatest (fun k => fidOf sm E k = g)
              (st.nextExpanded - 1) < k → k ≤ st.nextExpanded - 1 → fidOf sm E k ≠ g :=
            fun k hk1 hk2 =>
              Nat.findGreatest_is_greatest (P := fun k => fidOf sm E k = g) hk1 hk2
          have hi0lt : Nat.findGreatest (fun k => fidOf sm E k = g)
              (st.nextExpanded - 1) < st.nextExpanded := by omega
          have hroots : rootOf sm E (Nat.findGreatest (fun k => fidOf sm E k = g)
              (st.nextExpanded - 1)) ≠ rootOf sm E i := by
            intro hr
            have h1 := hC.rootRuns _ st.nextExpanded i (by omega) (by omega) hi2 hr
            have h2 : fidOf sm E st.nextExpanded = fidOf sm E
                (Nat.findGreatest (fun k => fidOf sm E k = g) (st.nextExpanded - 1)) :=
              congrArg sm.fileOf h1
            have h3 := hrun st.nextExpanded (Nat.le_refl _) hlt2
            rw [h3] at h2
            exact hgf (h2.trans hP0).symm
          have hbet : ∀ k, Nat.findGreatest (fun k => fidOf sm E k = g)
              (st.nextExpanded - 1) < k → k < i → fidOf sm E k ≠ fidOf sm E i := by
            intro k hk1 hk2
            rw [hfid]
            by_cases hka : k < st.nextExpanded
            · exact hmax k hk1 (by omega)
            · by_cases hkb : k < st2.nextExpanded
              · rw [hrun k (by omega) hkb]
                exact Ne.symm hgf
              · exact hfirst k (by omega) hk2
          have hex : ∃ k, Nat.findGreatest (fun k => fidOf sm E k = g)
              (st.nextExpanded - 1) < k ∧ k < i ∧ fidOf sm E k ≠ fidOf sm E i := by
            refine ⟨st.nextExpanded, by omega, by omega, ?_⟩
            rw [hfid, hrun st.nextExpanded (Nat.le_refl _) hlt2]
            exact Ne.symm hgf
          obtain ⟨t, htmem, htlb, htub⟩ := hC.resumePending _ i (by omega) hi2
            (hP0.trans hfid.symm) hroots hbet hex
          rw [hfid] at htmem
          obtain ⟨it, hitlen, hitt⟩ := List.mem_iff_getElem.1 htmem
          have hcb := hI.consumedBound _ hi0lt hP0
            (fun k hk1 hk2 => hmax k hk1 (by omega))
          have hnsle : st.nextSpelled g ≤ it := by
            by_contra hc
            push_neg at hc
            have := hcb it hc
            rw [List.getD_eq_getElem _ default hitlen, hitt] at this
            omega
          constructor
          · rw [hcur]
            omega
          · rw [hcur]
            have hsorted := hC.sortedSpelled g (mem_fidsOf.2 ⟨i, by omega, hfid⟩)
            rcases Nat.eq_or_lt_of_le hnsle with he | hl
            · rw [he, List.getD_eq_getElem _ default hitlen, hitt]
              omega
            · have := pairwise_getD hsorted hl hitlen
              rw [List.getD_eq_getElem _ default hitlen, hitt] at this
              omega
        · left
          push_neg at hpast
          have hns0 : st.nextSpelled g = 0 := hI.nsZero hpast
          have hnotbefore2 : ∀ i0, i0 < st2.nextExpanded → fidOf sm E i0 ≠ g := by
            intro i0 hi0
            by_cases h : i0 < st.nextExpanded
            · exact hpast i0 h
            · rw [hrun i0 (by omega) hi0]
              exact Ne.symm hgf
          have hbe2 : st2.nextExpanded ≤ file.beginExpanded := by
            by_contra hc
            push_neg at hc
            exact hnotbefore2 _ hc hbF
          unfold Aligned at hA ⊢
          cases hmp : file.mappings with
          | nil =>
              rw [hcur, hns0, resolveSp_empty file st2.nextExpanded hmp]
              simp only
              omega
          | cons M rest =>
              exfalso
              have hall : ∀ N ∈ file.mappings, N.beginExpanded ≤ st.nextExpanded := by
                intro N hN
                have h1 := (hI.core.wfStrict N hN).2
                have h2 := hI.core.eeLeNe N hN
                omega
              have hlf := resolveSp_last_formula file st.nextExpanded hall
                (by rw [hmp]; simp)
              have hLmem : file.mappings.getD (file.mappings.length - 1) default
                  ∈ file.mappings := by
                refine getD_mem ?_
                rw [hmp]
                simp
              have hLee := hI.core.eeLeNe _ hLmem
              rw [hlf, if_neg (by omega)] at hA
              simp only at hA
              rw [hns0] at hA
              have := (hI.core.wfStrict _ hLmem).1
              omega
    · right
      intro i hi1 hi2 hfid hfirst
      have hb : ∀ k, st.nextExpanded ≤ k → k < i → fidOf sm E k ≠ g := by
        intro k hk1 hk2
        by_cases hks : k < st2.nextExpanded
        · rw [hrun k hk1 hks]
          exact Ne.symm hgf
        · exact hfirst k (by omega) hk2
      have := hP i (by omega) hi2 hfid hb
      rw [hcur]
      exact this

/-- A successful discard inside the main loop: it flushes the pending
spelled tokens of the current token's file and leaves the cursor exactly
on the spelled token at the current expansion root. -/
theorem discard_none_spec {sm : SrcMgr} {spelledOf : Nat → List Token}
    {exps : List (Nat × Nat)} {E : List Token}
    (hC : Contract sm spelledOf exps E)
    {st st1 : BState}
    (hS : StaticInv sm spelledOf E st.files)
    (hL : LoopInv sm spelledOf exps E st)
    (hlt : st.nextExpanded < E.length - 1)
    (hd : discard sm exps E none st = some st1) :
    ∃ file0 ns2 maps,
      lookupFile st.files (fidOf sm E st.nextExpanded) = some file0 ∧
      st1 = { files := setFile st.files (fidOf sm E st.nextExpanded)
                { file0 with mappings := file0.mappings ++ maps }
              nextExpanded := st.nextExpanded
              nextSpelled := updFn st.nextSpelled (fidOf sm E st.nextExpanded) ns2 } ∧
      st.nextSpelled (fidOf sm E st.nextExpanded) ≤ ns2 ∧
      ns2 < (spelledOf (fidOf sm E st.nextExpanded)).length ∧
      ((spelledOf (fidOf sm E st.nextExpanded)).getD ns2 default).loc
        = rootOf sm E st.nextExpanded ∧
      MapsCover st.nextExpanded (st.nextSpelled (fidOf sm E st.nextExpanded)) ns2 maps ∧
      (∀ j, st.nextSpelled (fidOf sm E st.nextExpanded) ≤ j → j < ns2 →
        ((spelledOf (fidOf sm E st.nextExpanded)).getD j default).loc
            < rootOf sm E st.nextExpanded ∨
        ∃ u ke, lookupExp exps u = some ke ∧ u < rootOf sm E st.nextExpanded ∧
          ((spelledOf (fidOf sm E st.nextExpanded)).getD j default).loc ≤ ke) := by
  have hnelen : st.nextExpanded < E.length := by omega
  have hmemf : fidOf sm E st.nextExpanded ∈ fidsOf sm E :=
    mem_fidsOf.2 ⟨_, hnelen, rfl⟩
  have hsome : (lookupFile st.files (fidOf sm E st.nextExpanded)).isSome :=
    (hS.keysMem _).2 hmemf
  obtain ⟨file0, hlk0⟩ := Option.isSome_iff_exists.1 hsome
  have hdfid : dFid sm E st none = fidOf sm E st.nextExpanded := rfl
  have htarget : discardTarget sm E st none = rootOf sm E st.nextExpanded := rfl
  have hbexp : discardBexp st none = st.nextExpanded := rfl
  have hdfile : dFile sm E st none = file0 := by
    unfold dFile
    rw [hdfid, hlk0]
    rfl
  have hsp : file0.spelledTokens = spelledOf (fidOf sm E st.nextExpanded) :=
    hS.spelled _ _ hlk0
  obtain ⟨ns2, maps, hloop, hsteq⟩ := discard_some_shape hd
  rw [hdfile, hdfid, htarget, hbexp, hsp] at hloop
  rw [hdfile, hdfid] at hsteq
  have hns0le : st.nextSpelled (fidOf sm E st.nextExpanded)
      ≤ (spelledOf (fidOf sm E st.nextExpanded)).length :=
    (hL _ _ hlk0).core.nsLe
  obtain ⟨ns2', maps', hloop', hle', hlen', hcov', hstop', hdisj'⟩ :=
    discardLoop_spec exps (spelledOf (fidOf sm E st.nextExpanded))
      (rootOf sm E st.nextExpanded) st.nextExpanded hC.expStartLe
      ((spelledOf (fidOf sm E st.nextExpanded)).length + 1)
      (st.nextSpelled (fidOf sm E st.nextExpanded))
      (st.nextSpelled (fidOf sm E st.nextExpanded)) [] (Nat.le_refl _) hns0le (by omega)
  rw [hloop] at hloop'
  injection hloop' with hpair
  injection hpair with h1 h2
  simp only [List.nil_append] at h2
  subst h1
  subst h2
  obtain ⟨t, htmem, htloc⟩ := hC.rootSpelled st.nextExpanded hlt
  obtain ⟨r, hrlen, hrt⟩ := List.mem_iff_getElem.1 htmem
  have hsorted := hC.sortedSpelled _ hmemf
  have hconsumed := (hL _ _ hlk0).consumed
  have hrge : st.nextSpelled (fidOf sm E st.nextExpanded) ≤ r := by
    by_contra hc
    push_neg at hc
    have := hconsumed r hc st.nextExpanded (Nat.le_refl _) hlt rfl
    rw [List.getD_eq_getElem _ default hrlen, hrt, htloc] at this
    omega
  have hrge2 : ns2 ≤ r := by
    by_contra hc
    push_neg at hc
    rcases hdisj' r hrge hc with hx | ⟨u, ke, hu, hult, hke⟩
    · rw [List.getD_eq_getElem _ default hrlen, hrt, htloc] at hx
      omega
    · have hmemu := lookupExp_some_mem hu
      have := hC.expAvoidRoots _ hmemu st.nextExpanded hlt hult
      rw [List.getD_eq_getElem _ default hrlen, hrt, htloc] at hke
      omega
  have hns2lt : ns2 < (spelledOf (fidOf sm E st.nextExpanded)).length := by omega
  have hstop := hstop' hns2lt
  have hlocle : ((spelledOf (fidOf sm E st.nextExpanded)).getD ns2 default).loc
      ≤ rootOf sm E st.nextExpanded := by
    rcases Nat.eq_or_lt_of_le hrge2 with he | hlr
    · rw [he, List.getD_eq_getElem _ default hrlen, hrt, htloc]
    · have := pairwise_getD hsorted hlr hrlen
      rw [List.getD_eq_getElem _ default hrlen, hrt, htloc] at this
      omega
  exact ⟨file0, ns2, maps, hlk0, hsteq, hle', hns2lt, by omega, hcov', hdisj'⟩

/-- One main-loop step whose advance takes the file-token branch
preserves the loop invariant and makes strict expanded progress. -/
theorem step_fileRun {sm : SrcMgr} {spelledOf : Nat → List Token}
    {exps : List (Nat × Nat)} {E : List Token}
    (hC : Contract sm spelledOf exps E)
    {st st2 : BState} {file0 : MarkedFile} {ns2 : Nat} {maps : List Mapping}
    (hS : StaticInv sm spelledOf E st.files)
    (hL : LoopInv sm spelledOf exps E st)
    (hlt : st.nextExpanded < E.length - 1)
    (hlk0 : lookupFile st.files (fidOf sm E st.nextExpanded) = some file0)
    (hns0le : st.nextSpelled (fidOf sm E st.nextExpanded) ≤ ns2)
    (hns2lt : ns2 < (spelledOf (fidOf sm E st.nextExpanded)).length)
    (hloc2 : ((spelledOf (fidOf sm E st.nextExpanded)).getD ns2 default).loc
      = rootOf sm E st.nextExpanded)
    (hcov : MapsCover st.nextExpanded (st.nextSpelled (fidOf sm E st.nextExpanded)) ns2 maps)
    (hdisj : ∀ j, st.nextSpelled (fidOf sm E st.nextExpanded) ≤ j → j < ns2 →
      ((spelledOf (fidOf sm E st.nextExpanded)).getD j default).loc
          < rootOf sm E st.nextExpanded ∨
      ∃ u ke, lookupExp exps u = some ke ∧ u < rootOf sm E st.nextExpanded ∧
        ((spelledOf (fidOf sm E st.nextExpanded)).getD j default).loc ≤ ke)
    {ns3 ne2 : Nat}
    (hrun_eq : advanceFileRun (spelledOf (fidOf sm E st.nextExpanded)) E ns2
      st.nextExpanded = (ns3, ne2))
    (hst2 : st2 = { files := setFile st.files (fidOf sm E st.nextExpanded)
                      { file0 with mappings := file0.mappings ++ maps }
                    nextExpanded := ne2
                    nextSpelled :=
                      updFn (updFn st.nextSpelled (fidOf sm E st.nextExpanded) ns2)
                        (fidOf sm E st.nextExpanded) ns3 })
    (hfidT : sm.isFileID ((E.getD st.nextExpanded default).loc) = true) :
    StaticInv sm spelledOf E st2.files ∧ LoopInv sm spelledOf exps E st2 ∧
    st.nextExpanded < st2.nextExpanded ∧ st2.nextExpanded ≤ E.length - 1 := by
  subst hst2
  have hnelen : st.nextExpanded < E.length := by omega
  have hmemf : fidOf sm E st.nextExpanded ∈ fidsOf sm E :=
    mem_fidsOf.2 ⟨_, hnelen, rfl⟩
  have hfacts := mapsCover_facts hcov
  have hold_wf := (hL _ _ hlk0).core.wfStrict
  have hold_ee := (hL _ _ hlk0).core.eeLeNe
  have hold_es := (hL _ _ hlk0).core.esLe
  have hold_chain := (hL _ _ hlk0).core.chain
  have hold_eeEnd := (hL _ _ hlk0).core.eeLeEnd
  have hbe0 : file0.beginExpanded ≤ st.nextExpanded :=
    hS.beginLe _ _ hlk0 st.nextExpanded hnelen rfl
  have hkind : (E.getD st.nextExpanded default).kind ≠ TokKind.eof :=
    hC.noEofBefore st.nextExpanded hlt
  have hendGe : st.nextExpanded + 1 ≤ file0.endExpanded :=
    hS.endGe _ _ hlk0 st.nextExpanded hnelen rfl hkind
  obtain ⟨hrr1, hrr2, hrr3, hrr4, hrr5, hrr6⟩ :=
    advanceFileRun_spec (spelledOf (fidOf sm E st.nextExpanded)) E ns2 st.nextExpanded
      (by omega) (by omega)
  simp only [hrun_eq] at hrr1 hrr2 hrr3 hrr4 hrr5 hrr6
  have hrootX : rootOf sm E st.nextExpanded = (E.getD st.nextExpanded default).loc :=
    hC.rootFileId st.nextExpanded hnelen hfidT
  have hprog : ns2 < ns3 := by
    rcases Nat.eq_or_lt_of_le hrr1 with he | h
    · exfalso
      have hstop := hrr6 (by omega) (by omega)
      have hloceq : ((spelledOf (fidOf sm E st.nextExpanded)).getD ns3 default).loc
          = (E.getD ne2 default).loc := by
        rw [← he, hloc2, hrootX]
        congr 2
        omega
      exact hstop hloceq
    · exact h
  have hne2eq : ne2 = st.nextExpanded + (ns3 - ns2) := hrr3
  have hne2gt : st.nextExpanded < ne2 := by omega
  have hrunfacts : ∀ k, st.nextExpanded ≤ k → k < ne2 →
      (E.getD k default).loc
        = ((spelledOf (fidOf sm E st.nextExpanded)).getD
            (ns2 + (k - st.nextExpanded)) default).loc ∧
      sm.isFileID ((E.getD k default).loc) = true ∧
      rootOf sm E k = (E.getD k default).loc ∧
      fidOf sm E k = fidOf sm E st.nextExpanded := by
    intro k hk1 hk2
    have hd : ns2 + (k - st.nextExpanded) < ns3 := by omega
    have hklen : k < E.length := by omega
    have hloceq : ((spelledOf (fidOf sm E st.nextExpanded)).getD
        (ns2 + (k - st.nextExpanded)) default).loc = (E.getD k default).loc := by
      have := hrr5 (k - st.nextExpanded) hd
      rwa [show st.nextExpanded + (k - st.nextExpanded) = k by omega] at this
    have hspmem : (spelledOf (fidOf sm E st.nextExpanded)).getD
        (ns2 + (k - st.nextExpanded)) default ∈ spelledOf (fidOf sm E st.nextExpanded) :=
      getD_mem (by omega)
    have hfk : sm.isFileID ((E.getD k default).loc) = true := by
      rcases Bool.eq_false_or_eq_true (sm.isFileID ((E.getD k default).loc)) with hb | hb
      · exact hb
      · exfalso
        have := hC.macLocFresh k hklen hb _ hmemf _ hspmem
        exact this hloceq
    have hrk := hC.rootFileId k hklen hfk
    refine ⟨hloceq.symm, hfk, hrk, ?_⟩
    show sm.fileOf (rootOf sm E k) = fidOf sm E st.nextExpanded
    rw [hrk, ← hloceq]
    exact hC.fileOfSpelled _ hmemf _ hspmem
  have hne2le : ne2 ≤ E.length - 1 := by
    by_contra hc
    push_neg at hc
    have hk := hrunfacts (E.length - 1) (by omega) (by omega)
    have := hC.eofLocFresh _ hmemf _
      (getD_mem (l := spelledOf (fidOf sm E st.nextExpanded))
        (n := ns2 + (E.length - 1 - st.nextExpanded)) (by omega))
    exact this hk.1.symm
  have hall_ee1 : ∀ M ∈ file0.mappings ++ maps,
      M.beginExpanded ≤ M.endExpanded ∧ M.endExpanded ≤ st.nextExpanded := by
    intro M hM
    rcases List.mem_append.1 hM with h | h
    · exact ⟨(hold_wf M h).2, hold_ee M h⟩
    · have h1 := (hfacts.2.1 M h).2.2.2.1
      have h2 := (hfacts.2.1 M h).2.2.2.2
      omega
  have hbe1 : ({ file0 with mappings := file0.mappings ++ maps } : MarkedFile).mappings = []
      → ({ file0 with mappings := file0.mappings ++ maps } : MarkedFile).beginExpanded
        ≤ st.nextExpanded := fun _ => hbe0
  have h_res_ne : resolveSp { file0 with mappings := file0.mappings ++ maps }
      st.nextExpanded = (ns2, none) := by
    by_cases hmp : maps = []
    · subst hmp
      have hns02 : st.nextSpelled (fidOf sm E st.nextExpanded) = ns2 := hcov
      have hfeq : ({ file0 with mappings := file0.mappings ++ [] } : MarkedFile)
          = file0 := by
        simp
      rw [hfeq]
      have hshift := resolveSp_shift file0 st.nextExpanded st.nextExpanded
        (Nat.le_refl _) (fun M hM => ⟨(hold_wf M hM).2, hold_ee M hM⟩) (fun _ => hbe0)
      have halign : (resolveSp file0 st.nextExpanded).1 = ns2 := by
        rcases (hL _ _ hlk0).frontier with hA | hP
        · rw [hA]
          exact hns02
        · exfalso
          have := hP st.nextExpanded (Nat.le_refl _) hlt rfl (by omega)
          rw [hns02, hloc2] at this
          omega
      have : resolveSp file0 st.nextExpanded
          = ((resolveSp file0 st.nextExpanded).1, (resolveSp file0 st.nextExpanded).2) := rfl
      rw [this, halign, hshift.2]
    · exact resolveSp_after_cover file0 st.nextExpanded _ ns2 maps
        (fun M hM => by have h1 := (hold_wf M hM).2; have h2 := hold_ee M hM; omega)
        hcov hmp
  have hchain1 : List.Pairwise
      (fun a b => a.endSpelled ≤ b.beginSpelled ∧ a.endExpanded ≤ b.beginExpanded)
      (file0.mappings ++ maps) := by
    rw [List.pairwise_append]
    refine ⟨hold_chain, ?_, ?_⟩
    · refine (hfacts.2.2).imp_of_mem ?_
      intro a b ha hb hr
      refine ⟨hr, ?_⟩
      have h1 := (hfacts.2.1 a ha).2.2.2.2
      have h2 := (hfacts.2.1 b hb).2.2.2.1
      omega
    · intro a haa b hbb
      have h1 := hold_es a haa
      have h2 := hold_ee a haa
      have h3 := (hfacts.2.1 b hbb).1
      have h4 := (hfacts.2.1 b hbb).2.2.2.1
      exact ⟨by omega, by omega⟩
  have hwf1 : ∀ M ∈ file0.mappings ++ maps,
      M.beginSpelled < M.endSpelled ∧ M.beginExpanded ≤ M.endExpanded := by
    intro M hM
    rcases List.mem_append.1 hM with h | h
    · exact hold_wf M h
    · have h1 := (hfacts.2.1 M h).2.1
      have h2 := (hfacts.2.1 M h).2.2.2.1
      have h3 := (hfacts.2.1 M h).2.2.2.2
      exact ⟨h1, by omega⟩
  have hesle1 : ∀ M ∈ file0.mappings ++ maps, M.endSpelled ≤ ns2 := by
    intro M hM
    rcases List.mem_append.1 hM with h | h
    · have := hold_es M h
      omega
    · have := (hfacts.2.1 M h).2.2.1
      omega
  have heeleNe1 : ∀ M ∈ file0.mappings ++ maps, M.endExpanded ≤ st.nextExpanded := by
    intro M hM
    exact (hall_ee1 M hM).2
  have heeleEnd1 : ∀ M ∈ file0.mappings ++ maps, M.endExpanded ≤ file0.endExpanded := by
    intro M hM
    rcases List.mem_append.1 hM with h | h
    · exact hold_eeEnd M h
    · have := (hfacts.2.1 M h).2.2.2.2
      omega
  have hres1 : ∀ i, i < st.nextExpanded → i < E.length - 1 →
      fidOf sm E i = fidOf sm E st.nextExpanded →
      (resolveSp { file0 with mappings := file0.mappings ++ maps } i).2 = none →
      (resolveSp { file0 with mappings := file0.mappings ++ maps } i).1 < ns2 ∧
      ((spelledOf (fidOf sm E st.nextExpanded)).getD
        (resolveSp { file0 with mappings := file0.mappings ++ maps } i).1 default).loc
        = (E.getD i default).loc := by
    intro i hi hilen hfid hnone
    have hra : resolveSp { file0 with mappings := file0.mappings ++ maps } i
        = resolveSp file0 i :=
      resolveSp_append file0 maps i
        (fun Mx hMx => by have := (hfacts.2.1 Mx hMx).2.2.2.1; omega)
    rw [hra] at hnone ⊢
    have h1 := (hL _ _ hlk0).resolved i hi hilen hfid hnone
    exact ⟨by omega, h1.2⟩
  have hcons1 : ∀ j, j < ns2 → ∀ i, st.nextExpanded ≤ i → i < E.length - 1 →
      fidOf sm E i = fidOf sm E st.nextExpanded →
      ((spelledOf (fidOf sm E st.nextExpanded)).getD j default).loc < rootOf sm E i := by
    intro j hj i hi hilen hfid
    have hXle : rootOf sm E st.nextExpanded ≤ rootOf sm E i := by
      by_cases hreq : rootOf sm E i = rootOf sm E st.nextExpanded
      · omega
      · have hne_lt : st.nextExpanded < i := by
          rcases Nat.eq_or_lt_of_le hi with he | h
          · exfalso
            exact hreq (by rw [← he])
          · exact h
        have := hC.rootsMono st.nextExpanded i hne_lt hilen hfid.symm
          (fun hh => hreq hh.symm)
        omega
    by_cases hjo : j < st.nextSpelled (fidOf sm E st.nextExpanded)
    · exact (hL _ _ hlk0).consumed j hjo i hi hilen hfid
    · push_neg at hjo
      rcases hdisj j hjo hj with hx | ⟨u, ke, hu, hult, hke⟩
      · omega
      · have hmemu := lookupExp_some_mem hu
        have := hC.expAvoidRoots _ hmemu i hilen (by omega)
        omega
  refine ⟨?_, ?_, by dsimp only; omega, by dsimp only; exact hne2le⟩
  · dsimp only
    exact staticInv_set hS hlk0 (file0.mappings ++ maps)
  · intro g file hlkg
    dsimp only at hlkg
    by_cases hgf : g = fidOf sm E st.nextExpanded
    · subst hgf
      rw [lookupFile_setFile_self] at hlkg
      injection hlkg with hfe
      subst hfe
      have hcur2 : updFn (updFn st.nextSpelled (fidOf sm E st.nextExpanded) ns2)
          (fidOf sm E st.nextExpanded) ns3 (fidOf sm E st.nextExpanded) = ns3 :=
        updFn_self _ _ _
      refine ⟨⟨hchain1, hwf1, ?_, ?_, heeleEnd1, ?_⟩, ?_, ?_, ?_, ?_, ?_⟩
      · intro M hM
        dsimp only
        rw [hcur2]
        have := hesle1 M hM
        omega
      · intro M hM
        dsimp only
        have := heeleNe1 M hM
        omega
      · dsimp only
        rw [hcur2]
        exact hrr2
      · intro i hi hilen hfid hnone
        dsimp only at hi ⊢
        rw [hcur2]
        by_cases hio : i < st.nextExpanded
        · have := hres1 i hio hilen hfid hnone
          exact ⟨by omega, this.2⟩
        · push_neg at hio
          have hsh := resolveSp_shift { file0 with mappings := file0.mappings ++ maps }
            st.nextExpanded i hio hall_ee1 hbe1
          rw [h_res_ne] at hsh
          simp only at hsh
          rw [hsh.1]
          have hrf := hrunfacts i hio (by omega)
          refine ⟨by omega, ?_⟩
          rw [show ns2 + (i - st.nextExpanded) = ns2 + (i - st.nextExpanded) from rfl]
          exact hrf.1.symm
      · intro j hj i hi hilen hfid
        dsimp only at hj hi
        rw [hcur2] at hj
        by_cases hjo : j < ns2
        · exact hcons1 j hjo i (by omega) hilen hfid
        · push_neg at hjo
          set k := st.nextExpanded + (j - ns2) with hkdef
          have hkin : st.nextExpanded ≤ k ∧ k < ne2 := by omega
          have hrk := hrunfacts k hkin.1 hkin.2
          have hlocjk : ((spelledOf (fidOf sm E st.nextExpanded)).getD j default).loc
              = rootOf sm E k := by
            rw [hrk.2.2.1, hrk.1]
            congr 2
            omega
          have hrootsne : rootOf sm E i ≠ rootOf sm E k := by
            intro hr
            have hrr := hC.rootRuns k ne2 i (by omega) (by omega) hilen hr.symm
            have hfk2 : sm.isFileID ((E.getD ne2 default).loc)
                = sm.isFileID ((E.getD k default).loc) :=
              hC.rootHomogeneous ne2 k (by omega) (by omega) hrr
            rw [hrk.2.1] at hfk2
            have hrfid2 := hC.rootFileId ne2 (by omega) hfk2
            have hne2lt1 : ne2 < E.length - 1 := by omega
            have := hC.fileTokensDistinct k ne2 (by omega) hne2lt1 hrk.2.1 hfk2
            rw [← hrfid2, ← hrk.2.2.1, hrr] at this
            exact this rfl
          have := hC.rootsMono k i (by omega) hilen (by rw [hrk.2.2.2, hfid])
            (fun hh => hrootsne hh.symm)
          omega
      · intro i hi hfid hbet j hj
        dsimp only at hi hbet hj ⊢
        rw [hcur2] at hj
        by_cases hio : i < st.nextExpanded
        · exact absurd rfl (hbet st.nextExpanded (by omega) (by omega))
        · push_neg at hio
          by_cases hilast : i = ne2 - 1
          · subst hilast
            have hrksp := hrunfacts (ne2 - 1) (by omega) (by omega)
            have hspb : spelledBound sm exps E (ne2 - 1) = rootOf sm E (ne2 - 1) := by
              unfold spelledBound
              rw [if_pos hrksp.2.1]
            rw [hspb, hrksp.2.2.1, hrksp.1]
            have hidx : ns2 + (ne2 - 1 - st.nextExpanded) = ns3 - 1 := by omega
            rw [hidx]
            have hsorted := hC.sortedSpelled _ hmemf
            rcases Nat.lt_or_ge j (ns3 - 1) with hjl | hjg
            · have := pairwise_getD hsorted hjl (by omega)
              omega
            · have : j = ns3 - 1 := by omega
              rw [this]
          · exfalso
            have hbk := hbet (i + 1) (by omega) (by omega)
            exact hbk (hrunfacts (i + 1) (by omega) (by omega)).2.2.2
      · intro h
        dsimp only at h
        exact absurd rfl (h st.nextExpanded (by omega))
      · left
        unfold Aligned
        dsimp only
        rw [hcur2]
        have hsh := resolveSp_shift { file0 with mappings := file0.mappings ++ maps }
          st.nextExpanded ne2 (by omega) hall_ee1 hbe1
        rw [h_res_ne] at hsh
        simp only at hsh
        rw [hsh.1]
        omega
    · rw [lookupFile_setFile_ne _ _ _ _ hgf] at hlkg
      have hIg := hL g file hlkg
      have hbg := hS.beginFid g file hlkg
      have hcurg : updFn (updFn st.nextSpelled (fidOf sm E st.nextExpanded) ns2)
          (fidOf sm E st.nextExpanded) ns3 g = st.nextSpelled g := by
        rw [updFn_ne _ _ _ _ hgf, updFn_ne _ _ _ _ hgf]
      exact fileInvLoop_bystander hC hIg hgf (by dsimp only; omega)
        (fun k hk1 hk2 => (hrunfacts k hk1 hk2).2.2.2) hcurg hbg.1 hbg.2

/-- One main-loop step whose advance takes the macro branch preserves the
loop invariant and makes strict expanded progress. -/
theorem step_macro {sm : SrcMgr} {spelledOf : Nat → List Token}
    {exps : List (Nat × Nat)} {E : List Token}
    (hC : Contract sm spelledOf exps E)
    {st st2 : BState} {file0 : MarkedFile} {ns2 endL : Nat} {maps : List Mapping}
    (hS : StaticInv sm spelledOf E st.files)
    (hL : LoopInv sm spelledOf exps E st)
    (hlt : st.nextExpanded < E.length - 1)
    (hlk0 : lookupFile st.files (fidOf sm E st.nextExpanded) = some file0)
    (hns0le : st.nextSpelled (fidOf sm E st.nextExpanded) ≤ ns2)
    (hns2lt : ns2 < (spelledOf (fidOf sm E st.nextExpanded)).length)
    (hloc2 : ((spelledOf (fidOf sm E st.nextExpanded)).getD ns2 default).loc
      = rootOf sm E st.nextExpanded)
    (hcov : MapsCover st.nextExpanded (st.nextSpelled (fidOf sm E st.nextExpanded)) ns2 maps)
    (hdisj : ∀ j, st.nextSpelled (fidOf sm E st.nextExpanded) ≤ j → j < ns2 →
      ((spelledOf (fidOf sm E st.nextExpanded)).getD j default).loc
          < rootOf sm E st.nextExpanded ∨
      ∃ u ke, lookupExp exps u = some ke ∧ u < rootOf sm E st.nextExpanded ∧
        ((spelledOf (fidOf sm E st.nextExpanded)).getD j default).loc ≤ ke)
    (hlkexp : lookupExp exps (rootOf sm E st.nextExpanded) = some endL)
    {ns3 ne2 : Nat}
    (hwle_eq : advanceWhileLe (spelledOf (fidOf sm E st.nextExpanded)) endL ns2 = ns3)
    (hwre_eq : advanceWhileRootEq sm E (rootOf sm E st.nextExpanded) st.nextExpanded = ne2)
    (hst2 : st2 = { files := setFile
                      (setFile st.files (fidOf sm E st.nextExpanded)
                        { file0 with mappings := file0.mappings ++ maps })
                      (fidOf sm E st.nextExpanded)
                      { file0 with mappings := file0.mappings ++ (maps ++
                        [⟨ns2, ns3, st.nextExpanded, ne2⟩]) }
                    nextExpanded := ne2
                    nextSpelled :=
                      updFn (updFn st.nextSpelled (fidOf sm E st.nextExpanded) ns2)
                        (fidOf sm E st.nextExpanded) ns3 })
    (hfidF : sm.isFileID ((E.getD st.nextExpanded default).loc) = false) :
    StaticInv sm spelledOf E st2.files ∧ LoopInv sm spelledOf exps E st2 ∧
    st.nextExpanded < st2.nextExpanded ∧ st2.nextExpanded ≤ E.length - 1 := by
  subst hst2
  have hnelen : st.nextExpanded < E.length := by omega
  have hmemf : fidOf sm E st.nextExpanded ∈ fidsOf sm E :=
    mem_fidsOf.2 ⟨_, hnelen, rfl⟩
  have hfacts := mapsCover_facts hcov
  have hold_wf := (hL _ _ hlk0).core.wfStrict
  have hold_ee := (hL _ _ hlk0).core.eeLeNe
  have hold_es := (hL _ _ hlk0).core.esLe
  have hold_chain := (hL _ _ hlk0).core.chain
  have hold_eeEnd := (hL _ _ hlk0).core.eeLeEnd
  have hbe0 : file0.beginExpanded ≤ st.nextExpanded :=
    hS.beginLe _ _ hlk0 st.nextExpanded hnelen rfl
  have hXke : rootOf sm E st.nextExpanded ≤ endL := by
    obtain ⟨ke, hke, hle⟩ := hC.rootCaptured st.nextExpanded hlt hfidF
    rw [hlkexp] at hke
    injection hke with hkeq
    omega
  obtain ⟨hwl1, hwl2, hwl3, hwl4⟩ := advanceWhileLe_spec
    (spelledOf (fidOf sm E st.nextExpanded)) endL ns2 (by omega)
  obtain ⟨hwr1, hwr2, hwr3, hwr4⟩ := advanceWhileRootEq_spec sm E
    (rootOf sm E st.nextExpanded) st.nextExpanded (by omega)
  have hprog_s : ns2 < advanceWhileLe (spelledOf (fidOf sm E st.nextExpanded)) endL ns2 :=
    advanceWhileLe_progress _ _ _ hns2lt (by rw [hloc2]; exact hXke)
  have hprog_e : st.nextExpanded < advanceWhileRootEq sm E
      (rootOf sm E st.nextExpanded) st.nextExpanded :=
    advanceWhileRootEq_progress sm E _ st.nextExpanded (by omega) rfl
  rw [hwle_eq] at hwl1 hwl2 hwl3 hwl4 hprog_s
  rw [hwre_eq] at hwr1 hwr2 hwr3 hwr4 hprog_e
  have hne2le : ne2 ≤ E.length - 1 := by
    by_contra hc
    push_neg at hc
    have hk := hwr3 (E.length - 1) (by omega) (by omega)
    have := hC.eofRootFresh st.nextExpanded hlt
    exact this hk.symm
  have hfidk : ∀ k, st.nextExpanded ≤ k → k < ne2 →
      fidOf sm E k = fidOf sm E st.nextExpanded := by
    intro k hk1 hk2
    show sm.fileOf (rootOf sm E k) = fidOf sm E st.nextExpanded
    rw [hwr3 k hk1 hk2]
    rfl
  have hkind : (E.getD st.nextExpanded default).kind ≠ TokKind.eof :=
    hC.noEofBefore st.nextExpanded hlt
  have hne2End : ne2 ≤ file0.endExpanded := by
    have hklast : fidOf sm E (ne2 - 1) = fidOf sm E st.nextExpanded :=
      hfidk (ne2 - 1) (by omega) (by omega)
    have hkk : (E.getD (ne2 - 1) default).kind ≠ TokKind.eof :=
      hC.noEofBefore (ne2 - 1) (by omega)
    have := hS.endGe _ _ hlk0 (ne2 - 1) (by omega) hklast hkk
    omega
  have hall_ee1 : ∀ M ∈ file0.mappings ++ maps,
      M.beginExpanded ≤ M.endExpanded ∧ M.endExpanded ≤ st.nextExpanded := by
    intro M hM
    rcases List.mem_append.1 hM with h | h
    · exact ⟨(hold_wf M h).2, hold_ee M h⟩
    · have h1 := (hfacts.2.1 M h).2.2.2.1
      have h2 := (hfacts.2.1 M h).2.2.2.2
      omega
  have hXlt : ∀ i, ne2 ≤ i → i < E.length - 1 →
      fidOf sm E i = fidOf sm E st.nextExpanded →
      rootOf sm E st.nextExpanded < rootOf sm E i ∧ endL < rootOf sm E i := by
    intro i hi hilen hfid
    have hrne : rootOf sm E i ≠ rootOf sm E st.nextExpanded := by
      intro hr
      have hrr := hC.rootRuns st.nextExpanded ne2 i (by omega) (by omega) hilen hr.symm
      exact hwr4 (by omega) hrr
    have h1 := hC.rootsMono st.nextExpanded i (by omega) hilen hfid.symm
      (fun hh => hrne hh.symm)
    have h2 := hC.expAvoidRoots _ (lookupExp_some_mem hlkexp) i hilen (by omega)
    exact ⟨h1, h2⟩
  have hcons1 : ∀ j, j < ns2 → ∀ i, st.nextExpanded ≤ i → i < E.length - 1 →
      fidOf sm E i = fidOf sm E st.nextExpanded →
      ((spelledOf (fidOf sm E st.nextExpanded)).getD j default).loc < rootOf sm E i := by
    intro j hj i hi hilen hfid
    have hXle : rootOf sm E st.nextExpanded ≤ rootOf sm E i := by
      by_cases hreq : rootOf sm E i = rootOf sm E st.nextExpanded
      · omega
      · have hne_lt : st.nextExpanded < i := by
          rcases Nat.eq_or_lt_of_le hi with he | h
          · exfalso
            exact hreq (by rw [← he])
          · exact h
        have := hC.rootsMono st.nextExpanded i hne_lt hilen hfid.symm
          (fun hh => hreq hh.symm)
        omega
    by_cases hjo : j < st.nextSpelled (fidOf sm E st.nextExpanded)
    · exact (hL _ _ hlk0).consumed j hjo i hi hilen hfid
    · push_neg at hjo
      rcases hdisj j hjo hj with hx | ⟨u, ke, hu, hult, hke⟩
      · omega
      · have hmemu := lookupExp_some_mem hu
        have := hC.expAvoidRoots _ hmemu i hilen (by omega)
        omega
  have hall_be_ne : ∀ M ∈ file0.mappings ++
      (maps ++ [(⟨ns2, ns3, st.nextExpanded, ne2⟩ : Mapping)]),
      M.beginExpanded ≤ st.nextExpanded := by
    intro M hM
    rcases List.mem_append.1 hM with h | h
    · have := hold_ee M h
      have := (hold_wf M h).2
      omega
    · rcases List.mem_append.1 h with h2 | h2
      · have := (hfacts.2.1 M h2).2.2.2.1
        omega
      · simp only [List.mem_singleton] at h2
        subst h2
        exact Nat.le_refl _
  have hlast2 : (file0.mappings ++
      (maps ++ [(⟨ns2, ns3, st.nextExpanded, ne2⟩ : Mapping)])).getD
      ((file0.mappings ++
        (maps ++ [(⟨ns2, ns3, st.nextExpanded, ne2⟩ : Mapping)])).length - 1) default
      = (⟨ns2, ns3, st.nextExpanded, ne2⟩ : Mapping) := by
    rw [List.length_append, List.length_append, List.length_singleton]
    rw [getD_append_right (by omega), getD_append_right (by omega)]
    simp
  have hres2 : ∀ i, st.nextExpanded ≤ i →
      resolveSp { file0 with mappings := file0.mappings ++
        (maps ++ [(⟨ns2, ns3, st.nextExpanded, ne2⟩ : Mapping)]) } i
      = (if i < ne2 then (ns2, some (⟨ns2, ns3, st.nextExpanded, ne2⟩ : Mapping))
         else (ns3 + (i - ne2), none)) := by
    intro i hi
    have h := resolveSp_last_formula
      { file0 with mappings := file0.mappings ++
        (maps ++ [(⟨ns2, ns3, st.nextExpanded, ne2⟩ : Mapping)]) } i
      (by
        intro M hM
        have := hall_be_ne M hM
        omega)
      (by simp)
    rw [h]
    simp only at hlast2 ⊢
    rw [hlast2]
  refine ⟨?_, ?_, by dsimp only; omega, by dsimp only; exact hne2le⟩
  · dsimp only
    exact staticInv_set (staticInv_set hS hlk0 (file0.mappings ++ maps))
      (lookupFile_setFile_self _ _ _)
      (file0.mappings ++ (maps ++ [⟨ns2, ns3, st.nextExpanded, ne2⟩]))
  · intro g file hlkg
    dsimp only at hlkg
    by_cases hgf : g = fidOf sm E st.nextExpanded
    · subst hgf
      rw [lookupFile_setFile_self] at hlkg
      injection hlkg with hfe
      subst hfe
      have hcur2 : updFn (updFn st.nextSpelled (fidOf sm E st.nextExpanded) ns2)
          (fidOf sm E st.nextExpanded) ns3 (fidOf sm E st.nextExpanded) = ns3 :=
        updFn_self _ _ _
      refine ⟨⟨?_, ?_, ?_, ?_, ?_, ?_⟩, ?_, ?_, ?_, ?_, ?_⟩
      · dsimp only
        rw [List.pairwise_append]
        refine ⟨hold_chain, ?_, ?_⟩
        · rw [List.pairwise_append]
          refine ⟨?_, by simp, ?_⟩
          · refine (hfacts.2.2).imp_of_mem ?_
            intro a b ha hb hr
            refine ⟨hr, ?_⟩
            have h1 := (hfacts.2.1 a ha).2.2.2.2
            have h2 := (hfacts.2.1 b hb).2.2.2.1
            omega
          · intro a haa b hbb
            simp only [List.mem_singleton] at hbb
            subst hbb
            have h1 := (hfacts.2.1 a haa).2.2.1
            have h2 := (hfacts.2.1 a haa).2.2.2.2
            exact ⟨by dsimp only; omega, by dsimp only; omega⟩
        · intro a haa b hbb
          rcases List.mem_append.1 hbb with h2 | h2
          · have h1 := hold_es a haa
            have h3 := hold_ee a haa
            have h4 := (hfacts.2.1 b h2).1
            have h5 := (hfacts.2.1 b h2).2.2.2.1
            exact ⟨by omega, by omega⟩
          · simp only [List.mem_singleton] at h2
            subst h2
            have h1 := hold_es a haa
            have h3 := hold_ee a haa
            exact ⟨by dsimp only; omega, by dsimp only; omega⟩
      · intro M hM
        dsimp only at hM
        rcases List.mem_append.1 hM with h | h
        · exact hold_wf M h
        · rcases List.mem_append.1 h with h2 | h2
          · have h3 := (hfacts.2.1 M h2).2.1
            have h4 := (hfacts.2.1 M h2).2.2.2.1
            have h5 := (hfacts.2.1 M h2).2.2.2.2
            exact ⟨h3, by omega⟩
          · simp only [List.mem_singleton] at h2
            subst h2
            exact ⟨by dsimp only; omega, by dsimp only; omega⟩
      · intro M hM
        dsimp only at hM ⊢
        rw [hcur2]
        rcases List.mem_append.1 hM with h | h
        · have := hold_es M h
          omega
        · rcases List.mem_append.1 h with h2 | h2
          · have := (hfacts.2.1 M h2).2.2.1
            omega
          · simp only [List.mem_singleton] at h2
            subst h2
            dsimp only
            omega
      · intro M hM
        dsimp only at hM ⊢
        rcases List.mem_append.1 hM with h | h
        · have := hold_ee M h
          omega
        · rcases List.mem_append.1 h with h2 | h2
          · have := (hfacts.2.1 M h2).2.2.2.2
            omega
          · simp only [List.mem_singleton] at h2
            subst h2
            dsimp only
            omega
      · intro M hM
        dsimp only at hM ⊢
        rcases List.mem_append.1 hM with h | h
        · exact hold_eeEnd M h
        · rcases List.mem_append.1 h with h2 | h2
          · have := (hfacts.2.1 M h2).2.2.2.2
            omega
          · simp only [List.mem_singleton] at h2
            subst h2
            exact hne2End
      · dsimp only
        rw [hcur2]
        exact hwl2
      · intro i hi hilen hfid hnone
        dsimp only at hi hnone ⊢
        rw [hcur2]
        by_cases hio : i < st.nextExpanded
        · have hra : resolveSp { file0 with mappings := file0.mappings ++
              (maps ++ [(⟨ns2, ns3, st.nextExpanded, ne2⟩ : Mapping)]) } i
              = resolveSp file0 i := by
            refine resolveSp_append file0 _ i ?_
            intro Mx hMx
            rcases List.mem_append.1 hMx with h2 | h2
            · have := (hfacts.2.1 Mx h2).2.2.2.1
              omega
            · simp only [List.mem_singleton] at h2
              subst h2
              dsimp only
              omega
          rw [hra] at hnone ⊢
          have h1 := (hL _ _ hlk0).resolved i hio hilen hfid hnone
          exact ⟨by omega, h1.2⟩
        · exfalso
          push_neg at hio
          rw [hres2 i hio, if_pos (by omega)] at hnone
          simp at hnone
      · intro j hj i hi hilen hfid
        dsimp only at hj hi
        rw [hcur2] at hj
        by_cases hjo : j < ns2
        · exact hcons1 j hjo i (by omega) hilen hfid
        · push_neg at hjo
          have h1 := hwl3 j hjo hj
          have h2 := hXlt i (by omega) hilen hfid
          omega
      · intro i hi hfid hbet j hj
        dsimp only at hi hbet hj ⊢
        rw [hcur2] at hj
        by_cases hio : i < st.nextExpanded
        · exact absurd rfl (hbet st.nextExpanded (by omega) (by omega))
        · push_neg at hio
          by_cases hilast : i = ne2 - 1
          · subst hilast
            have hhom := hC.rootHomogeneous (ne2 - 1) st.nextExpanded (by omega) hnelen
              (hwr3 (ne2 - 1) (by omega) (by omega))
            rw [hfidF] at hhom
            have hspb : spelledBound sm exps E (ne2 - 1) = endL := by
              unfold spelledBound
              rw [if_neg (by rw [hhom]; simp)]
              rw [show rootOf sm E (ne2 - 1) = rootOf sm E st.nextExpanded from
                hwr3 (ne2 - 1) (by omega) (by omega)]
              rw [hlkexp]
              rfl
            rw [hspb]
            by_cases hjo : j < ns2
            · have := hcons1 j hjo st.nextExpanded (Nat.le_refl _) hlt rfl
              omega
            · push_neg at hjo
              exact hwl3 j hjo hj
          · exfalso
            have hbk := hbet (i + 1) (by omega) (by omega)
            exact hbk (hfidk (i + 1) (by omega) (by omega))
      · intro h
        dsimp only at h
        exact absurd rfl (h st.nextExpanded (by omega))
      · left
        unfold Aligned
        dsimp only
        rw [hcur2]
        rw [hres2 ne2 (by omega), if_neg (by omega)]
        simp
    · rw [lookupFile_setFile_ne _ _ _ _ hgf, lookupFile_setFile_ne _ _ _ _ hgf] at hlkg
      have hIg := hL g file hlkg
      have hbg := hS.beginFid g file hlkg
      have hcurg : updFn (updFn st.nextSpelled (fidOf sm E st.nextExpanded) ns2)
          (fidOf sm E st.nextExpanded) ns3 g = st.nextSpelled g := by
        rw [updFn_ne _ _ _ _ hgf, updFn_ne _ _ _ _ hgf]
      exact fileInvLoop_bystander hC hIg hgf (by dsimp only; omega)
        (fun k hk1 hk2 => hfidk k hk1 hk2) hcurg hbg.1 hbg.2

/-- One full main-loop step (discard, then advance) preserves the loop
invariant, strictly advances NextExpanded, and never passes the eof. -/
theorem step_preserves {sm : SrcMgr} {spelledOf : Nat → List Token}
    {exps : List (Nat × Nat)} {E : List Token}
    (hC : Contract sm spelledOf exps E)
    {st st1 st2 : BState}
    (hS : StaticInv sm spelledOf E st.files)
    (hL : LoopInv sm spelledOf exps E st)
    (hlt : st.nextExpanded < E.length - 1)
    (hd : discard sm exps E none st = some st1)
    (ha : advance sm exps E st1 = some st2) :
    StaticInv sm spelledOf E st2.files ∧ LoopInv sm spelledOf exps E st2 ∧
    st.nextExpanded < st2.nextExpanded ∧ st2.nextExpanded ≤ E.length - 1 := by
  obtain ⟨file0, ns2, maps, hlk0, hsteq, hns0le, hns2lt, hloc2, hcov, hdisj⟩ :=
    discard_none_spec hC hS hL hlt hd
  rw [hsteq] at ha
  set R1 : BState := ⟨setFile st.files (fidOf sm E st.nextExpanded)
      { file0 with mappings := file0.mappings ++ maps },
    st.nextExpanded, updFn st.nextSpelled (fidOf sm E st.nextExpanded) ns2⟩ with hR1
  have e1 : dFid sm E R1 none = fidOf sm E st.nextExpanded := rfl
  have e2 : R1.nextExpanded = st.nextExpanded := rfl
  have e3 : R1.nextSpelled = updFn st.nextSpelled (fidOf sm E st.nextExpanded) ns2 := rfl
  have e4 : R1.files = setFile st.files (fidOf sm E st.nextExpanded)
      { file0 with mappings := file0.mappings ++ maps } := rfl
  have e6 : curRoot sm E R1 = rootOf sm E st.nextExpanded := rfl
  have e7 : dFile sm E R1 none = { file0 with mappings := file0.mappings ++ maps } := by
    show (lookupFile (setFile st.files (fidOf sm E st.nextExpanded)
      { file0 with mappings := file0.mappings ++ maps })
      (fidOf sm E st.nextExpanded)).getD default
      = { file0 with mappings := file0.mappings ++ maps }
    rw [lookupFile_setFile_self]
    rfl
  have hupd : updFn st.nextSpelled (fidOf sm E st.nextExpanded) ns2
      (fidOf sm E st.nextExpanded) = ns2 := updFn_self _ _ _
  have hsp0 : file0.spelledTokens = spelledOf (fidOf sm E st.nextExpanded) :=
    hS.spelled _ _ hlk0
  rcases advance_some_shape ha with ⟨hfidT, hst2eq⟩ | ⟨hfidF, endL, hlkexp, hst2eq⟩
  · have hfidT' : sm.isFileID ((E.getD st.nextExpanded default).loc) = true := hfidT
    simp only [e1, e3, hupd, e2, e4, e7] at hst2eq
    have hps : advanceFileRun (spelledOf (fidOf sm E st.nextExpanded)) E ns2 st.nextExpanded
        = ((advanceFileRun file0.spelledTokens E ns2 st.nextExpanded).1,
           (advanceFileRun file0.spelledTokens E ns2 st.nextExpanded).2) := by
      rw [← hsp0]
    exact step_fileRun hC hS hL hlt hlk0 hns0le hns2lt hloc2 hcov hdisj hps hst2eq hfidT'
  · have hfidF' : sm.isFileID ((E.getD st.nextExpanded default).loc) = false := hfidF
    rw [e6] at hlkexp
    simp only [e1, e3, hupd, e2, e4, e6, e7] at hst2eq
    rw [List.append_assoc] at hst2eq
    have hwle : advanceWhileLe (spelledOf (fidOf sm E st.nextExpanded)) endL ns2
        = advanceWhileLe file0.spelledTokens endL ns2 := by
      rw [hsp0]
    exact step_macro hC hS hL hlt hlk0 hns0le hns2lt hloc2 hcov hdisj hlkexp hwle rfl
      hst2eq hfidF'

/-- The files table of the initial builder state satisfies the static
invariant, with all mappings empty. -/
theorem buildSpelledTokens_staticInv (sm : SrcMgr) (spelledOf : Nat → List Token)
    (E : List Token) (heof : (E.getD (E.length - 1) default).kind = TokKind.eof) :
    StaticInv sm spelledOf E (buildSpelledTokensGo sm spelledOf E 0 []) ∧
    (∀ f file, lookupFile (buildSpelledTokensGo sm spelledOf E 0 []) f = some file →
      file.mappings = []) := by
  have h0 : BsgP sm spelledOf E 0 [] := by
    refine ⟨?_, ?_, by simp⟩
    · intro f file h
      simp [lookupFile] at h
    · intro f
      simp [lookupFile]
  have hP := buildSpelledTokensGo_inv sm spelledOf E heof E 0 [] (by simp) (by omega) h0
  obtain ⟨hP1, hP2, hP3⟩ := hP
  constructor
  · refine ⟨?_, ?_, ?_, ?_, ?_, ?_, hP3⟩
    · intro f file h
      exact (hP1 f file h).1
    · intro f
      rw [hP2 f, mem_fidsOf]
    · intro f file h
      obtain ⟨_, _, q3, q4, _, _⟩ := hP1 f file h
      exact ⟨q3, q4⟩
    · intro f file h i hi hf
      exact ((hP1 f file h).2.2.2.2.1 i hi hf).1
    · intro f file h i hi hf hk
      exact ((hP1 f file h).2.2.2.2.1 i hi hf).2 hk
    · intro f file h
      exact (hP1 f file h).2.2.2.2.2
  · intro f file h
    exact (hP1 f file h).2.1


/-- The main loop carries the invariant to its final state, where
NextExpanded sits exactly on the final eof. -/
theorem mainLoop_inv {sm : SrcMgr} {spelledOf : Nat → List Token}
    {exps : List (Nat × Nat)} {E : List Token}
    (hC : Contract sm spelledOf exps E) :
    ∀ (fuel : Nat) (st st' : BState),
      StaticInv sm spelledOf E st.files → LoopInv sm spelledOf exps E st →
      st.nextExpanded ≤ E.length - 1 →
      mainLoop sm exps E fuel st = some st' →
      StaticInv sm spelledOf E st'.files ∧ LoopInv sm spelledOf exps E st' ∧
      st'.nextExpanded = E.length - 1 := by
  intro fuel
  induction fuel with
  | zero =>
      intro st st' _ _ _ h
      simp [mainLoop] at h
  | succ n ih =>
      intro st st' hS hL hle h
      rcases mainLoop_succ_shape h with ⟨hstop, rfl⟩ | ⟨hlt, st1, st2, h1, h2, hne, h3⟩
      · exact ⟨hS, hL, by omega⟩
      · obtain ⟨hS2, hL2, hprog, hle2⟩ := step_preserves hC hS hL hlt h1 h2
        exact ih st2 st' hS2 hL2 hle2 h3

/-- A drain-phase discard preserves the surviving invariant: it flushes
trailing spelled tokens as empty-expanded mappings at the file's
EndExpanded, leaving every earlier resolution untouched. -/
theorem drain_preserves {sm : SrcMgr} {spelledOf : Nat → List Token}
    {exps : List (Nat × Nat)} {E : List Token}
    (hC : Contract sm spelledOf exps E)
    {st st' : BState} {f : Nat}
    (hS : StaticInv sm spelledOf E st.files)
    (hInv : CoreInv sm spelledOf E st)
    (hne : st.nextExpanded = E.length - 1)
    (hfmem : f ∈ st.files.map Prod.fst)
    (hd : discard sm exps E (some f) st = some st') :
    StaticInv sm spelledOf E st'.files ∧ CoreInv sm spelledOf E st' ∧
    st'.nextExpanded = st.nextExpanded ∧
    st'.files.map Prod.fst = st.files.map Prod.fst := by
  have hisSome := (lookupFile_isSome_iff st.files f).2 hfmem
  obtain ⟨file0, hlk0⟩ := Option.isSome_iff_exists.1 hisSome
  have hfid : dFid sm E st (some f) = f := by
    show sm.fileOf (sm.endOfFile f) = f
    exact hC.fileOfEof f ((hS.keysMem f).1 hisSome)
  have htarget : discardTarget sm E st (some f) = sm.endOfFile f := rfl
  have hbexp : discardBexp st (some f) = file0.endExpanded := by
    show ((lookupFile st.files f).getD default).endExpanded = _
    rw [hlk0]
    rfl
  have hdfile : dFile sm E st (some f) = file0 := by
    unfold dFile
    rw [hfid, hlk0]
    rfl
  have hsp : file0.spelledTokens = spelledOf f := hS.spelled _ _ hlk0
  obtain ⟨ns2, maps, hloop, hsteq⟩ := discard_some_shape hd
  rw [hdfile, hfid, htarget, hbexp, hsp] at hloop
  rw [hdfile, hfid] at hsteq
  have hIf := hInv f file0 hlk0
  have hns0le : st.nextSpelled f ≤ (spelledOf f).length := hIf.1.nsLe
  obtain ⟨ns2', maps', hloop', hle', hlen', hcov', hstop', hdisj'⟩ :=
    discardLoop_spec exps (spelledOf f) (sm.endOfFile f) file0.endExpanded hC.expStartLe
      ((spelledOf f).length + 1) (st.nextSpelled f) (st.nextSpelled f) []
      (Nat.le_refl _) hns0le (by omega)
  rw [hloop] at hloop'
  injection hloop' with hpair
  injection hpair with h1 h2
  simp only [List.nil_append] at h2
  subst h1
  subst h2
  subst hsteq
  have hfacts := mapsCover_facts hcov'
  have hendLe : file0.endExpanded ≤ E.length - 1 := hS.endLe _ _ hlk0
  refine ⟨?_, ?_, rfl, ?_⟩
  · dsimp only
    exact staticInv_set hS hlk0 (file0.mappings ++ maps)
  · intro g file hlkg
    dsimp only at hlkg
    by_cases hgf : g = f
    · subst hgf
      rw [lookupFile_setFile_self] at hlkg
      injection hlkg with hfe
      subst hfe
      have hcur : updFn st.nextSpelled g ns2 g = ns2 := updFn_self _ _ _
      constructor
      · refine ⟨?_, ?_, ?_, ?_, ?_, ?_⟩
        · dsimp only
          rw [List.pairwise_append]
          refine ⟨hIf.1.chain, ?_, ?_⟩
          · refine (hfacts.2.2).imp_of_mem ?_
            intro a b ha hb hr
            refine ⟨hr, ?_⟩
            have h1 := (hfacts.2.1 a ha).2.2.2.2
            have h2 := (hfacts.2.1 b hb).2.2.2.1
            omega
          · intro a haa b hbb
            have h1 := hIf.1.esLe a haa
            have h2 := hIf.1.eeLeEnd a haa
            have h3 := (hfacts.2.1 b hbb).1
            have h4 := (hfacts.2.1 b hbb).2.2.2.1
            exact ⟨by omega, by omega⟩
        · intro M hM
          dsimp only at hM
          rcases List.mem_append.1 hM with h | h
          · exact hIf.1.wfStrict M h
          · have h1 := (hfacts.2.1 M h).2.1
            have h2 := (hfacts.2.1 M h).2.2.2.1
            have h3 := (hfacts.2.1 M h).2.2.2.2
            exact ⟨h1, by omega⟩
        · intro M hM
          dsimp only at hM ⊢
          rw [hcur]
          rcases List.mem_append.1 hM with h | h
          · have := hIf.1.esLe M h
            omega
          · have := (hfacts.2.1 M h).2.2.1
            omega
        · intro M hM
          dsimp only at hM ⊢
          rcases List.mem_append.1 hM with h | h
          · exact hIf.1.eeLeNe M h
          · have := (hfacts.2.1 M h).2.2.2.2
            omega
        · intro M hM
          dsimp only at hM ⊢
          rcases List.mem_append.1 hM with h | h
          · exact hIf.1.eeLeEnd M h
          · have := (hfacts.2.1 M h).2.2.2.2
            omega
        · dsimp only
          rw [hcur]
          omega
      · intro i hi hilen hfid2 hnone
        dsimp only at hi hnone ⊢
        rw [hcur]
        have hiend : i + 1 ≤ file0.endExpanded := by
          refine hS.endGe _ _ hlk0 i (by omega) hfid2 ?_
          exact hC.noEofBefore i hilen
        have hra : resolveSp { file0 with mappings := file0.mappings ++ maps } i
            = resolveSp file0 i := by
          refine resolveSp_append file0 maps i ?_
          intro Mx hMx
          have := (hfacts.2.1 Mx hMx).2.2.2.1
          omega
        rw [hra] at hnone ⊢
        have h1 := hIf.2 i hi hilen hfid2 hnone
        exact ⟨by omega, h1.2⟩
    · rw [lookupFile_setFile_ne _ _ _ _ hgf] at hlkg
      have hIg := hInv g file hlkg
      have hcurg : updFn st.nextSpelled f ns2 g = st.nextSpelled g :=
        updFn_ne _ _ _ _ hgf
      constructor
      · refine ⟨hIg.1.chain, hIg.1.wfStrict, ?_, ?_, hIg.1.eeLeEnd, ?_⟩
        · intro M hM
          dsimp only
          rw [hcurg]
          exact hIg.1.esLe M hM
        · intro M hM
          dsimp only
          exact hIg.1.eeLeNe M hM
        · dsimp only
          rw [hcurg]
          exact hIg.1.nsLe
      · intro i hi hilen hfid2 hnone
        dsimp only at hi hnone ⊢
        rw [hcurg]
        exact hIg.2 i hi hilen hfid2 hnone
  · dsimp only
    exact setFile_map_fst_of_mem _ hfmem

/-- The drain pass preserves the surviving invariant for every file. -/
theorem drainAll_inv {sm : SrcMgr} {spelledOf : Nat → List Token}
    {exps : List (Nat × Nat)} {E : List Token}
    (hC : Contract sm spelledOf exps E) :
    ∀ (l : List Nat) (st st' : BState),
      StaticInv sm spelledOf E st.files → CoreInv sm spelledOf E st →
      st.nextExpanded = E.length - 1 →
      (∀ f ∈ l, f ∈ st.files.map Prod.fst) →
      drainAll sm exps E l st = some st' →
      StaticInv sm spelledOf E st'.files ∧ CoreInv sm spelledOf E st' ∧
      st'.nextExpanded = E.length - 1 := by
  intro l
  induction l with
  | nil =>
      intro st st' hS hI hne _ h
      simp [drainAll] at h
      subst h
      exact ⟨hS, hI, hne⟩
  | cons f rest ih =>
      intro st st' hS hI hne hmem h
      obtain ⟨st1, h1, h2⟩ := drainAll_cons_shape h
      obtain ⟨hS1, hI1, hne1, hkeys1⟩ :=
        drain_preserves hC hS hI hne (hmem f (by simp)) h1
      refine ih st1 st' hS1 hI1 (by omega) ?_ h2
      intro g hg
      rw [hkeys1]
      exact hmem g (by simp [hg])

/-- The initial builder state satisfies the loop invariant. -/
theorem initial_loopInv {sm : SrcMgr} {spelledOf : Nat → List Token}
    {exps : List (Nat × Nat)} {E : List Token} {fs0 : List (Nat × MarkedFile)}
    (hmapsnil : ∀ f file, lookupFile fs0 f = some file → file.mappings = []) :
    LoopInv sm spelledOf exps E
      { files := fs0, nextExpanded := 0, nextSpelled := fun _ => 0 } := by
  intro f file hlk
  have hmp := hmapsnil f file hlk
  refine ⟨⟨?_, ?_, ?_, ?_, ?_, ?_⟩, ?_, ?_, ?_, ?_, ?_⟩
  · rw [hmp]
    exact List.Pairwise.nil
  · rw [hmp]
    simp
  · rw [hmp]
    simp
  · rw [hmp]
    simp
  · rw [hmp]
    simp
  · exact Nat.zero_le _
  · intro i hi
    exact absurd hi (Nat.not_lt_zero i)
  · intro j hj
    exact absurd hj (Nat.not_lt_zero j)
  · intro i hi
    exact absurd hi (Nat.not_lt_zero i)
  · intro _
    rfl
  · left
    unfold Aligned
    rw [resolveSp_empty file 0 hmp]
    simp

/-- The invariant carried to the finished buffer: the files table of a
successful build is the drained table of a final state whose cursors
bound every mapping, with every pre-eof expanded token resolved. -/
theorem build_inv {sm : SrcMgr} {spelledOf : Nat → List Token}
    {exps : List (Nat × Nat)} {E : List Token} {buf : TokenBuffer}
    (hC : Contract sm spelledOf exps E)
    (hb : build sm spelledOf exps E = some buf) :
    buf.expandedTokens = E ∧
    ∃ st2 : BState, buf.files = st2.files ∧ st2.nextExpanded = E.length - 1 ∧
      StaticInv sm spelledOf E st2.files ∧ CoreInv sm spelledOf E st2 := by
  obtain ⟨hEne, hEeof, st1, st2, h1, h2, hbuf⟩ := build_some_shape hb
  have heof : (E.getD (E.length - 1) default).kind = TokKind.eof := by
    rw [← getLast_getD_eq_getD]
    exact hEeof
  obtain ⟨hS0, hnil0⟩ := buildSpelledTokens_staticInv sm spelledOf E heof
  have hL0 : LoopInv sm spelledOf exps E
      { files := buildSpelledTokensGo sm spelledOf E 0 []
        nextExpanded := 0
        nextSpelled := fun _ => 0 } := initial_loopInv hnil0
  obtain ⟨hS1, hL1, hne1⟩ := mainLoop_inv hC (E.length + 1) _ st1 hS0 hL0
    (by dsimp only; omega) h1
  have hI1 : CoreInv sm spelledOf E st1 := by
    intro f file h
    exact ⟨(hL1 f file h).core, (hL1 f file h).resolved⟩
  obtain ⟨hS2, hI2, hne2⟩ := drainAll_inv hC (st1.files.map Prod.fst) st1 st2 hS1 hI1 hne1
    (fun f hf => hf) h2
  subst hbuf
  exact ⟨rfl, st2, rfl, hne2, hS2, hI2⟩

/-- C6: after the Builder completes, no Mapping in any file has an empty
spelled side: every stored Mapping satisfies BeginSpelled < EndSpelled,
for the Mappings pushed both by discard's FlushMapping (guarded by
BeginSpelled != NextSpelled) and by advance's macro branch (which always
consumes the spelled token at the expansion root). -/
theorem claim_c6_no_empty_spelled (sm : SrcMgr) (spelledOf : Nat → List Token)
    (exps : List (Nat × Nat)) (E : List Token) (buf : TokenBuffer)
    (hC : Contract sm spelledOf exps E)
    (hb : build sm spelledOf exps E = some buf) :
    ∀ p ∈ buf.files, ∀ M ∈ p.2.mappings, M.beginSpelled < M.endSpelled := by
  obtain ⟨_, st2, hfiles, _, hS2, hI2⟩ := build_inv hC hb
  intro p hp M hM
  rw [hfiles] at hp
  have hlk := lookupFile_of_mem_nodup hS2.nodupKeys hp
  exact ((hI2 _ _ hlk).1.wfStrict M hM).1

/-- Witness for C6 on scenario A: the three discard-flushed mappings of
file 0 all have non-empty spelled sides. -/
theorem claim_c6_witness :
    (⟨0, 6, 0, 0⟩ : Mapping).beginSpelled < (⟨0, 6, 0, 0⟩ : Mapping).endSpelled :=
  claim_c6_no_empty_spelled smA spelledOfA expsA EA bufA contractA (by decide)
    (0, fileA) (by decide) ⟨0, 6, 0, 0⟩ (by decide)

/-- C1 (amended): after the Builder completes, every file's Mappings are
strictly ordered and non-overlapping on the spelled side, and (weakly)
ordered and non-overlapping on the expanded side — strictness fails on
the expanded side because consecutive discard-flushed mappings share the
same empty expanded range. -/
theorem claim_c1_amended (sm : SrcMgr) (spelledOf : Nat → List Token)
    (exps : List (Nat × Nat)) (E : List Token) (buf : TokenBuffer)
    (hC : Contract sm spelledOf exps E)
    (hb : build sm spelledOf exps E = some buf) :
    ∀ p ∈ buf.files,
      StrictDisjointSpelled p.2.mappings ∧ OrderedDisjointExpanded p.2.mappings := by
  obtain ⟨_, st2, hfiles, _, hS2, hI2⟩ := build_inv hC hb
  intro p hp
  rw [hfiles] at hp
  have hlk := lookupFile_of_mem_nodup hS2.nodupKeys hp
  have hchain := (hI2 _ _ hlk).1.chain
  have hwf := (hI2 _ _ hlk).1.wfStrict
  constructor
  · refine hchain.imp_of_mem ?_
    intro a b ha hb2 hr
    have h1 := (hwf a ha).1
    exact ⟨by omega, hr.1⟩
  · refine hchain.imp_of_mem ?_
    intro a b ha hb2 hr
    have h1 := (hwf a ha).2
    exact ⟨by omega, hr.2⟩

/-- Witness for C1 (amended) on scenario A: the mappings [0,6), [6,7),
[7,8) are strictly ordered on the spelled side and weakly ordered on the
expanded side (all at the empty range [0,0)). -/
theorem claim_c1_amended_witness :
    StrictDisjointSpelled fileA.mappings ∧ OrderedDisjointExpanded fileA.mappings :=
  claim_c1_amended smA spelledOfA expsA EA bufA contractA (by decide)
    (0, fileA) (by decide)

/-- C10 (amended): for every expanded token strictly before the final
end-of-file token, spelledForExpandedToken returns a spelled-token index
strictly within the bounds of its file's SpelledTokens; the original
claim fails for the eof token itself, whose computed index is one past
the end. -/
theorem claim_c10_amended (sm : SrcMgr) (spelledOf : Nat → List Token)
    (exps : List (Nat × Nat)) (E : List Token) (buf : TokenBuffer)
    (hC : Contract sm spelledOf exps E)
    (hb : build sm spelledOf exps E = some buf) :
    ∀ i, i < E.length - 1 →
      ∃ fid j m file, spelledForExpandedToken sm buf i = some (fid, j, m) ∧
        lookupFile buf.files fid = some file ∧ j < file.spelledTokens.length := by
  obtain ⟨hET, st2, hfiles, hne2, hS2, hI2⟩ := build_inv hC hb
  intro i hi
  have hilen : i < buf.expandedTokens.length := by
    rw [hET]
    omega
  have hfid : sm.fileOf (sm.expansionLoc ((buf.expandedTokens.getD i default).loc))
      = fidOf sm E i := by
    rw [hET]
    rfl
  have hmemf : fidOf sm E i ∈ fidsOf sm E := mem_fidsOf.2 ⟨i, by omega, rfl⟩
  have hisSome := (hS2.keysMem _).2 hmemf
  obtain ⟨file, hlk⟩ := Option.isSome_iff_exists.1 hisSome
  have hlkbuf : lookupFile buf.files (fidOf sm E i) = some file := by
    rw [hfiles]
    exact hlk
  have heval : spelledForExpandedToken sm buf i
      = some (fidOf sm E i, (resolveSp file i).1, (resolveSp file i).2) := by
    simp only [spelledForExpandedToken]
    rw [if_pos hilen, hfid, hlkbuf]
  have hsp : file.spelledTokens = spelledOf (fidOf sm E i) := hS2.spelled _ _ hlk
  have hcore := (hI2 _ _ hlk).1
  cases hr2 : (resolveSp file i).2 with
  | some M =>
      obtain ⟨hMmem, hj, _, _⟩ := resolveSp_snd_mem hr2
      refine ⟨fidOf sm E i, (resolveSp file i).1, some M, file, ?_, hlkbuf, ?_⟩
      · rw [heval, hr2]
      · rw [hj, hsp]
        have h1 := (hcore.wfStrict M hMmem).1
        have h2 := hcore.esLe M hMmem
        have h3 := hcore.nsLe
        omega
  | none =>
      have hres := (hI2 _ _ hlk).2 i (by omega) hi rfl hr2
      refine ⟨fidOf sm E i, (resolveSp file i).1, none, file, ?_, hlkbuf, ?_⟩
      · rw [heval, hr2]
      · rw [hsp]
        have h3 := hcore.nsLe
        omega

/-- Witness for C10 (amended) on scenario A: both pre-eof expanded tokens
resolve to in-bounds spelled indices (8 and 9 of the ten spelled
tokens). -/
theorem claim_c10_amended_witness :
    ∃ fid j m file, spelledForExpandedToken smA bufA 0 = some (fid, j, m) ∧
      lookupFile bufA.files fid = some file ∧ j < file.spelledTokens.length :=
  claim_c10_amended smA spelledOfA expsA EA bufA contractA (by decide)
    0 (by decide)

end SyntaxTok
